import Mathlib

/-!
# The flex layout pass of `danmaku/internal/uikit/flex/flex.go`

A shallow embedding of `Flex.OnLayout` and of the helpers it calls
(`mainSize`, `crossSize`, `flexBaseSize`, `round`), followed by theorems about
the rectangles the pass hands to the children of a container.

## Numbers

* Go `int` is embedded as `Int` (no wrap-around at 64 bits).
* Go `float64` is embedded as `F64`: a finite value is the rational number it
  denotes, and the three non-finite values are kept apart.  Every arithmetic
  operation rounds its exact result to the nearest binary64 value, ties to
  even (`F64.rnd`), overflows to an infinity and follows the IEEE-754 rules
  for division by zero and for non-finite operands.  The sign of a zero is
  not tracked: the only divisors in `OnLayout` are the literal `2` and
  converted integers, neither of which is a negative zero, and no other
  operation of the pass can tell the two zeros apart.

## Views

`uikit.View` is not part of the sources at hand; `View` below holds what the
pass reads from it, and the calls the pass makes on the children are returned
as a trace (`Pass.calls`).
-/

namespace flex

/-! ## binary64 -/

/-- A `float64` value: a finite number, an infinity or a NaN. -/
inductive F64 where
  | fin (q : ℚ)
  | pinf
  | ninf
  | nan
deriving DecidableEq, Repr

/-- Nearest integer, ties to the even one. -/
def roundEven (x : ℚ) : ℤ :=
  if x - ⌊x⌋ < 1 / 2 then ⌊x⌋
  else if 1 / 2 < x - ⌊x⌋ then ⌊x⌋ + 1
  else if ⌊x⌋ % 2 = 0 then ⌊x⌋ else ⌊x⌋ + 1

/-- Number of binary digits of `n`, by halving; `fuel` bounds the number of
halvings. -/
def bitLen : Nat → Nat → Nat
  | 0, _ => 0
  | fuel + 1, n => if n = 0 then 0 else bitLen fuel (n / 2) + 1

/-- The integer `e` with `2^e ≤ |q| < 2^(e+1)`, and `0` for `q = 0`: the value
of `Int.log 2 |q|`, computed from the digits of numerator and denominator. -/
def ilog2 (q : ℚ) : ℤ :=
  if q = 0 then 0
  else if (2 : ℚ) ^ ((bitLen q.num.natAbs q.num.natAbs : ℤ) - (bitLen q.den q.den : ℤ)) ≤ |q| then
    (bitLen q.num.natAbs q.num.natAbs : ℤ) - (bitLen q.den q.den : ℤ)
  else (bitLen q.num.natAbs q.num.natAbs : ℤ) - (bitLen q.den q.den : ℤ) - 1

/-- Exponent of the unit in the last place of the binary64 values next to
`q`: 53 significant bits, and never below the subnormal spacing `2^-1074`. -/
def ulpExp (q : ℚ) : ℤ := max (ilog2 q - 52) (-1074)

/-- The multiple of the unit in the last place nearest to `q`, ties to even. -/
def rndValue (q : ℚ) : ℚ := (roundEven (q / 2 ^ ulpExp q) : ℚ) * 2 ^ ulpExp q

namespace F64

/-- Rounding of an exact result to binary64, to nearest and ties to even;
a result of magnitude `2^1024` or more overflows to an infinity. -/
def rnd (q : ℚ) : F64 :=
  if (2 : ℚ) ^ (1024 : ℕ) ≤ |rndValue q| then (if 0 < q then pinf else ninf)
  else fin (rndValue q)

/-- Conversion `float64(n)` of an integer. -/
def ofInt (n : Int) : F64 := rnd n

/-- Negation. -/
def neg : F64 → F64
  | fin a => fin (-a)
  | pinf => ninf
  | ninf => pinf
  | nan => nan

/-- Addition `a + b` of two `float64` values. -/
def add : F64 → F64 → F64
  | fin a, fin b => rnd (a + b)
  | nan, _ => nan
  | _, nan => nan
  | pinf, ninf => nan
  | ninf, pinf => nan
  | pinf, _ => pinf
  | _, pinf => pinf
  | ninf, _ => ninf
  | _, ninf => ninf

/-- Subtraction `a - b` of two `float64` values. -/
def sub (a b : F64) : F64 := add a (neg b)

/-- Division `a / b` of two `float64` values; a zero divisor stands for `+0`. -/
def div : F64 → F64 → F64
  | fin a, fin b =>
    if b = 0 then (if a = 0 then nan else if 0 < a then pinf else ninf)
    else rnd (a / b)
  | nan, _ => nan
  | _, nan => nan
  | fin _, _ => fin 0
  | pinf, fin b => if 0 ≤ b then pinf else ninf
  | ninf, fin b => if 0 ≤ b then ninf else pinf
  | _, _ => nan

/-- Comparison `a == b` of two `float64` values: a NaN equals nothing. -/
def eq : F64 → F64 → Bool
  | fin a, fin b => decide (a = b)
  | pinf, pinf => true
  | ninf, ninf => true
  | _, _ => false

/-- The function `math.Floor`. -/
def floor : F64 → F64
  | fin a => fin ⌊a⌋
  | x => x

/-- Conversion `int(x)` of a `float64`: truncation towards zero.  Go leaves
the result open when the value does not fit an `int`; amd64 then yields the
least 64-bit integer, which is what is returned here. -/
def toInt : F64 → Int
  | fin a =>
    let t : Int := if 0 ≤ a then ⌊a⌋ else ⌈a⌉
    if -(2 : Int) ^ (63 : ℕ) ≤ t ∧ t < (2 : Int) ^ (63 : ℕ) then t else -(2 : Int) ^ (63 : ℕ)
  | _ => -(2 : Int) ^ (63 : ℕ)

end F64

/-- The function `round` of flex.go: `int(math.Floor(f + .5))`. -/
def round (f : F64) : Int := F64.toInt (F64.floor (F64.add f (F64.fin (1 / 2))))

/-! ## Geometry and views -/

/-- The type `image.Point`. -/
structure Point where
  X : Int
  Y : Int
deriving DecidableEq, Repr

/-- The type `image.Rectangle`. -/
structure Rectangle where
  Min : Point
  Max : Point
deriving DecidableEq, Repr

/-- The method `image.Rectangle.Size`. -/
def Rectangle.Size (r : Rectangle) : Point := ⟨r.Max.X - r.Min.X, r.Max.Y - r.Min.Y⟩

/-- Modelled from the spec: `uikit.View`, whose declaration is missing from the
sources.  `rect` is what `Rect()` returns and `subViews` lists, in order, the
rectangles `Rect()` returns on the views of `GetSubView()`. -/
structure View where
  rect : Rectangle
  subViews : List Rectangle
deriving DecidableEq, Repr

/-- The calls `OnLayout` makes on the sub views; `child` is the position of
the receiver in `GetSubView()`. -/
inductive Call where
  | SetRect (child : Nat) (x0 y0 x1 y1 : Int)
  | Layout (child : Nat)
deriving DecidableEq, Repr

/-! ## Options -/

abbrev Direction := Nat
abbrev Justify := Nat
abbrev AlignItem := Nat
abbrev FlexWrap := Nat
abbrev AlignContent := Nat

def Row : Direction := 0
def Column : Direction := 1

def JustifyStart : Justify := 0
def JustifyEnd : Justify := 1
def JustifyCenter : Justify := 2
def JustifySpaceBetween : Justify := 3
def JustifySpaceAround : Justify := 4

def AlignItemStart : AlignItem := 0
def AlignItemEnd : AlignItem := 1
def AlignItemCenter : AlignItem := 2

def NoWrap : FlexWrap := 0
def Wrap : FlexWrap := 1
def WrapReverse : FlexWrap := 2

def AlignContentStretch : AlignContent := 0
def AlignContentStart : AlignContent := 1
def AlignContentEnd : AlignContent := 2
def AlignContentCenter : AlignContent := 3
def AlignContentSpaceBetween : AlignContent := 4
def AlignContentSpaceAround : AlignContent := 5

/-- The struct `Flex`; the five options are `uint8` values in the source. -/
structure Flex where
  Direction : Direction
  Wrap : FlexWrap
  Justify : Justify
  AlignItems : AlignItem
  AlignContent : AlignContent
  width : Int
  height : Int
deriving DecidableEq, Repr

/-- The constructor `NewFlex`. -/
def NewFlex (width height : Int) : Flex :=
  { Direction := Row, Wrap := NoWrap, Justify := JustifyCenter,
    AlignItems := AlignItemCenter, AlignContent := AlignContentCenter,
    width := width, height := height }

/-- The struct `element`; `n` is the rectangle of the view it stands for. -/
structure element where
  n : Rectangle
  flexBaseSize : F64
  mainSize : F64
  mainOffset : F64
  crossSize : F64
  crossOffset : F64
deriving DecidableEq, Repr

/-- The struct `flexLine`. -/
structure flexLine where
  mainSize : F64
  crossSize : F64
  crossOffset : F64
  child : List element
deriving DecidableEq, Repr

/-- The message of the panic on a direction that is neither `Row` nor `Column`. -/
def badDirection (d : Direction) : String := "flex: bad direction " ++ toString d

/-- The method `Flex.mainSize`. -/
def mainSize (f : Flex) (p : Point) : Except String Int :=
  if f.Direction = Row then .ok p.X
  else if f.Direction = Column then .ok p.Y
  else .error (badDirection f.Direction)

/-- The method `Flex.crossSize`. -/
def crossSize (f : Flex) (p : Point) : Except String Int :=
  if f.Direction = Row then .ok p.Y
  else if f.Direction = Column then .ok p.X
  else .error (badDirection f.Direction)

/-- The method `Flex.flexBaseSize`. -/
def flexBaseSize (f : Flex) (c : Rectangle) : Except String Int := mainSize f c.Size

/-! ## The layout pass -/

/-- The outcome of one call of `OnLayout`: the calls made on the sub views, in
order, and the message of the panic that ended the pass, if one did. -/
structure Pass where
  calls : List Call
  failure : Option String
deriving DecidableEq, Repr

/-- Lines 109-117: one `element` per sub view, holding its flex base size. -/
def collect (f : Flex) : List Rectangle → Except String (List element)
  | [] => .ok []
  | c :: cs => do
    let b ← flexBaseSize f c
    let rest ← collect f cs
    .ok ({ n := c, flexBaseSize := F64.ofInt b, mainSize := F64.fin 0,
           mainOffset := F64.fin 0, crossSize := F64.fin 0,
           crossOffset := F64.fin 0 } :: rest)

/-- Lines 124-129: the main size of the single line, the sum of the base sizes. -/
def lineMainSize : F64 → List element → F64
  | acc, [] => acc
  | acc, c :: cs => lineMainSize (F64.add acc c.flexBaseSize) cs

/-- Lines 139-142: the free space of the line (computed, never read again). -/
def freeSpace (f : Flex) : F64 → List element → Except String F64
  | acc, [] => .ok acc
  | acc, c :: cs => do
    let b ← flexBaseSize f c.n
    freeSpace f (F64.sub acc (F64.ofInt b)) cs

/-- Lines 145-147: every main size is the flex base size of the view. -/
def distribute (f : Flex) : List element → Except String (List element)
  | [] => .ok []
  | c :: cs => do
    let b ← flexBaseSize f c.n
    let rest ← distribute f cs
    .ok ({ c with mainSize := F64.ofInt b } :: rest)

/-- Lines 151-155: every cross size is the cross extent of the view. -/
def determineCross (f : Flex) : List element → Except String (List element)
  | [] => .ok []
  | c :: cs => do
    let s ← crossSize f c.n.Size
    let rest ← determineCross f cs
    .ok ({ c with crossSize := F64.ofInt s } :: rest)

/-- Lines 159-164: the cross size of the single line; the switch has no
default, a direction it does not list leaves the zero value. -/
def lineCrossSize (f : Flex) (v : View) : F64 :=
  if f.Direction = Row then F64.ofInt v.rect.Size.Y
  else if f.Direction = Column then F64.ofInt v.rect.Size.X
  else F64.fin 0

/-- Lines 179-182: the sum of the main sizes. -/
def totalMain : F64 → List element → F64
  | acc, [] => acc
  | acc, c :: cs => totalMain (F64.add acc c.mainSize) cs

/-- Lines 184-196: the first offset and the spacing chosen by `Justify`,
returned in this order; the switch has no default. -/
def justifyStart (f : Flex) (remFree : F64) (count : Nat) : F64 × F64 :=
  if f.Justify = JustifyStart then (F64.fin 0, F64.fin 0)
  else if f.Justify = JustifyEnd then (remFree, F64.fin 0)
  else if f.Justify = JustifyCenter then (F64.div remFree (F64.fin 2), F64.fin 0)
  else if f.Justify = JustifySpaceBetween then
    (F64.fin 0, F64.div remFree (F64.ofInt ((count : Int) - 1)))
  else if f.Justify = JustifySpaceAround then
    (F64.div (F64.div remFree (F64.ofInt (count : Int))) (F64.fin 2),
     F64.div remFree (F64.ofInt (count : Int)))
  else (F64.fin 0, F64.fin 0)

/-- Lines 197-200: each element takes the running offset, which then moves on
by the spacing plus the main size of the element. -/
def place (spacing : F64) : F64 → List element → List element
  | _, [] => []
  | off, c :: cs =>
    { c with mainOffset := off } :: place spacing (F64.add off (F64.add spacing c.mainSize)) cs

/-- Lines 176-201: main axis alignment of the single line. -/
def justifyLine (f : Flex) (containerMainSize : F64) (cs : List element) : List element :=
  let remFree := F64.sub containerMainSize (totalMain (F64.fin 0) cs)
  place (justifyStart f remFree cs.length).2 (justifyStart f remFree cs.length).1 cs

/-- Lines 207-219: cross axis alignment of one element. -/
def alignChild (f : Flex) (line : flexLine) (c : element) : element :=
  if F64.eq c.crossSize line.crossSize then { c with crossOffset := line.crossOffset }
  else if f.AlignItems = AlignItemStart then { c with crossOffset := line.crossOffset }
  else if f.AlignItems = AlignItemEnd then
    { c with crossOffset := F64.add line.crossOffset (F64.sub line.crossSize c.crossSize) }
  else if f.AlignItems = AlignItemCenter then
    { c with crossOffset :=
        F64.add line.crossOffset (F64.div (F64.sub line.crossSize c.crossSize) (F64.fin 2)) }
  else { c with crossOffset := line.crossOffset }

/-- Everything `OnLayout` does before it generates rectangles (lines 109-221):
the elements of the single line with their sizes and offsets resolved, or the
message of the panic.  Past line 133 `lines` holds exactly one line, so the
panic of line 166 is never reached and the loops over `lines` run once. -/
def resolve (f : Flex) (v : View) : Except String (List element) := do
  let children ← collect f v.subViews
  let containerMainSize ← mainSize f v.rect.Size
  if f.Wrap = NoWrap then
    let mainTotal := lineMainSize (F64.fin 0) children
    let _ ← freeSpace f (F64.ofInt containerMainSize) children
    let sized ← distribute f children
    let crossed ← determineCross f sized
    let line : flexLine :=
      { mainSize := mainTotal, crossSize := lineCrossSize f v,
        crossOffset := F64.fin 0, child := crossed }
    let justified := justifyLine f (F64.ofInt containerMainSize) line.child
    .ok (justified.map (alignChild f line))
  else
    .error "not implemented"

/-- Lines 224-243: one `SetRect` and one `Layout` call per element, in order;
`i` is the position of the first element among the sub views. -/
def generate (f : Flex) : Nat → List element → Pass
  | _, [] => ⟨[], none⟩
  | i, c :: cs =>
    if f.Direction = Row then
      let rest := generate f (i + 1) cs
      ⟨Call.SetRect i (round c.mainOffset) (round c.crossOffset)
          (round (F64.add c.mainOffset c.mainSize))
          (round (F64.add c.crossOffset c.crossSize))
        :: Call.Layout i :: rest.calls, rest.failure⟩
    else if f.Direction = Column then
      let rest := generate f (i + 1) cs
      ⟨Call.SetRect i (round c.crossOffset) (round c.mainOffset)
          (round (F64.add c.crossOffset c.crossSize))
          (round (F64.add c.mainOffset c.mainSize))
        :: Call.Layout i :: rest.calls, rest.failure⟩
    else ⟨[], some (badDirection f.Direction)⟩

/-- The method `Flex.OnLayout`. -/
def OnLayout (f : Flex) (v : View) : Pass :=
  match resolve f v with
  | .error e => ⟨[], some e⟩
  | .ok cs => generate f 0 cs

/-- The calls that hand the rectangles `rs` to the sub views from position `i`
on, each followed by the `Layout` call on the same sub view. -/
def callsOf : Nat → List Rectangle → List Call
  | _, [] => []
  | i, r :: rs =>
    Call.SetRect i r.Min.X r.Min.Y r.Max.X r.Max.Y :: Call.Layout i :: callsOf (i + 1) rs

/-- Modelled from the spec: `SetRect(x0, y0, x1, y1)` of `uikit.View`, missing
from the sources, assigns the rectangle with these four edges. -/
def setRectArg : Call → Option Rectangle
  | Call.SetRect _ x0 y0 x1 y1 => some ⟨⟨x0, y0⟩, ⟨x1, y1⟩⟩
  | Call.Layout _ => none

/-- The rectangles assigned by a pass, in the order of the calls. -/
def Pass.rects (p : Pass) : List Rectangle := p.calls.filterMap setRectArg

/-! ## Vocabulary of the statements -/

/-- The main-axis coordinate of a point: `X` in a `Row`, `Y` otherwise. -/
def mainOf (f : Flex) (p : Point) : Int := if f.Direction = Row then p.X else p.Y

/-- The cross-axis coordinate of a point: `Y` in a `Row`, `X` otherwise. -/
def crossOf (f : Flex) (p : Point) : Int := if f.Direction = Row then p.Y else p.X

/-- The main extents of the sub views, as read before the pass. -/
def mainExtents (f : Flex) (v : View) : List Int := v.subViews.map (fun c => mainOf f c.Size)

/-- The sum of the absolute values of a list of integers. -/
def absSum (l : List Int) : Int := (l.map (fun s => |s|)).sum

/-- The element of a sub view as first built (lines 113-116). -/
def baseElement (f : Flex) (c : Rectangle) : element :=
  { n := c, flexBaseSize := F64.ofInt (mainOf f c.Size), mainSize := F64.fin 0,
    mainOffset := F64.fin 0, crossSize := F64.fin 0, crossOffset := F64.fin 0 }

/-- The element of a sub view once its sizes are known (lines 109-155). -/
def sizedElement (f : Flex) (c : Rectangle) : element :=
  { n := c, flexBaseSize := F64.ofInt (mainOf f c.Size),
    mainSize := F64.ofInt (mainOf f c.Size), mainOffset := F64.fin 0,
    crossSize := F64.ofInt (crossOf f c.Size), crossOffset := F64.fin 0 }

/-- The single line of a container. -/
def singleLine (f : Flex) (v : View) : flexLine :=
  { mainSize := lineMainSize (F64.fin 0) (v.subViews.map (baseElement f)),
    crossSize := lineCrossSize f v, crossOffset := F64.fin 0,
    child := v.subViews.map (sizedElement f) }

/-- The rectangle generated for a resolved element (lines 227-237). -/
def rectOf (f : Flex) (c : element) : Rectangle :=
  if f.Direction = Row then
    ⟨⟨round c.mainOffset, round c.crossOffset⟩,
     ⟨round (F64.add c.mainOffset c.mainSize), round (F64.add c.crossOffset c.crossSize)⟩⟩
  else
    ⟨⟨round c.crossOffset, round c.mainOffset⟩,
     ⟨round (F64.add c.crossOffset c.crossSize), round (F64.add c.mainOffset c.mainSize)⟩⟩

/-- The running offset in front of the element at position `i` of a line whose
main sizes are `sizes`, when the first offset is `off` (lines 197-200). -/
def offsetAt (spacing : F64) : F64 → List F64 → Nat → F64
  | off, [], _ => off
  | off, _ :: _, 0 => off
  | off, s :: ss, i + 1 => offsetAt spacing (F64.add off (F64.add spacing s)) ss i

/-- A number that `float64` holds without rounding for sure: an integer or a
half-integer below `2^52` in magnitude. -/
def Exact (x : ℚ) : Prop := (∃ k : ℤ, x = (k : ℚ) / 2) ∧ |x| < 2 ^ (52 : ℕ)

/-- A binary64 value: a number that rounding leaves as it is. -/
def IsF64 (x : ℚ) : Prop := F64.rnd x = F64.fin x

/-- The remaining free space of the single line (line 183). -/
def remFreeOf (f : Flex) (v : View) : F64 :=
  F64.sub (F64.ofInt (mainOf f v.rect.Size))
    (totalMain (F64.fin 0) (v.subViews.map (sizedElement f)))

/-- The main offset given to the sub view at position `i` (lines 184-200). -/
def mainOffsetAt (f : Flex) (v : View) (i : Nat) : F64 :=
  offsetAt (justifyStart f (remFreeOf f v) v.subViews.length).2
    (justifyStart f (remFreeOf f v) v.subViews.length).1
    (v.subViews.map (fun c => F64.ofInt (mainOf f c.Size))) i

/-- The cross offset given to a sub view with rectangle `c` (lines 207-219). -/
def crossOffsetOf (f : Flex) (v : View) (c : Rectangle) : F64 :=
  (alignChild f (singleLine f v) (sizedElement f c)).crossOffset

/-- The unrounded main offsets resolved by a pass, `none` when it panics. -/
def mainOffsets (f : Flex) (v : View) : Option (List F64) :=
  match resolve f v with
  | .ok els => some (els.map (fun e => e.mainOffset))
  | .error _ => none

/-- The unrounded cross offsets resolved by a pass, `none` when it panics. -/
def crossOffsets (f : Flex) (v : View) : Option (List F64) :=
  match resolve f v with
  | .ok els => some (els.map (fun e => e.crossOffset))
  | .error _ => none

/-! ## Closed forms stated by the specification -/

/-- The remaining free space as the specification has it: the main extent of
the container minus the main extents of the sub views, in exact arithmetic. -/
def remainingFree (f : Flex) (v : View) : Int := mainOf f v.rect.Size - (mainExtents f v).sum

/-- The sum of the main extents of the sub views in front of position `i`. -/
def mainBefore (f : Flex) (v : View) (i : Nat) : Int := ((mainExtents f v).take i).sum

/-- The main offset of sub view `i` under `JustifyCenter`, in exact arithmetic. -/
def centerOffset (f : Flex) (v : View) (i : Nat) : ℚ :=
  (remainingFree f v : ℚ) / 2 + (mainBefore f v i : ℚ)

/-- The main offset of sub view `i` under `JustifySpaceBetween`, in exact
arithmetic: `i` spacings of `remainingFree / (count - 1)` and the main extents
in front of it. -/
def betweenOffset (f : Flex) (v : View) (i : Nat) : ℚ :=
  (i : ℚ) * ((remainingFree f v : ℚ) / ((v.subViews.length : ℚ) - 1)) + (mainBefore f v i : ℚ)

/-- The main offset of sub view `i` under `JustifySpaceAround`, in exact
arithmetic: half a spacing of `remainingFree / count`, `i` spacings and the
main extents in front of it. -/
def aroundOffset (f : Flex) (v : View) (i : Nat) : ℚ :=
  (remainingFree f v : ℚ) / (v.subViews.length : ℚ) / 2 +
    (i : ℚ) * ((remainingFree f v : ℚ) / (v.subViews.length : ℚ)) + (mainBefore f v i : ℚ)

/-- The first main offset when there is no spacing, in exact arithmetic:
`remainingFree` under `JustifyEnd`, its half under `JustifyCenter`, else `0`. -/
def startOffset (f : Flex) (r : Int) : ℚ :=
  if f.Justify = JustifyEnd then (r : ℚ)
  else if f.Justify = JustifyCenter then (r : ℚ) / 2
  else 0

/-- The cross offset of a sub view of cross extent `c` in a line of cross
extent `l`, in exact arithmetic: `0`, `l - c` or `(l - c) / 2`. -/
def alignOffset (f : Flex) (l c : Int) : ℚ :=
  if f.AlignItems = AlignItemEnd then (l : ℚ) - (c : ℚ)
  else if f.AlignItems = AlignItemCenter then ((l : ℚ) - (c : ℚ)) / 2
  else 0

/-! ## Inputs of the examples -/

/-- A rectangle of the given width and height with its corner at the origin. -/
def rectWH (w h : Int) : Rectangle := ⟨⟨0, 0⟩, ⟨w, h⟩⟩

/-- A container of `NewFlex 100 50` holding two sub views 20 wide. -/
def centerView : View := ⟨rectWH 100 50, [rectWH 20 20, rectWH 20 20]⟩

/-- A container `2^53 + 1` wide holding two sub views 20 wide. -/
def wideView : View := ⟨rectWH 9007199254740993 50, [rectWH 20 20, rectWH 20 20]⟩

/-- A container 50 high holding one sub view 20 high. -/
def crossView : View := ⟨rectWH 100 50, [rectWH 40 20]⟩

/-- A container `2^53 + 1` high holding one sub view 20 high. -/
def tallView : View := ⟨rectWH 100 9007199254740993, [rectWH 40 20]⟩

/-- A container 100 wide holding sub views 20 and 30 wide. -/
def endView : View := ⟨rectWH 100 50, [rectWH 20 20, rectWH 30 20]⟩

/-- A container `2^53 + 1` wide holding one sub view 20 wide. -/
def wideOneView : View := ⟨rectWH 9007199254740993 50, [rectWH 20 20]⟩

/-- The container of `NewFlex 8 50` under `JustifySpaceBetween`. -/
def betweenFlex : Flex := { NewFlex 8 50 with Justify := JustifySpaceBetween }

/-- The container of `NewFlex 4 50` under `JustifySpaceAround`. -/
def aroundFlex : Flex := { NewFlex 4 50 with Justify := JustifySpaceAround }

/-- The container of `NewFlex 15 50` under `JustifySpaceAround`. -/
def growFlex : Flex := { NewFlex 15 50 with Justify := JustifySpaceAround }

/-- The container of `NewFlex 19 50` under `JustifySpaceAround`. -/
def driftFlex : Flex := { NewFlex 19 50 with Justify := JustifySpaceAround }

/-- A container 8 wide holding four sub views 1 wide. -/
def betweenView : View := ⟨rectWH 8 50, [rectWH 1 20, rectWH 1 20, rectWH 1 20, rectWH 1 20]⟩

/-- A container 4 wide holding three sub views 1 wide. -/
def aroundView : View := ⟨rectWH 4 50, [rectWH 1 20, rectWH 1 20, rectWH 1 20]⟩

/-- A container 15 wide holding sub views 1, 2 and 1 wide. -/
def growView : View := ⟨rectWH 15 50, [rectWH 1 20, rectWH 2 20, rectWH 1 20]⟩

/-- A container 19 wide holding sub views 4, 4, 5, 1, 1 and 2 wide. -/
def driftView : View :=
  ⟨rectWH 19 50,
   [rectWH 4 20, rectWH 4 20, rectWH 5 20, rectWH 1 20, rectWH 1 20, rectWH 2 20]⟩

/-- The container of `NewFlex 8 50` under `JustifySpaceAround`. -/
def halfFlex : Flex := { NewFlex 8 50 with Justify := JustifySpaceAround }

/-- A container 8 wide holding sub views 0, 0, 0, 4, 0, 2 and 1 wide. -/
def halfView : View :=
  ⟨rectWH 8 50, [rectWH 0 20, rectWH 0 20, rectWH 0 20, rectWH 4 20, rectWH 0 20, rectWH 2 20,
    rectWH 1 20]⟩

/-- A container 100 wide holding one sub view 51 wide. -/
def oddView : View := ⟨rectWH 100 50, [rectWH 51 20]⟩

/-! ## Transposed views -/

/-- A point with its two coordinates swapped. -/
def Point.transpose (p : Point) : Point := ⟨p.Y, p.X⟩

/-- A rectangle with `X` and `Y` swapped in both corners. -/
def Rectangle.transpose (r : Rectangle) : Rectangle := ⟨r.Min.transpose, r.Max.transpose⟩

/-- A view with `X` and `Y` swapped in its rectangle and in the rectangle of
every sub view. -/
def View.transpose (v : View) : View := ⟨v.rect.transpose, v.subViews.map Rectangle.transpose⟩

/-- An element standing for the transposed view, its sizes and offsets kept. -/
def element.transpose (e : element) : element := { e with n := e.n.transpose }

/-! ## More inputs of the examples -/

/-- A `Column` container 50 wide and 100 high under `JustifySpaceAround` and
`AlignItemEnd`. -/
def columnFlex : Flex :=
  { Direction := Column, Wrap := NoWrap, Justify := JustifySpaceAround,
    AlignItems := AlignItemEnd, AlignContent := AlignContentCenter, width := 50, height := 100 }

/-- A `Row` container 100 wide and 50 high under `JustifySpaceAround` and
`AlignItemEnd`. -/
def rowFlex : Flex :=
  { Direction := Row, Wrap := NoWrap, Justify := JustifySpaceAround,
    AlignItems := AlignItemEnd, AlignContent := AlignContentCenter, width := 100, height := 50 }

/-- A container 50 wide and 100 high holding sub views 20 by 30 and 10 by 40. -/
def mixedView : View := ⟨rectWH 50 100, [rectWH 20 30, rectWH 10 40]⟩

/-- A container `2^52 + 1` wide holding one sub view as wide. -/
def edgeView : View := ⟨rectWH 4503599627370497 50, [rectWH 4503599627370497 20]⟩

/-- A container 9042383626829829 wide holding sub views 9007199254740995 and
35184372088834 wide, which fill it. -/
def overlapView : View :=
  ⟨rectWH 9042383626829829 50, [rectWH 9007199254740995 20, rectWH 35184372088834 20]⟩

/-! ## Rounding: values that `float64` holds exactly -/

theorem roundEven_intCast (n : ℤ) : roundEven (n : ℚ) = n := by
  simp [roundEven]

theorem ulpExp_ge (q : ℚ) : -1074 ≤ ulpExp q := le_max_right _ _

theorem bitLen_eq (fuel n : Nat) (h : n ≤ fuel) (hn : n ≠ 0) : bitLen fuel n = Nat.log2 n + 1 := by
  induction fuel generalizing n with
  | zero => omega
  | succ fuel ih =>
    rw [bitLen, if_neg hn]
    by_cases h2 : n / 2 = 0
    · have : n = 1 := by omega
      subst this
      cases fuel <;> simp [bitLen, Nat.log2]
    · rw [ih (n / 2) (by omega) h2]
      conv_rhs => rw [Nat.log2]
      have : n ≥ 2 := by omega
      simp [this]

theorem bitLen_bounds (n : Nat) (hn : n ≠ 0) :
    ((2 : ℚ) ^ ((bitLen n n : ℤ) - 1) ≤ n) ∧ ((n : ℚ) < 2 ^ (bitLen n n : ℤ)) := by
  rw [bitLen_eq n n le_rfl hn]
  push_cast
  constructor
  · have := Nat.log2_self_le hn
    rw [add_sub_cancel_right, zpow_natCast]
    exact_mod_cast this
  · have := @Nat.lt_log2_self n
    have h2 : ((n.log2 : ℤ) + 1) = ((n.log2 + 1 : ℕ) : ℤ) := by push_cast; rfl
    rw [h2, zpow_natCast]
    exact_mod_cast this

theorem ilog2_bounds (q : ℚ) (h0 : q ≠ 0) :
    (2 : ℚ) ^ ilog2 q ≤ |q| ∧ |q| < 2 ^ (ilog2 q + 1) := by
  have hnum : q.num.natAbs ≠ 0 := by
    simpa using h0
  have hden : q.den ≠ 0 := q.den_nz
  obtain ⟨a1, a2⟩ := bitLen_bounds _ hnum
  obtain ⟨b1, b2⟩ := bitLen_bounds _ hden
  have hq : |q| = (q.num.natAbs : ℚ) / (q.den : ℚ) := by
    conv_lhs => rw [← Rat.num_div_den q]
    rw [abs_div, Nat.cast_natAbs, Int.cast_abs]
    congr 1
    exact abs_of_nonneg (by positivity)
  have hdpos : (0 : ℚ) < q.den := by exact_mod_cast Nat.pos_of_ne_zero hden
  set A : ℤ := (bitLen q.num.natAbs q.num.natAbs : ℤ) with hA
  set B : ℤ := (bitLen q.den q.den : ℤ) with hB
  -- 2^(A-B-1) < |q| < 2^(A-B+1)
  have hlow : (2 : ℚ) ^ (A - B - 1) ≤ |q| := by
    rw [hq, le_div_iff₀ hdpos]
    calc (2 : ℚ) ^ (A - B - 1) * q.den ≤ 2 ^ (A - B - 1) * 2 ^ B := by
          apply mul_le_mul_of_nonneg_left b2.le (by positivity)
      _ = 2 ^ (A - 1) := by
          rw [← zpow_add₀ (by norm_num)]; congr 1; ring
      _ ≤ q.num.natAbs := a1
  have hhigh : |q| < (2 : ℚ) ^ (A - B + 1) := by
    rw [hq, div_lt_iff₀ hdpos]
    calc (q.num.natAbs : ℚ) < 2 ^ A := a2
      _ = 2 ^ (A - B + 1) * 2 ^ (B - 1) := by
          rw [← zpow_add₀ (by norm_num)]; congr 1; ring
      _ ≤ 2 ^ (A - B + 1) * q.den := by
          apply mul_le_mul_of_nonneg_left b1 (by positivity)
  unfold ilog2
  rw [if_neg h0]
  split_ifs with h1
  · exact ⟨h1, hhigh⟩
  · refine ⟨hlow, ?_⟩
    rw [sub_add_cancel]
    exact not_le.1 h1

theorem ilog2_eq_log (q : ℚ) : ilog2 q = Int.log 2 |q| := by
  by_cases h0 : q = 0
  · subst h0; simp [ilog2, Int.log_of_right_le_zero]
  · obtain ⟨h1, h2⟩ := ilog2_bounds q h0
    have hpos : 0 < |q| := abs_pos.2 h0
    have l1 := (Int.zpow_le_iff_le_log (b := 2) (by norm_num) hpos (x := ilog2 q)).1
      (by exact_mod_cast h1)
    have l2 := (Int.lt_zpow_iff_log_lt (b := 2) (by norm_num) hpos (x := ilog2 q + 1)).1
      (by exact_mod_cast h2)
    omega

theorem log_lt_of_abs_lt (q : ℚ) (k : ℤ) (hk : 0 < k) (h : |q| < 2 ^ k) : ilog2 q < k := by
  rw [ilog2_eq_log]
  rcases eq_or_lt_of_le (abs_nonneg q) with h0 | h0
  · rw [← h0, Int.log_of_right_le_zero 2 le_rfl]; exact hk
  · have := (Int.lt_zpow_iff_log_lt (b := 2) (by norm_num) h0 (x := k)).1 (by exact_mod_cast h)
    exact this

theorem ulpExp_le (q : ℚ) (k : ℤ) (hk : 0 < k) (h : |q| < 2 ^ k) : ulpExp q ≤ max (k - 53) (-1074) := by
  have := log_lt_of_abs_lt q k hk h
  unfold ulpExp
  omega

/-- A value whose quotient by its unit in the last place is an integer is not
changed by rounding. -/
theorem rnd_of_scaled_int (q : ℚ) (n : ℤ) (h : q / 2 ^ ulpExp q = n)
    (hb : |q| < 2 ^ (1024 : ℕ)) : F64.rnd q = F64.fin q := by
  have hpos : (0 : ℚ) < 2 ^ ulpExp q := by positivity
  have hq : (n : ℚ) * 2 ^ ulpExp q = q := by
    rw [← h]; field_simp
  simp only [F64.rnd, rndValue, h, roundEven_intCast, hq]
  rw [if_neg (not_le.2 hb)]

/-- Integers and half-integers below `2^52` in magnitude are binary64 values. -/
theorem rnd_half (k : ℤ) (hb : |(k : ℚ) / 2| < 2 ^ (52 : ℕ)) :
    F64.rnd ((k : ℚ) / 2) = F64.fin ((k : ℚ) / 2) := by
  have hu : ulpExp ((k : ℚ) / 2) ≤ -1 := by
    have := ulpExp_le ((k : ℚ) / 2) 52 (by norm_num) (by exact_mod_cast hb)
    omega
  obtain ⟨m, hm⟩ : ∃ m : ℕ, ulpExp ((k : ℚ) / 2) = -((m : ℤ) + 1) :=
    ⟨(-(ulpExp ((k : ℚ) / 2)) - 1).toNat, by omega⟩
  apply rnd_of_scaled_int _ (k * 2 ^ m)
  · rw [hm, zpow_neg]
    have : (2 : ℚ) ^ ((m : ℤ) + 1) = 2 ^ m * 2 := by
      rw [zpow_add₀ (by norm_num), zpow_natCast, zpow_one]
    rw [this]
    push_cast
    field_simp
    ring
  · calc |(k : ℚ) / 2| < 2 ^ (52 : ℕ) := hb
      _ ≤ 2 ^ (1024 : ℕ) := by
        apply pow_le_pow_right₀ <;> norm_num

theorem rnd_int (n : ℤ) (hb : |(n : ℚ)| < 2 ^ (52 : ℕ)) : F64.rnd (n : ℚ) = F64.fin (n : ℚ) := by
  have := rnd_half (2 * n) (by push_cast; simpa using hb)
  simpa using this

/-! ## The pass when it does not panic -/

theorem mainSize_ok (f : Flex) (hd : f.Direction = Row ∨ f.Direction = Column) (p : Point) :
    mainSize f p = .ok (mainOf f p) := by
  rcases hd with h | h <;> simp [mainSize, mainOf, h, Row, Column]

theorem crossSize_ok (f : Flex) (hd : f.Direction = Row ∨ f.Direction = Column) (p : Point) :
    crossSize f p = .ok (crossOf f p) := by
  rcases hd with h | h <;> simp [crossSize, crossOf, h, Row, Column]

theorem collect_ok (f : Flex) (hd : f.Direction = Row ∨ f.Direction = Column)
    (cs : List Rectangle) :
    collect f cs = .ok (cs.map (baseElement f)) := by
  induction cs with
  | nil => rfl
  | cons c cs ih =>
    simp only [collect, flexBaseSize, mainSize_ok f hd, ih, List.map_cons]
    rfl

theorem freeSpace_ok (f : Flex) (hd : f.Direction = Row ∨ f.Direction = Column)
    (acc : F64) (cs : List element) : ∃ r, freeSpace f acc cs = .ok r := by
  induction cs generalizing acc with
  | nil => exact ⟨acc, rfl⟩
  | cons c cs ih =>
    obtain ⟨r, hr⟩ := ih (F64.sub acc (F64.ofInt (mainOf f c.n.Size)))
    refine ⟨r, ?_⟩
    simp only [freeSpace, flexBaseSize, mainSize_ok f hd]
    exact hr

theorem distribute_ok (f : Flex) (hd : f.Direction = Row ∨ f.Direction = Column)
    (cs : List element) :
    distribute f cs = .ok (cs.map (fun c => { c with mainSize := F64.ofInt (mainOf f c.n.Size) })) := by
  induction cs with
  | nil => rfl
  | cons c cs ih =>
    simp only [distribute, flexBaseSize, mainSize_ok f hd, ih, List.map_cons]
    rfl

theorem determineCross_ok (f : Flex) (hd : f.Direction = Row ∨ f.Direction = Column)
    (cs : List element) :
    determineCross f cs =
      .ok (cs.map (fun c => { c with crossSize := F64.ofInt (crossOf f c.n.Size) })) := by
  induction cs with
  | nil => rfl
  | cons c cs ih =>
    simp only [determineCross, crossSize_ok f hd, ih, List.map_cons]
    rfl

/-- With a direction the pass knows and no wrapping, `resolve` does not fail
and returns the aligned elements of the single line. -/
theorem resolve_ok (f : Flex) (v : View) (hd : f.Direction = Row ∨ f.Direction = Column)
    (hw : f.Wrap = NoWrap) :
    resolve f v = .ok ((justifyLine f (F64.ofInt (mainOf f v.rect.Size))
      (v.subViews.map (sizedElement f))).map (alignChild f (singleLine f v))) := by
  obtain ⟨r, hr⟩ := freeSpace_ok f hd (F64.ofInt (mainOf f v.rect.Size))
    (v.subViews.map (baseElement f))
  simp only [resolve, collect_ok f hd, mainSize_ok f hd, hw, if_true, bind, Except.bind, hr,
    distribute_ok f hd, determineCross_ok f hd, List.map_map]
  rfl

theorem generate_ok (f : Flex) (hd : f.Direction = Row ∨ f.Direction = Column)
    (i : Nat) (cs : List element) :
    (generate f i cs).failure = none ∧ (generate f i cs).rects = cs.map (rectOf f) := by
  induction cs generalizing i with
  | nil => exact ⟨rfl, rfl⟩
  | cons c cs ih =>
    obtain ⟨h1, h2⟩ := ih (i + 1)
    rcases hd with h | h
    · simp only [generate, h, if_true, h1, Pass.rects, List.filterMap_cons, setRectArg,
        List.map_cons, rectOf]
      refine ⟨trivial, ?_⟩
      simp only [Pass.rects] at h2
      rw [h2]
    · have hne : ¬ Column = Row := by decide
      simp only [generate, h, hne, if_false, if_true, h1, Pass.rects, List.filterMap_cons,
        setRectArg, List.map_cons, rectOf]
      refine ⟨trivial, ?_⟩
      simp only [Pass.rects] at h2
      rw [h2]

/-- The rectangles of a pass that does not fail. -/
theorem OnLayout_rects (f : Flex) (v : View) (hd : f.Direction = Row ∨ f.Direction = Column)
    (hw : f.Wrap = NoWrap) :
    (OnLayout f v).failure = none ∧
    (OnLayout f v).rects = ((justifyLine f (F64.ofInt (mainOf f v.rect.Size))
      (v.subViews.map (sizedElement f))).map (alignChild f (singleLine f v))).map (rectOf f) := by
  unfold OnLayout
  rw [resolve_ok f v hd hw]
  exact generate_ok f hd 0 _

/-! ## Arithmetic on exact values -/

theorem Exact.rnd {x : ℚ} (h : Exact x) : F64.rnd x = F64.fin x := by
  obtain ⟨⟨k, rfl⟩, hb⟩ := h
  exact rnd_half k hb

theorem exact_int (n : ℤ) (h : |n| < 2 ^ (52 : ℕ)) : Exact (n : ℚ) := by
  refine ⟨⟨2 * n, by push_cast; ring⟩, ?_⟩
  have : |(n : ℚ)| = ((|n| : ℤ) : ℚ) := by simp
  rw [this]
  exact_mod_cast h

theorem exact_zero : Exact 0 := by simpa using exact_int 0 (by norm_num)

theorem ofInt_exact (n : ℤ) (h : |n| < 2 ^ (52 : ℕ)) : F64.ofInt n = F64.fin (n : ℚ) :=
  (exact_int n h).rnd

theorem add_exact {a b : ℚ} (h : Exact (a + b)) : F64.add (F64.fin a) (F64.fin b) = F64.fin (a + b) :=
  h.rnd

theorem sub_exact {a b : ℚ} (h : Exact (a - b)) : F64.sub (F64.fin a) (F64.fin b) = F64.fin (a - b) := by
  have : a + -b = a - b := by ring
  simp only [F64.sub, F64.neg, F64.add, this]
  exact h.rnd

theorem div_two_exact {a : ℚ} (h : Exact (a / 2)) :
    F64.div (F64.fin a) (F64.fin 2) = F64.fin (a / 2) := by
  simp only [F64.div]
  rw [if_neg (by norm_num)]
  exact h.rnd

/-- On a value whose half-up shift is exact, `round` is `⌊x + 1/2⌋`. -/
theorem round_exact {x : ℚ} (h : Exact (x + 1 / 2)) : round (F64.fin x) = ⌊x + 1 / 2⌋ := by
  have hb := h.2
  simp only [round, add_exact h, F64.floor, F64.toInt]
  have hfl : ⌊((⌊x + 1 / 2⌋ : ℤ) : ℚ)⌋ = ⌊x + 1 / 2⌋ := Int.floor_intCast _
  have hce : ⌈((⌊x + 1 / 2⌋ : ℤ) : ℚ)⌉ = ⌊x + 1 / 2⌋ := Int.ceil_intCast _
  simp only [hfl, hce, ite_self]
  have h1 : |x + 1 / 2| < 2 ^ (52 : ℕ) := hb
  rw [abs_lt] at h1
  have hlo : -(2 : ℤ) ^ (63 : ℕ) ≤ ⌊x + 1 / 2⌋ := by
    rw [Int.le_floor]
    push_cast
    have : (-(2:ℚ) ^ (63 : ℕ)) ≤ -(2 ^ (52 : ℕ)) := by norm_num
    linarith [h1.1]
  have hhi : ⌊x + 1 / 2⌋ < (2 : ℤ) ^ (63 : ℕ) := by
    rw [Int.floor_lt]
    push_cast
    have : ((2:ℚ) ^ (52 : ℕ)) ≤ (2 ^ (63 : ℕ)) := by norm_num
    linarith [h1.2]
  rw [if_pos ⟨hlo, hhi⟩]

/-! ## What is resolved for one sub view -/

theorem place_getElem? (sp : F64) (off : F64) (cs : List element) (i : Nat) :
    (place sp off cs)[i]? =
      (cs[i]?).map (fun c => { c with mainOffset := offsetAt sp off (cs.map (·.mainSize)) i }) := by
  induction cs generalizing off i with
  | nil => simp [place]
  | cons c cs ih =>
    cases i with
    | zero => simp [place, offsetAt]
    | succ i => simp [place, offsetAt, ih]

theorem alignChild_fields (f : Flex) (l : flexLine) (c : element) :
    (alignChild f l c).mainOffset = c.mainOffset ∧ (alignChild f l c).mainSize = c.mainSize ∧
    (alignChild f l c).crossSize = c.crossSize := by
  unfold alignChild
  split_ifs <;> exact ⟨rfl, rfl, rfl⟩

theorem alignChild_crossOffset (f : Flex) (l : flexLine) (c : element) (o : F64) :
    (alignChild f l { c with mainOffset := o }).crossOffset = (alignChild f l c).crossOffset := by
  unfold alignChild
  split_ifs <;> rfl

/-- What the pass resolves for the sub view at position `i`, and the rectangle
it hands to it. -/
theorem resolved_at (f : Flex) (v : View) (hd : f.Direction = Row ∨ f.Direction = Column)
    (hw : f.Wrap = NoWrap) (i : Nat) (c : Rectangle) (hc : v.subViews[i]? = some c) :
    ∃ els e, resolve f v = .ok els ∧ els[i]? = some e ∧
      e.mainOffset = mainOffsetAt f v i ∧ e.mainSize = F64.ofInt (mainOf f c.Size) ∧
      e.crossSize = F64.ofInt (crossOf f c.Size) ∧ e.crossOffset = crossOffsetOf f v c ∧
      (OnLayout f v).failure = none ∧ (OnLayout f v).rects[i]? = some (rectOf f e) := by
  obtain ⟨hf, hr⟩ := OnLayout_rects f v hd hw
  refine ⟨_, alignChild f (singleLine f v)
    { sizedElement f c with mainOffset := mainOffsetAt f v i }, resolve_ok f v hd hw, ?_, ?_, ?_, ?_,
    ?_, hf, ?_⟩
  · simp only [justifyLine, List.getElem?_map, place_getElem?, hc, Option.map_some',
      List.map_map, List.length_map]
    rfl
  · exact (alignChild_fields _ _ _).1
  · exact (alignChild_fields _ _ _).2.1
  · exact (alignChild_fields _ _ _).2.2
  · exact alignChild_crossOffset _ _ _ _
  · rw [hr]
    simp only [justifyLine, List.getElem?_map, place_getElem?, hc, Option.map_some',
      List.map_map, List.length_map]
    rfl

/-! ## Main axis without spacing -/

theorem absSum_cons (s : Int) (l : List Int) : absSum (s :: l) = |s| + absSum l := by
  simp [absSum]

theorem absSum_nonneg (l : List Int) : 0 ≤ absSum l := by
  induction l with
  | nil => simp [absSum]
  | cons s l ih => rw [absSum_cons]; positivity

theorem abs_sum_le_absSum (l : List Int) : |l.sum| ≤ absSum l := by
  induction l with
  | nil => simp [absSum]
  | cons s l ih =>
    rw [absSum_cons, List.sum_cons]
    exact (abs_add s l.sum).trans (by linarith)

theorem absSum_take_le (l : List Int) (i : Nat) : absSum (l.take i) ≤ absSum l := by
  induction l generalizing i with
  | nil => simp
  | cons s l ih =>
    cases i with
    | zero => simpa using absSum_nonneg (s :: l)
    | succ i =>
      rw [List.take_succ_cons, absSum_cons, absSum_cons]
      linarith [ih i]

theorem abs_getElem_le_absSum (l : List Int) (i : Nat) (s : Int) (h : l[i]? = some s) :
    |s| ≤ absSum l := by
  induction l generalizing i with
  | nil => simp at h
  | cons a l ih =>
    rw [absSum_cons]
    cases i with
    | zero =>
      simp at h; subst h
      linarith [absSum_nonneg l]
    | succ i =>
      simp at h
      linarith [ih i h, abs_nonneg a]

/-- The sum of the main sizes is exact while it stays below `2^52`. -/
theorem totalMain_exact (f : Flex) (a : ℤ) (cs : List Rectangle)
    (hb : |a| + absSum (cs.map (fun c => mainOf f c.Size)) < 2 ^ (52 : ℕ)) :
    totalMain (F64.fin a) (cs.map (sizedElement f)) =
      F64.fin ((a + (cs.map (fun c => mainOf f c.Size)).sum : ℤ) : ℚ) := by
  induction cs generalizing a with
  | nil => simp [totalMain]
  | cons c cs ih =>
    simp only [List.map_cons, absSum_cons, List.sum_cons] at hb ⊢
    have hn := absSum_nonneg (cs.map (fun c => mainOf f c.Size))
    have hs : |mainOf f c.Size| < 2 ^ (52 : ℕ) := by linarith [abs_nonneg a]
    have has : |a + mainOf f c.Size| < 2 ^ (52 : ℕ) := by
      linarith [abs_add a (mainOf f c.Size)]
    have h1 : F64.add (F64.fin a) (F64.ofInt (mainOf f c.Size)) =
        F64.fin ((a + mainOf f c.Size : ℤ) : ℚ) := by
      rw [ofInt_exact _ hs]
      have := add_exact (a := (a : ℚ)) (b := (mainOf f c.Size : ℚ))
        (by exact_mod_cast exact_int _ has)
      rw [this]; push_cast; rfl
    simp only [totalMain, sizedElement, h1]
    have := ih (a + mainOf f c.Size) (by linarith [abs_add a (mainOf f c.Size)])
    simp only [sizedElement] at this
    rw [this, add_assoc]

/-- Without spacing the running offset is exact: first offset plus the sizes
passed so far. -/
theorem offsetAt_exact (o : ℚ) (ho : ∃ k : ℤ, o = (k : ℚ) / 2) (ss : List Int)
    (hb : |o| + (absSum ss : ℚ) < 2 ^ (52 : ℕ)) (i : Nat) :
    offsetAt (F64.fin 0) (F64.fin o) (ss.map (fun s => F64.ofInt s)) i =
      F64.fin (o + ((ss.take i).sum : ℤ)) := by
  induction ss generalizing o i with
  | nil => simp [offsetAt]
  | cons s ss ih =>
    cases i with
    | zero => simp [offsetAt]
    | succ i =>
      have hn : (0 : ℚ) ≤ (absSum ss : ℚ) := by exact_mod_cast absSum_nonneg ss
      rw [absSum_cons] at hb
      push_cast at hb
      have hs : |s| < 2 ^ (52 : ℕ) := by
        have : |(s : ℚ)| < 2 ^ (52 : ℕ) := by linarith [abs_nonneg o]
        exact_mod_cast this
      obtain ⟨k, hk⟩ := ho
      have hos : Exact (o + s) := by
        refine ⟨⟨k + 2 * s, by rw [hk]; push_cast; ring⟩, ?_⟩
        linarith [abs_add o (s : ℚ)]
      have h0 : F64.add (F64.fin 0) (F64.fin (s : ℚ)) = F64.fin (s : ℚ) := by
        have := add_exact (a := 0) (b := (s : ℚ)) (by simpa using exact_int s hs)
        simpa using this
      simp only [List.map_cons, offsetAt, ofInt_exact s hs, h0, add_exact hos]
      have := ih (o + s) ⟨k + 2 * s, by rw [hk]; push_cast; ring⟩
        (by linarith [abs_add o (s : ℚ)]) i
      simp only [] at this
      rw [this, List.take_succ_cons, List.sum_cons]
      push_cast
      ring_nf

theorem remFreeOf_exact (f : Flex) (v : View)
    (hb : |mainOf f v.rect.Size| + absSum (mainExtents f v) ≤ 2 ^ (50 : ℕ)) :
    remFreeOf f v = F64.fin (remainingFree f v : ℚ) := by
  have hn := absSum_nonneg (mainExtents f v)
  have hM : |mainOf f v.rect.Size| < 2 ^ (52 : ℕ) := by
    have : (2 : ℤ) ^ (50 : ℕ) < 2 ^ (52 : ℕ) := by norm_num
    linarith
  have ht := totalMain_exact f 0 v.subViews (by
    have : (2 : ℤ) ^ (50 : ℕ) < 2 ^ (52 : ℕ) := by norm_num
    simp only [abs_zero, zero_add]
    have h2 : absSum (v.subViews.map (fun c => mainOf f c.Size)) = absSum (mainExtents f v) := rfl
    linarith [abs_nonneg (mainOf f v.rect.Size)])
  simp only [Int.cast_zero, zero_add] at ht
  unfold remFreeOf
  rw [ht, ofInt_exact _ hM]
  have hs := abs_sum_le_absSum (mainExtents f v)
  have he : Exact ((mainOf f v.rect.Size : ℚ) - ((mainExtents f v).sum : ℤ)) := by
    have := exact_int (mainOf f v.rect.Size - (mainExtents f v).sum) (by
      have : (2 : ℤ) ^ (50 : ℕ) < 2 ^ (52 : ℕ) := by norm_num
      have := abs_sub (mainOf f v.rect.Size) ((mainExtents f v).sum)
      linarith)
    simpa using this
  have := sub_exact he
  simp only [mainExtents] at this ⊢
  rw [this]
  simp [remainingFree, mainExtents]

theorem abs_remainingFree_le (f : Flex) (v : View) :
    |remainingFree f v| ≤ |mainOf f v.rect.Size| + absSum (mainExtents f v) := by
  unfold remainingFree
  have := abs_sub (mainOf f v.rect.Size) ((mainExtents f v).sum)
  linarith [abs_sum_le_absSum (mainExtents f v)]

theorem rectOf_edges (f : Flex) (e : element) :
    mainOf f (rectOf f e).Min = round e.mainOffset ∧
    mainOf f (rectOf f e).Max = round (F64.add e.mainOffset e.mainSize) ∧
    crossOf f (rectOf f e).Min = round e.crossOffset ∧
    crossOf f (rectOf f e).Max = round (F64.add e.crossOffset e.crossSize) := by
  by_cases h : f.Direction = Row <;> simp [mainOf, crossOf, rectOf, h]

/-- Main offsets and main edges of a line laid out without spacing, from an
exact first offset `o`. -/
theorem nospacing_main (f : Flex) (v : View) (hd : f.Direction = Row ∨ f.Direction = Column)
    (hw : f.Wrap = NoWrap) (o : ℚ) (ho : ∃ k : ℤ, o = (k : ℚ) / 2)
    (hj : justifyStart f (remFreeOf f v) v.subViews.length = (F64.fin o, F64.fin 0))
    (hb : |o| + (absSum (mainExtents f v) : ℚ) ≤ 2 ^ (51 : ℕ))
    (i : Nat) (c : Rectangle) (hc : v.subViews[i]? = some c) :
    ∃ els e, resolve f v = .ok els ∧ els[i]? = some e ∧
      (OnLayout f v).failure = none ∧ (OnLayout f v).rects[i]? = some (rectOf f e) ∧
      e.mainOffset = F64.fin (o + (mainBefore f v i : ℚ)) ∧
      mainOf f (rectOf f e).Min = ⌊o + (mainBefore f v i : ℚ) + 1 / 2⌋ ∧
      mainOf f (rectOf f e).Max = ⌊o + (mainBefore f v i : ℚ) + 1 / 2⌋ + mainOf f c.Size := by
  obtain ⟨els, e, h1, h2, h3, h4, _, _, h7, h8⟩ := resolved_at f v hd hw i c hc
  have hlt : ((2 : ℚ) ^ (51 : ℕ)) < 2 ^ (52 : ℕ) := by norm_num
  have hoff : e.mainOffset = F64.fin (o + (mainBefore f v i : ℚ)) := by
    rw [h3]
    unfold mainOffsetAt
    rw [hj]
    have := offsetAt_exact o ho (mainExtents f v) (by linarith) i
    simp only [mainExtents, List.map_map] at this
    exact this
  obtain ⟨k, hk⟩ := ho
  have hn : (0 : ℚ) ≤ (absSum (mainExtents f v) : ℚ) := by
    exact_mod_cast absSum_nonneg (mainExtents f v)
  have hbef : |(mainBefore f v i : ℚ)| ≤ (absSum (mainExtents f v) : ℚ) := by
    have h := (abs_sum_le_absSum ((mainExtents f v).take i)).trans (absSum_take_le _ i)
    have : |(mainBefore f v i : ℚ)| = ((|mainBefore f v i| : ℤ) : ℚ) := by simp
    rw [this]
    exact_mod_cast h
  have hci : (mainExtents f v)[i]? = some (mainOf f c.Size) := by
    simp [mainExtents, hc]
  -- the extent of the child and the sizes in front of it are disjoint parts of the sum
  have hsplit : |(mainBefore f v i : ℚ)| + |(mainOf f c.Size : ℚ)| ≤
      (absSum (mainExtents f v) : ℚ) := by
    have h := absSum_take_le (mainExtents f v) (i + 1)
    rw [List.take_succ, hci] at h
    simp only [Option.toList_some, absSum, List.map_append, List.sum_append, List.map_cons,
      List.map_nil, List.sum_cons, List.sum_nil, add_zero] at h
    have h' := abs_sum_le_absSum ((mainExtents f v).take i)
    simp only [absSum] at h'
    have : |(mainBefore f v i : ℚ)| + |(mainOf f c.Size : ℚ)| =
        ((|mainBefore f v i| + |mainOf f c.Size| : ℤ) : ℚ) := by simp
    rw [this]
    have h3 : |mainBefore f v i| + |mainOf f c.Size| ≤ absSum (mainExtents f v) := by
      unfold mainBefore absSum
      linarith
    exact_mod_cast h3
  have hs : |mainOf f c.Size| < 2 ^ (52 : ℕ) := by
    have : |(mainOf f c.Size : ℚ)| < 2 ^ (52 : ℕ) := by
      linarith [abs_nonneg (mainBefore f v i : ℚ), abs_nonneg o]
    exact_mod_cast this
  have hnear : Exact (o + (mainBefore f v i : ℚ) + 1 / 2) := by
    refine ⟨⟨k + 2 * mainBefore f v i + 1, by rw [hk]; push_cast; ring⟩, ?_⟩
    have h1 := abs_add (o + (mainBefore f v i : ℚ)) (1 / 2)
    have h2 := abs_add o (mainBefore f v i : ℚ)
    have h3 : |(1 / 2 : ℚ)| = 1 / 2 := by norm_num
    have : (2 : ℚ) ^ (51 : ℕ) + 1 / 2 < 2 ^ (52 : ℕ) := by norm_num
    linarith
  have hsum : Exact (o + (mainBefore f v i : ℚ) + (mainOf f c.Size : ℚ)) := by
    refine ⟨⟨k + 2 * mainBefore f v i + 2 * mainOf f c.Size, by rw [hk]; push_cast; ring⟩, ?_⟩
    have h1 := abs_add (o + (mainBefore f v i : ℚ)) (mainOf f c.Size : ℚ)
    have h2 := abs_add o (mainBefore f v i : ℚ)
    linarith
  have hfar : Exact (o + (mainBefore f v i : ℚ) + (mainOf f c.Size : ℚ) + 1 / 2) := by
    refine ⟨⟨k + 2 * mainBefore f v i + 2 * mainOf f c.Size + 1,
      by rw [hk]; push_cast; ring⟩, ?_⟩
    have h0 := abs_add (o + (mainBefore f v i : ℚ) + (mainOf f c.Size : ℚ)) (1 / 2)
    have h1 := abs_add (o + (mainBefore f v i : ℚ)) (mainOf f c.Size : ℚ)
    have h2 := abs_add o (mainBefore f v i : ℚ)
    have h3 : |(1 / 2 : ℚ)| = 1 / 2 := by norm_num
    have : (2 : ℚ) ^ (51 : ℕ) + 1 / 2 < 2 ^ (52 : ℕ) := by norm_num
    linarith
  obtain ⟨e1, e2, _, _⟩ := rectOf_edges f e
  refine ⟨els, e, h1, h2, h7, h8, hoff, ?_, ?_⟩
  · rw [e1, hoff, round_exact hnear]
  · rw [e2, hoff, h4, ofInt_exact _ hs, add_exact hsum, round_exact hfar]
    have : o + (mainBefore f v i : ℚ) + (mainOf f c.Size : ℚ) + 1 / 2 =
        o + (mainBefore f v i : ℚ) + 1 / 2 + ((mainOf f c.Size : ℤ) : ℚ) := by ring
    rw [this, Int.floor_add_int]

/-- C1 (amended): in a `Row` or `Column` container with `Wrap = NoWrap` and
`Justify = JustifyCenter`, if the main extent of the container and the main
extents of the sub views add up, in absolute value, to at most `2^50`, then the
unrounded main offset of sub view `i` is `remainingFree / 2` plus the main
extents of the sub views in front of it, and the near main edge of its
rectangle is the floor of that offset plus one half. -/
theorem center_offset_and_edge (f : Flex) (v : View)
    (hd : f.Direction = Row ∨ f.Direction = Column) (hw : f.Wrap = NoWrap)
    (hj : f.Justify = JustifyCenter)
    (hb : |mainOf f v.rect.Size| + absSum (mainExtents f v) ≤ 2 ^ (50 : ℕ))
    (i : Nat) (hi : i < v.subViews.length) :
    ∃ els e r, resolve f v = .ok els ∧ els[i]? = some e ∧
      (OnLayout f v).rects[i]? = some r ∧
      e.mainOffset = F64.fin (centerOffset f v i) ∧
      mainOf f r.Min = ⌊centerOffset f v i + 1 / 2⌋ := by
  have hR := remFreeOf_exact f v hb
  have hRb := abs_remainingFree_le f v
  have hn := absSum_nonneg (mainExtents f v)
  have hRq : |(remainingFree f v : ℚ)| ≤ 2 ^ (50 : ℕ) := by
    have : |(remainingFree f v : ℚ)| = ((|remainingFree f v| : ℤ) : ℚ) := by simp
    rw [this]
    exact_mod_cast hRb.trans hb
  have hAq : (absSum (mainExtents f v) : ℚ) ≤ 2 ^ (50 : ℕ) := by
    have : absSum (mainExtents f v) ≤ 2 ^ (50 : ℕ) := by linarith [abs_nonneg (mainOf f v.rect.Size)]
    exact_mod_cast this
  have hhalf : |(remainingFree f v : ℚ) / 2| ≤ 2 ^ (50 : ℕ) := by
    rw [abs_div]
    have : |(2 : ℚ)| = 2 := by norm_num
    rw [this]
    linarith [abs_nonneg (remainingFree f v : ℚ)]
  have hE : Exact ((remainingFree f v : ℚ) / 2) := by
    refine ⟨⟨remainingFree f v, rfl⟩, ?_⟩
    have : (2 : ℚ) ^ (50 : ℕ) < 2 ^ (52 : ℕ) := by norm_num
    linarith
  have hjs : justifyStart f (remFreeOf f v) v.subViews.length =
      (F64.fin ((remainingFree f v : ℚ) / 2), F64.fin 0) := by
    have h1 : ¬ JustifyCenter = JustifyStart := by decide
    have h2 : ¬ JustifyCenter = JustifyEnd := by decide
    simp only [justifyStart, hj, h1, h2, if_false, if_true, hR, div_two_exact hE]
  obtain ⟨c, hc⟩ : ∃ c, v.subViews[i]? = some c := ⟨v.subViews[i], List.getElem?_eq_getElem hi⟩
  obtain ⟨els, e, h1, h2, _, h4, h5, h6, _⟩ :=
    nospacing_main f v hd hw _ ⟨remainingFree f v, rfl⟩ hjs (by
      have : (2 : ℚ) ^ (50 : ℕ) + 2 ^ (50 : ℕ) = 2 ^ (51 : ℕ) := by norm_num
      linarith) i c hc
  exact ⟨els, e, rectOf f e, h1, h2, h4, h5, h6⟩

/-- C1, an instance: in the container of `NewFlex 100 50` with two sub views 20
wide, the second one is offset by `60 / 2 + 20`. -/
theorem center_offset_and_edge_witness :
    ∃ els e r, resolve (NewFlex 100 50) centerView = .ok els ∧ els[1]? = some e ∧
      (OnLayout (NewFlex 100 50) centerView).rects[1]? = some r ∧
      e.mainOffset = F64.fin (centerOffset (NewFlex 100 50) centerView 1) ∧
      mainOf (NewFlex 100 50) r.Min = ⌊centerOffset (NewFlex 100 50) centerView 1 + 1 / 2⌋ :=
  center_offset_and_edge (NewFlex 100 50) centerView (by decide) (by decide) (by decide)
    (by decide) 1 (by decide)

/-- C1 as stated fails on a container `2^53 + 1` wide: `float64` holds this
width as `2^53`, the first of two sub views 20 wide gets the near edge
`4503599627370476`, and the claim asks for `4503599627370477`. -/
theorem center_wide_counterexample :
    (OnLayout (NewFlex 9007199254740993 50) wideView).rects[0]? =
      some ⟨⟨4503599627370476, 15⟩, ⟨4503599627370496, 35⟩⟩ ∧
    ⌊centerOffset (NewFlex 9007199254740993 50) wideView 0 + 1 / 2⌋ = 4503599627370477 := by
  constructor
  · decide!
  · decide!

/-! ## Cross axis -/

theorem lineCrossSize_eq (f : Flex) (v : View) (hd : f.Direction = Row ∨ f.Direction = Column) :
    lineCrossSize f v = F64.ofInt (crossOf f v.rect.Size) := by
  rcases hd with h | h <;> simp [lineCrossSize, crossOf, h, Row, Column]

/-- The cross offset and the cross edges of a sub view, while the cross extents
of container and sub view stay within `2^50`. -/
theorem cross_exact (f : Flex) (v : View) (hd : f.Direction = Row ∨ f.Direction = Column)
    (c : Rectangle)
    (hb : |crossOf f v.rect.Size| + |crossOf f c.Size| ≤ 2 ^ (50 : ℕ)) (e : element)
    (ho : e.crossOffset = crossOffsetOf f v c) (hs : e.crossSize = F64.ofInt (crossOf f c.Size)) :
    e.crossOffset = F64.fin (alignOffset f (crossOf f v.rect.Size) (crossOf f c.Size)) ∧
    crossOf f (rectOf f e).Min =
      ⌊alignOffset f (crossOf f v.rect.Size) (crossOf f c.Size) + 1 / 2⌋ ∧
    crossOf f (rectOf f e).Max =
      ⌊alignOffset f (crossOf f v.rect.Size) (crossOf f c.Size) + 1 / 2⌋ + crossOf f c.Size := by
  set L := crossOf f v.rect.Size with hL
  set C := crossOf f c.Size with hC
  have h50 : (2 : ℤ) ^ (50 : ℕ) < 2 ^ (52 : ℕ) := by norm_num
  have hLb : |L| < 2 ^ (52 : ℕ) := by linarith [abs_nonneg C]
  have hCb : |C| < 2 ^ (52 : ℕ) := by linarith [abs_nonneg L]
  have hLq : |(L : ℚ)| + |(C : ℚ)| ≤ 2 ^ (50 : ℕ) := by
    have : |(L : ℚ)| + |(C : ℚ)| = ((|L| + |C| : ℤ) : ℚ) := by simp
    rw [this]; exact_mod_cast hb
  have hdiff : |(L : ℚ) - (C : ℚ)| ≤ 2 ^ (50 : ℕ) := (abs_sub _ _).trans hLq
  have h2 : |(2 : ℚ)| = 2 := by norm_num
  have hlt : (2 : ℚ) ^ (50 : ℕ) < 2 ^ (52 : ℕ) := by norm_num
  have hEd : Exact ((L : ℚ) - (C : ℚ)) :=
    ⟨⟨2 * (L - C), by push_cast; ring⟩, by linarith⟩
  have hEh : Exact (((L : ℚ) - (C : ℚ)) / 2) := by
    refine ⟨⟨L - C, by push_cast; ring⟩, ?_⟩
    rw [abs_div, h2]
    linarith [abs_nonneg ((L : ℚ) - (C : ℚ))]
  have hE0d : Exact (0 + ((L : ℚ) - (C : ℚ))) := by simpa using hEd
  have hE0h : Exact (0 + ((L : ℚ) - (C : ℚ)) / 2) := by simpa using hEh
  -- the offset
  have hoff : e.crossOffset = F64.fin (alignOffset f L C) := by
    rw [ho]
    simp only [crossOffsetOf, alignChild, singleLine, sizedElement, lineCrossSize_eq f v hd,
      ← hL, ← hC, ofInt_exact L hLb, ofInt_exact C hCb, F64.eq, alignOffset]
    by_cases hcl : (C : ℚ) = (L : ℚ)
    · simp only [hcl, decide_True, if_true, sub_self, zero_div, ite_self]
    · simp only [hcl, decide_False, Bool.false_eq_true, if_false]
      by_cases hS : f.AlignItems = AlignItemStart
      · have h1 : ¬ AlignItemStart = AlignItemEnd := by decide
        have h2 : ¬ AlignItemStart = AlignItemCenter := by decide
        simp only [hS, if_true, h1, h2, if_false]
      · by_cases hE : f.AlignItems = AlignItemEnd
        · have h1 : ¬ AlignItemEnd = AlignItemStart := by decide
          simp only [hE, h1, if_true, if_false, sub_exact hEd, add_exact hE0d, zero_add]
        · by_cases hC2 : f.AlignItems = AlignItemCenter
          · have h1 : ¬ AlignItemCenter = AlignItemStart := by decide
            have h2 : ¬ AlignItemCenter = AlignItemEnd := by decide
            simp only [hC2, h1, h2, if_true, if_false, sub_exact hEd, div_two_exact hEh,
              add_exact hE0h, zero_add]
          · simp only [hS, hE, hC2, if_false]
  -- the closed form is a half-integer within 2^50
  obtain ⟨k, hk, hkb⟩ : ∃ k : ℤ, alignOffset f L C = (k : ℚ) / 2 ∧
      |alignOffset f L C| ≤ 2 ^ (50 : ℕ) := by
    unfold alignOffset
    split_ifs
    · exact ⟨2 * (L - C), by push_cast; ring, hdiff⟩
    · refine ⟨L - C, by push_cast; ring, ?_⟩
      rw [abs_div, h2]
      linarith [abs_nonneg ((L : ℚ) - (C : ℚ))]
    · exact ⟨0, by simp, by simp⟩
  have hCq : |(C : ℚ)| ≤ 2 ^ (50 : ℕ) := by linarith [abs_nonneg (L : ℚ)]
  have hhalf : |(1 / 2 : ℚ)| = 1 / 2 := by norm_num
  have hnear : Exact (alignOffset f L C + 1 / 2) := by
    refine ⟨⟨k + 1, by rw [hk]; push_cast; ring⟩, ?_⟩
    have := abs_add (alignOffset f L C) (1 / 2)
    have h3 : (2 : ℚ) ^ (50 : ℕ) + 1 / 2 < 2 ^ (52 : ℕ) := by norm_num
    linarith
  have hsum : Exact (alignOffset f L C + (C : ℚ)) := by
    refine ⟨⟨k + 2 * C, by rw [hk]; push_cast; ring⟩, ?_⟩
    have := abs_add (alignOffset f L C) (C : ℚ)
    have h3 : (2 : ℚ) ^ (50 : ℕ) + 2 ^ (50 : ℕ) < 2 ^ (52 : ℕ) := by norm_num
    linarith
  have hfar : Exact (alignOffset f L C + (C : ℚ) + 1 / 2) := by
    refine ⟨⟨k + 2 * C + 1, by rw [hk]; push_cast; ring⟩, ?_⟩
    have h0 := abs_add (alignOffset f L C + (C : ℚ)) (1 / 2)
    have := abs_add (alignOffset f L C) (C : ℚ)
    have h3 : (2 : ℚ) ^ (50 : ℕ) + 2 ^ (50 : ℕ) + 1 / 2 < 2 ^ (52 : ℕ) := by norm_num
    linarith
  obtain ⟨_, _, e3, e4⟩ := rectOf_edges f e
  refine ⟨hoff, ?_, ?_⟩
  · rw [e3, hoff, round_exact hnear]
  · rw [e4, hoff, hs, ofInt_exact C hCb, add_exact hsum, round_exact hfar]
    have : alignOffset f L C + (C : ℚ) + 1 / 2 = alignOffset f L C + 1 / 2 + ((C : ℤ) : ℚ) := by
      ring
    rw [this, Int.floor_add_int]

/-- C2 (amended): in a single-line layout (`Row` or `Column`, `Wrap = NoWrap`),
for a sub view of cross extent `c` in a container of cross extent `l` with
`|l| + |c| ≤ 2^50`, the unrounded cross offset is `0` under `AlignItemStart`,
`l - c` under `AlignItemEnd` and `(l - c) / 2` under `AlignItemCenter`, and it
is `0` whenever `c = l`. -/
theorem cross_alignment (f : Flex) (v : View) (hd : f.Direction = Row ∨ f.Direction = Column)
    (hw : f.Wrap = NoWrap) (i : Nat) (c : Rectangle) (hc : v.subViews[i]? = some c)
    (hb : |crossOf f v.rect.Size| + |crossOf f c.Size| ≤ 2 ^ (50 : ℕ)) :
    ∃ els e, resolve f v = .ok els ∧ els[i]? = some e ∧
      (f.AlignItems = AlignItemStart → e.crossOffset = F64.fin 0) ∧
      (f.AlignItems = AlignItemEnd →
        e.crossOffset = F64.fin ((crossOf f v.rect.Size : ℚ) - (crossOf f c.Size : ℚ))) ∧
      (f.AlignItems = AlignItemCenter →
        e.crossOffset = F64.fin (((crossOf f v.rect.Size : ℚ) - (crossOf f c.Size : ℚ)) / 2)) ∧
      (crossOf f c.Size = crossOf f v.rect.Size → e.crossOffset = F64.fin 0) := by
  obtain ⟨els, e, h1, h2, _, _, h5, h6, _, _⟩ := resolved_at f v hd hw i c hc
  obtain ⟨hoff, _, _⟩ := cross_exact f v hd c hb e h6 h5
  refine ⟨els, e, h1, h2, ?_, ?_, ?_, ?_⟩
  · intro h
    have h1 : ¬ AlignItemStart = AlignItemEnd := by decide
    have h2 : ¬ AlignItemStart = AlignItemCenter := by decide
    rw [hoff]; simp only [alignOffset, h, h1, h2, if_false]
  · intro h
    rw [hoff]; simp only [alignOffset, h, if_true]
  · intro h
    have h1 : ¬ AlignItemCenter = AlignItemEnd := by decide
    rw [hoff]; simp only [alignOffset, h, h1, if_false, if_true]
  · intro h
    rw [hoff, h]; simp only [alignOffset, sub_self, zero_div, ite_self]

/-- C2, an instance: a sub view 20 high in a container 50 high, under
`AlignItemEnd`. -/
theorem cross_alignment_witness :
    ∃ els e, resolve { NewFlex 100 50 with AlignItems := AlignItemEnd } crossView = .ok els ∧
      els[0]? = some e ∧
      (AlignItemEnd = AlignItemStart → e.crossOffset = F64.fin 0) ∧
      (AlignItemEnd = AlignItemEnd → e.crossOffset = F64.fin ((50 : ℚ) - (20 : ℚ))) ∧
      (AlignItemEnd = AlignItemCenter → e.crossOffset = F64.fin (((50 : ℚ) - (20 : ℚ)) / 2)) ∧
      ((20 : ℤ) = 50 → e.crossOffset = F64.fin 0) :=
  cross_alignment { NewFlex 100 50 with AlignItems := AlignItemEnd } crossView (by decide)
    (by decide) 0 (rectWH 40 20) (by decide) (by decide)

/-- C2 as stated fails on a container `2^53 + 1` high: under `AlignItemEnd` a
sub view 20 high gets the cross offset `9007199254740972`, one less than the
difference of the two cross extents. -/
theorem cross_tall_counterexample :
    crossOffsets { NewFlex 100 9007199254740993 with AlignItems := AlignItemEnd } tallView =
      some [F64.fin 9007199254740972] ∧
    crossOf { NewFlex 100 9007199254740993 with AlignItems := AlignItemEnd } tallView.rect.Size -
      crossOf { NewFlex 100 9007199254740993 with AlignItems := AlignItemEnd } (rectWH 40 20).Size =
      9007199254740973 := by
  constructor
  · decide!
  · decide

/-! ## Packing to the end of the line -/

theorem mainBefore_succ (f : Flex) (v : View) (i : Nat) (c : Rectangle)
    (hc : v.subViews[i]? = some c) :
    mainBefore f v (i + 1) = mainBefore f v i + mainOf f c.Size := by
  have hci : (mainExtents f v)[i]? = some (mainOf f c.Size) := by simp [mainExtents, hc]
  unfold mainBefore
  rw [List.take_succ, hci]
  simp

theorem mainBefore_length (f : Flex) (v : View) :
    mainBefore f v v.subViews.length = (mainExtents f v).sum := by
  unfold mainBefore
  rw [List.take_of_length_le (by simp [mainExtents])]

theorem floor_int_add_half (n : ℤ) : ⌊(n : ℚ) + 1 / 2⌋ = n := by
  rw [Int.floor_eq_iff]
  constructor <;> norm_num

/-- C8 (amended): in a `Row` or `Column` container with `Wrap = NoWrap` and
`Justify = JustifyEnd`, if the main extent of the container and the main
extents of the sub views add up, in absolute value, to at most `2^50`, then sub
view `i` is offset by `remainingFree` (which may be negative) plus the main
extents of the sub views in front of it, so the first one is offset by
`remainingFree` and each one starts where the one before it ends; the edges of
its rectangle are this offset and this offset plus its main extent, and the far
main edge of the last sub view is the main extent of the container. -/
theorem end_offsets_and_edges (f : Flex) (v : View)
    (hd : f.Direction = Row ∨ f.Direction = Column) (hw : f.Wrap = NoWrap)
    (hj : f.Justify = JustifyEnd)
    (hb : |mainOf f v.rect.Size| + absSum (mainExtents f v) ≤ 2 ^ (50 : ℕ))
    (i : Nat) (c : Rectangle) (hc : v.subViews[i]? = some c) :
    ∃ els e r, resolve f v = .ok els ∧ els[i]? = some e ∧
      (OnLayout f v).rects[i]? = some r ∧
      e.mainOffset = F64.fin ((remainingFree f v + mainBefore f v i : ℤ) : ℚ) ∧
      mainOf f r.Min = remainingFree f v + mainBefore f v i ∧
      mainOf f r.Max = remainingFree f v + mainBefore f v (i + 1) ∧
      (i + 1 = v.subViews.length → mainOf f r.Max = mainOf f v.rect.Size) := by
  have hR := remFreeOf_exact f v hb
  have hRb := abs_remainingFree_le f v
  have hn := absSum_nonneg (mainExtents f v)
  have hjs : justifyStart f (remFreeOf f v) v.subViews.length =
      (F64.fin (remainingFree f v : ℚ), F64.fin 0) := by
    have h1 : ¬ JustifyEnd = JustifyStart := by decide
    simp only [justifyStart, hj, h1, if_false, if_true, hR]
  have hbq : |(remainingFree f v : ℚ)| + (absSum (mainExtents f v) : ℚ) ≤ 2 ^ (51 : ℕ) := by
    have h : |remainingFree f v| + absSum (mainExtents f v) ≤ 2 ^ (51 : ℕ) := by
      have : (2 : ℤ) ^ (50 : ℕ) + 2 ^ (50 : ℕ) = 2 ^ (51 : ℕ) := by norm_num
      linarith [abs_nonneg (mainOf f v.rect.Size)]
    have : |(remainingFree f v : ℚ)| = ((|remainingFree f v| : ℤ) : ℚ) := by simp
    rw [this]
    exact_mod_cast h
  obtain ⟨els, e, h1, h2, _, h4, h5, h6, h7⟩ :=
    nospacing_main f v hd hw _ ⟨2 * remainingFree f v, by push_cast; ring⟩ hjs hbq i c hc
  have hfl : ⌊(remainingFree f v : ℚ) + (mainBefore f v i : ℚ) + 1 / 2⌋ =
      remainingFree f v + mainBefore f v i := by
    have := floor_int_add_half (remainingFree f v + mainBefore f v i)
    push_cast at this
    exact this
  have hmax : mainOf f (rectOf f e).Max = remainingFree f v + mainBefore f v (i + 1) := by
    rw [h7, hfl, mainBefore_succ f v i c hc]; ring
  refine ⟨els, e, rectOf f e, h1, h2, h4, ?_, ?_, hmax, ?_⟩
  · rw [h5]; push_cast; rfl
  · rw [h6, hfl]
  · intro hl
    rw [hmax, hl, mainBefore_length]
    unfold remainingFree
    ring

/-- C8, an instance: sub views 20 and 30 wide in a container 100 wide; the
second one is the last. -/
theorem end_offsets_and_edges_witness :
    ∃ els e r, resolve { NewFlex 100 50 with Justify := JustifyEnd } endView = .ok els ∧
      els[1]? = some e ∧
      (OnLayout { NewFlex 100 50 with Justify := JustifyEnd } endView).rects[1]? = some r ∧
      e.mainOffset = F64.fin ((remainingFree { NewFlex 100 50 with Justify := JustifyEnd } endView +
        mainBefore { NewFlex 100 50 with Justify := JustifyEnd } endView 1 : ℤ) : ℚ) ∧
      mainOf { NewFlex 100 50 with Justify := JustifyEnd } r.Min =
        remainingFree { NewFlex 100 50 with Justify := JustifyEnd } endView +
          mainBefore { NewFlex 100 50 with Justify := JustifyEnd } endView 1 ∧
      mainOf { NewFlex 100 50 with Justify := JustifyEnd } r.Max =
        remainingFree { NewFlex 100 50 with Justify := JustifyEnd } endView +
          mainBefore { NewFlex 100 50 with Justify := JustifyEnd } endView (1 + 1) ∧
      (1 + 1 = endView.subViews.length →
        mainOf { NewFlex 100 50 with Justify := JustifyEnd } r.Max = 100) :=
  end_offsets_and_edges { NewFlex 100 50 with Justify := JustifyEnd } endView (by decide)
    (by decide) (by decide) (by decide) 1 (rectWH 30 20) (by decide)

/-- C8 as stated fails on a container `2^53 + 1` wide: under `JustifyEnd` its
only sub view, 20 wide, is offset by `9007199254740972`, one less than
`remainingFree`, and its far edge is `2^53`, one less than the main extent of
the container. -/
theorem end_wide_counterexample :
    mainOffsets { NewFlex 9007199254740993 50 with Justify := JustifyEnd } wideOneView =
      some [F64.fin 9007199254740972] ∧
    remainingFree { NewFlex 9007199254740993 50 with Justify := JustifyEnd } wideOneView =
      9007199254740973 ∧
    (OnLayout { NewFlex 9007199254740993 50 with Justify := JustifyEnd } wideOneView).rects =
      [⟨⟨9007199254740972, 15⟩, ⟨9007199254740992, 35⟩⟩] ∧
    mainOf { NewFlex 9007199254740993 50 with Justify := JustifyEnd } wideOneView.rect.Size =
      9007199254740993 := by
  refine ⟨?_, ?_, ?_, ?_⟩
  · decide!
  · decide
  · decide!
  · decide

/-! ## Failures, and what the pass depends on -/

theorem collect_bad (f : Flex) (hd : ¬ (f.Direction = Row ∨ f.Direction = Column))
    (c : Rectangle) (cs : List Rectangle) :
    collect f (c :: cs) = .error (badDirection f.Direction) := by
  rw [not_or] at hd
  simp only [collect, flexBaseSize, mainSize, hd.1, hd.2, if_false]
  rfl

/-- With a direction that is neither `Row` nor `Column`, `resolve` panics. -/
theorem resolve_bad_direction (f : Flex) (v : View)
    (hd : ¬ (f.Direction = Row ∨ f.Direction = Column)) :
    resolve f v = .error (badDirection f.Direction) := by
  unfold resolve
  cases hv : v.subViews with
  | nil =>
    rw [not_or] at hd
    simp only [collect, mainSize, hd.1, hd.2, if_false]
    rfl
  | cons c cs =>
    rw [collect_bad f hd]
    rfl

/-- With a direction the pass knows and a wrap other than `NoWrap`, `resolve`
panics at line 132. -/
theorem resolve_wrap (f : Flex) (v : View) (hd : f.Direction = Row ∨ f.Direction = Column)
    (hw : f.Wrap ≠ NoWrap) : resolve f v = .error "not implemented" := by
  simp only [resolve, collect_ok f hd, mainSize_ok f hd, bind, Except.bind, hw, if_false]

theorem generate_congr (f g : Flex) (hd : f.Direction = g.Direction) (i : Nat)
    (cs : List element) : generate f i cs = generate g i cs := by
  induction cs generalizing i with
  | nil => rfl
  | cons c cs ih => simp only [generate, hd, ih]

theorem mainOf_congr (f g : Flex) (hd : f.Direction = g.Direction) : mainOf f = mainOf g := by
  funext p; simp only [mainOf, hd]

theorem crossOf_congr (f g : Flex) (hd : f.Direction = g.Direction) : crossOf f = crossOf g := by
  funext p; simp only [crossOf, hd]

theorem singleLine_congr (f g : Flex) (hd : f.Direction = g.Direction) (v : View) :
    singleLine f v = singleLine g v := by
  have h1 : baseElement f = baseElement g := by
    funext c; simp only [baseElement, mainOf_congr f g hd]
  have h2 : sizedElement f = sizedElement g := by
    funext c; simp only [sizedElement, mainOf_congr f g hd, crossOf_congr f g hd]
  simp only [singleLine, lineCrossSize, h1, h2, hd]

/-- Two containers with the same direction and wrap, the same main axis
alignment of the line at hand and the same cross axis alignment run the same
pass. -/
theorem OnLayout_congr (f g : Flex) (v : View) (hd : f.Direction = g.Direction)
    (hw : f.Wrap = g.Wrap)
    (hJ : justifyLine f (F64.ofInt (mainOf f v.rect.Size)) (v.subViews.map (sizedElement f)) =
      justifyLine g (F64.ofInt (mainOf g v.rect.Size)) (v.subViews.map (sizedElement g)))
    (hA : ∀ l c, alignChild f l c = alignChild g l c) :
    OnLayout f v = OnLayout g v := by
  unfold OnLayout
  by_cases hv : f.Direction = Row ∨ f.Direction = Column
  · have hv' : g.Direction = Row ∨ g.Direction = Column := by rw [← hd]; exact hv
    by_cases hn : f.Wrap = NoWrap
    · rw [resolve_ok f v hv hn, resolve_ok g v hv' (hw ▸ hn), hJ, singleLine_congr f g hd]
      have : alignChild f (singleLine g v) = alignChild g (singleLine g v) := funext (hA _)
      simp only [this]
      exact generate_congr f g hd 0 _
    · rw [resolve_wrap f v hv hn, resolve_wrap g v hv' (hw ▸ hn)]
  · have hv' : ¬ (g.Direction = Row ∨ g.Direction = Column) := by rw [← hd]; exact hv
    rw [resolve_bad_direction f v hv, resolve_bad_direction g v hv', hd]

/-- C9: whenever `Wrap` is not `NoWrap`, whatever else the options and the
sub views are, `OnLayout` panics, and it has made no call on any sub view by
then: no rectangle is set. -/
theorem wrap_unsupported (f : Flex) (v : View) (hw : f.Wrap ≠ NoWrap) :
    (OnLayout f v).failure ≠ none ∧ (OnLayout f v).calls = [] ∧ (OnLayout f v).rects = [] := by
  unfold OnLayout
  by_cases hv : f.Direction = Row ∨ f.Direction = Column
  · rw [resolve_wrap f v hv hw]
    exact ⟨by simp, rfl, rfl⟩
  · rw [resolve_bad_direction f v hv]
    exact ⟨by simp, rfl, rfl⟩

/-- C9, an instance: `NewFlex 100 50` switched to `Wrap` panics with "not
implemented" on two sub views. -/
theorem wrap_unsupported_witness :
    (OnLayout { NewFlex 100 50 with Wrap := Wrap } centerView).failure ≠ none ∧
    (OnLayout { NewFlex 100 50 with Wrap := Wrap } centerView).calls = [] ∧
    (OnLayout { NewFlex 100 50 with Wrap := Wrap } centerView).rects = [] :=
  wrap_unsupported { NewFlex 100 50 with Wrap := Wrap } centerView (by decide)

theorem mainOffsets_ok (f : Flex) (v : View) (hd : f.Direction = Row ∨ f.Direction = Column)
    (hw : f.Wrap = NoWrap) :
    mainOffsets f v = some ((justifyLine f (F64.ofInt (mainOf f v.rect.Size))
      (v.subViews.map (sizedElement f))).map (fun e => e.mainOffset)) := by
  unfold mainOffsets
  rw [resolve_ok f v hd hw]
  simp only [List.map_map]
  congr 1
  apply List.map_congr_left
  intro e _
  exact (alignChild_fields f (singleLine f v) e).1

/-- C6: in a container with `Justify = JustifySpaceBetween` and exactly one sub
view, the pass is the pass under `JustifyStart` call for call, so the sub view
is handed the same rectangle; and when the pass does not panic (direction `Row`
or `Column`, `Wrap = NoWrap`) the main offset of the sub view is `0` and it is
handed one rectangle. -/
theorem single_child_space_between (f : Flex) (v : View) (c : Rectangle)
    (hj : f.Justify = JustifySpaceBetween) (hv : v.subViews = [c]) :
    OnLayout f v = OnLayout { f with Justify := JustifyStart } v ∧
    (f.Direction = Row ∨ f.Direction = Column → f.Wrap = NoWrap →
      mainOffsets f v = some [F64.fin 0] ∧ (OnLayout f v).failure = none ∧
      ∃ r, (OnLayout f v).rects = [r]) := by
  have h1 : ¬ JustifySpaceBetween = JustifyStart := by decide
  have h2 : ¬ JustifySpaceBetween = JustifyEnd := by decide
  have h3 : ¬ JustifySpaceBetween = JustifyCenter := by decide
  have hJ : ∀ M, justifyLine f M (v.subViews.map (sizedElement f)) =
      [{ sizedElement f c with mainOffset := F64.fin 0 }] := by
    intro M
    simp only [justifyLine, hv, List.map_cons, List.map_nil, place, justifyStart, hj, h1, h2, h3,
      if_false, if_true]
  constructor
  · apply OnLayout_congr f { f with Justify := JustifyStart } v rfl rfl
    · rw [hJ]
      simp only [justifyLine, hv, List.map_cons, List.map_nil, place, justifyStart, if_true]
      rfl
    · intro l e; rfl
  · intro hd hw
    obtain ⟨hf, hr⟩ := OnLayout_rects f v hd hw
    refine ⟨?_, hf, ?_⟩
    · rw [mainOffsets_ok f v hd hw, hJ]; rfl
    · rw [hr, hJ]; exact ⟨_, rfl⟩

/-- C6, an instance: one sub view 40 wide in a container 100 wide takes the
main range from 0 to 40. -/
theorem single_child_space_between_witness :
    (OnLayout { NewFlex 100 50 with Justify := JustifySpaceBetween } crossView =
        OnLayout { { NewFlex 100 50 with Justify := JustifySpaceBetween } with
          Justify := JustifyStart } crossView ∧
      (Row = Row ∨ Row = Column → NoWrap = NoWrap →
        mainOffsets { NewFlex 100 50 with Justify := JustifySpaceBetween } crossView =
          some [F64.fin 0] ∧
        (OnLayout { NewFlex 100 50 with Justify := JustifySpaceBetween } crossView).failure = none ∧
        ∃ r, (OnLayout { NewFlex 100 50 with Justify := JustifySpaceBetween } crossView).rects
          = [r])) ∧
    (OnLayout { NewFlex 100 50 with Justify := JustifySpaceBetween } crossView).rects =
      [⟨⟨0, 15⟩, ⟨40, 35⟩⟩] :=
  ⟨single_child_space_between { NewFlex 100 50 with Justify := JustifySpaceBetween } crossView
    (rectWH 40 20) (by decide) (by decide), by decide!⟩

theorem place_length (sp off : F64) (cs : List element) : (place sp off cs).length = cs.length := by
  induction cs generalizing off with
  | nil => rfl
  | cons c cs ih => simp [place, ih]

/-- A pass that does not panic hands out one rectangle per sub view. -/
theorem rects_length (f : Flex) (v : View) (hd : f.Direction = Row ∨ f.Direction = Column)
    (hw : f.Wrap = NoWrap) : (OnLayout f v).rects.length = v.subViews.length := by
  obtain ⟨_, hr⟩ := OnLayout_rects f v hd hw
  rw [hr]
  simp only [List.length_map, justifyLine, place_length]

/-- The switches on `Justify` (lines 185-196) and on `AlignItems` (lines
212-219) have no default: a `Justify` value outside the five named ones runs
the pass of `JustifyStart` and an `AlignItems` value outside the three named
ones the pass of `AlignItemStart`, call for call, and neither makes the pass
panic. -/
theorem unrecognized_options_fall_through (f : Flex) (v : View) :
    (f.Justify ∉ [JustifyStart, JustifyEnd, JustifyCenter, JustifySpaceBetween,
        JustifySpaceAround] →
      OnLayout f v = OnLayout { f with Justify := JustifyStart } v) ∧
    (f.AlignItems ∉ [AlignItemStart, AlignItemEnd, AlignItemCenter] →
      OnLayout f v = OnLayout { f with AlignItems := AlignItemStart } v) ∧
    (f.Direction = Row ∨ f.Direction = Column → f.Wrap = NoWrap →
      (OnLayout f v).failure = none ∧ (OnLayout f v).rects.length = v.subViews.length) := by
  refine ⟨?_, ?_, ?_⟩
  · intro hj
    simp only [List.mem_cons, List.mem_singleton, List.not_mem_nil, or_false, not_or] at hj
    obtain ⟨h0, h1, h2, h3, h4⟩ := hj
    apply OnLayout_congr f { f with Justify := JustifyStart } v rfl rfl
    · simp only [justifyLine, justifyStart, h0, h1, h2, h3, h4, if_false, if_true]
      rfl
    · intro l e; rfl
  · intro ha
    simp only [List.mem_cons, List.mem_singleton, List.not_mem_nil, or_false, not_or] at ha
    obtain ⟨h0, h1, h2⟩ := ha
    apply OnLayout_congr f { f with AlignItems := AlignItemStart } v rfl rfl
    · rfl
    · intro l e
      simp only [alignChild, h0, h1, h2, if_false, if_true, ite_self]
  · intro hd hw
    exact ⟨(OnLayout_rects f v hd hw).1, rects_length f v hd hw⟩

/-- An instance of the missing defaults: `NewFlex 100 50` with the `Justify`
value 7. -/
theorem unrecognized_options_fall_through_witness :
    ((7 : Justify) ∉ [JustifyStart, JustifyEnd, JustifyCenter, JustifySpaceBetween,
        JustifySpaceAround] →
      OnLayout { NewFlex 100 50 with Justify := 7 } crossView =
        OnLayout { { NewFlex 100 50 with Justify := 7 } with Justify := JustifyStart } crossView) ∧
    (AlignItemCenter ∉ [AlignItemStart, AlignItemEnd, AlignItemCenter] →
      OnLayout { NewFlex 100 50 with Justify := 7 } crossView =
        OnLayout { { NewFlex 100 50 with Justify := 7 } with AlignItems := AlignItemStart }
          crossView) ∧
    (Row = Row ∨ Row = Column → NoWrap = NoWrap →
      (OnLayout { NewFlex 100 50 with Justify := 7 } crossView).failure = none ∧
      (OnLayout { NewFlex 100 50 with Justify := 7 } crossView).rects.length =
        crossView.subViews.length) :=
  unrecognized_options_fall_through { NewFlex 100 50 with Justify := 7 } crossView

/-- C10 fails on the code: with the `Justify` value 7, and with the
`AlignItems` value 9, `OnLayout` does not panic, where the claim asks for a
failure.  The pass completes and hands the sub view the rectangle of the pass
under `JustifyStart`, respectively `AlignItemStart`: the switches of lines
185-196 and 212-219 have no default, unlike the switches on `Direction`. -/
theorem unrecognized_options_not_rejected :
    (7 : Justify) ∉ [JustifyStart, JustifyEnd, JustifyCenter, JustifySpaceBetween,
      JustifySpaceAround] ∧
    OnLayout { NewFlex 100 50 with Justify := 7 } crossView =
      ⟨[Call.SetRect 0 0 15 40 35, Call.Layout 0], none⟩ ∧
    OnLayout { NewFlex 100 50 with Justify := 7 } crossView =
      OnLayout { NewFlex 100 50 with Justify := JustifyStart } crossView ∧
    (9 : AlignItem) ∉ [AlignItemStart, AlignItemEnd, AlignItemCenter] ∧
    OnLayout { NewFlex 100 50 with AlignItems := 9 } crossView =
      ⟨[Call.SetRect 0 30 0 70 20, Call.Layout 0], none⟩ ∧
    OnLayout { NewFlex 100 50 with AlignItems := 9 } crossView =
      OnLayout { NewFlex 100 50 with AlignItems := AlignItemStart } crossView ∧
    OnLayout { NewFlex 100 50 with Direction := 7 } crossView =
      ⟨[], some "flex: bad direction 7"⟩ := by
  refine ⟨by decide, by decide!, by decide!, by decide, by decide!, by decide!, by decide!⟩

/-! ## Rounding: error and stability -/

theorem roundEven_err (x : ℚ) : |(roundEven x : ℚ) - x| ≤ 1 / 2 := by
  have h1 := Int.floor_le x
  have h2 := Int.lt_floor_add_one x
  unfold roundEven
  split_ifs with a b c
  · rw [abs_le]; constructor <;> linarith
  · push_cast; rw [abs_le]; constructor <;> linarith
  · rw [abs_le]; constructor <;> linarith
  · push_cast; rw [abs_le]; constructor <;> linarith

theorem rndValue_err (q : ℚ) : |rndValue q - q| ≤ 2 ^ ulpExp q / 2 := by
  have hpos : (0 : ℚ) < 2 ^ ulpExp q := by positivity
  have h := roundEven_err (q / 2 ^ ulpExp q)
  have : rndValue q - q = ((roundEven (q / 2 ^ ulpExp q) : ℚ) - q / 2 ^ ulpExp q) * 2 ^ ulpExp q := by
    unfold rndValue; field_simp
  rw [this, abs_mul, abs_of_pos hpos]
  calc |(roundEven (q / 2 ^ ulpExp q) : ℚ) - q / 2 ^ ulpExp q| * 2 ^ ulpExp q
      ≤ 1 / 2 * 2 ^ ulpExp q := mul_le_mul_of_nonneg_right h hpos.le
    _ = 2 ^ ulpExp q / 2 := by ring

theorem rnd_eq_fin (q : ℚ) (h : |rndValue q| < 2 ^ (1024 : ℕ)) : F64.rnd q = F64.fin (rndValue q) := by
  unfold F64.rnd
  rw [if_neg (not_le.2 h)]

/-- Rounding a value below `2^k` moves it by at most `2^k / 2^54`. -/
theorem rnd_err (q : ℚ) (k : ℕ) (hk1 : 1 ≤ k) (hk : k ≤ 1000) (h : |q| < 2 ^ k) :
    ∃ r, F64.rnd q = F64.fin r ∧ |r - q| ≤ 2 ^ k / 2 ^ (54 : ℕ) := by
  have hu : ulpExp q ≤ (k : ℤ) - 53 := by
    have := ulpExp_le q k (by omega) (by exact_mod_cast h)
    omega
  have hpow : (2 : ℚ) ^ ulpExp q ≤ 2 ^ ((k : ℤ) - 53) := zpow_le_zpow_right₀ (by norm_num) hu
  have hk53 : (2 : ℚ) ^ ((k : ℤ) - 53) = 2 ^ k / 2 ^ (53 : ℕ) := by
    have h53 : (2 : ℚ) ^ (53 : ℤ) = 2 ^ (53 : ℕ) := by norm_num
    rw [zpow_sub₀ (by norm_num), zpow_natCast, h53]
  have herr := rndValue_err q
  have hb : |rndValue q - q| ≤ 2 ^ k / 2 ^ (54 : ℕ) := by
    calc |rndValue q - q| ≤ 2 ^ ulpExp q / 2 := herr
      _ ≤ (2 ^ k / 2 ^ (53 : ℕ)) / 2 := by rw [← hk53]; linarith
      _ = 2 ^ k / 2 ^ (54 : ℕ) := by rw [div_div]; norm_num
  refine ⟨rndValue q, rnd_eq_fin q ?_, hb⟩
  have h1 : |rndValue q| ≤ |q| + 2 ^ k / 2 ^ (54 : ℕ) := by
    have := abs_add (rndValue q - q) q
    simp only [sub_add_cancel] at this
    linarith
  have h2 : (2 : ℚ) ^ k / 2 ^ (54 : ℕ) ≤ 2 ^ k := by
    apply div_le_self (by positivity)
    exact one_le_pow₀ (by norm_num)
  have h3 : (2 : ℚ) ^ k + 2 ^ k ≤ 2 ^ (1024 : ℕ) := by
    have : (2 : ℚ) ^ k + 2 ^ k = 2 ^ (k + 1) := by ring
    rw [this]
    exact pow_le_pow_right₀ (by norm_num) (by omega)
  linarith

theorem roundEven_abs_le (x : ℚ) (m : ℕ) (h : |x| < 2 ^ m) : |roundEven x| ≤ 2 ^ m := by
  have h1 := roundEven_err x
  have h2 : |(roundEven x : ℚ)| < 2 ^ m + 1 := by
    have := abs_add ((roundEven x : ℚ) - x) x
    simp only [sub_add_cancel] at this
    linarith
  have h3 : ((|roundEven x| : ℤ) : ℚ) < ((2 ^ m + 1 : ℤ) : ℚ) := by
    push_cast; exact h2
  have h4 : |roundEven x| < 2 ^ m + 1 := by exact_mod_cast h3
  omega

/-- What `rnd` returns is a binary64 value: rounding it again changes nothing. -/
theorem rnd_idem (q r : ℚ) (h : F64.rnd q = F64.fin r) : F64.rnd r = F64.fin r := by
  have hfin : |rndValue q| < 2 ^ (1024 : ℕ) ∧ r = rndValue q := by
    unfold F64.rnd at h
    by_cases h1 : (2 : ℚ) ^ (1024 : ℕ) ≤ |rndValue q|
    · rw [if_pos h1] at h; split_ifs at h
    · rw [if_neg h1] at h; exact ⟨not_le.1 h1, (F64.fin.inj h).symm⟩
  obtain ⟨hlt, hr⟩ := hfin
  by_cases hr0 : r = 0
  · rw [hr0]; exact exact_zero.rnd
  have hq0 : q ≠ 0 := by
    intro hq; apply hr0; rw [hr, hq]; simp [rndValue, roundEven]
  set e := ulpExp q with he
  set n := roundEven (q / 2 ^ e) with hn
  have hrn : r = (n : ℚ) * 2 ^ e := hr
  have hepos : (0 : ℚ) < 2 ^ e := by positivity
  have hege : -1074 ≤ e := ulpExp_ge q
  -- the rounded quotient has at most 53 digits, or is 2^53
  have hqb : |q / 2 ^ e| < 2 ^ (53 : ℕ) := by
    rw [abs_div, abs_of_pos hepos, div_lt_iff₀ hepos]
    obtain ⟨_, b2⟩ := ilog2_bounds q hq0
    have hle : ilog2 q + 1 ≤ e + 53 := by
      have : ilog2 q - 52 ≤ e := le_max_left _ _
      omega
    calc |q| < 2 ^ (ilog2 q + 1) := b2
      _ ≤ 2 ^ (e + 53) := zpow_le_zpow_right₀ (by norm_num) hle
      _ = 2 ^ (53 : ℕ) * 2 ^ e := by
        rw [zpow_add₀ (by norm_num), mul_comm]; norm_num
  have hnb : |n| ≤ 2 ^ (53 : ℕ) := roundEven_abs_le _ 53 hqb
  have hrabs : |r| = |(n : ℚ)| * 2 ^ e := by
    rw [hrn, abs_mul, abs_of_pos hepos]
  have hrlt : |r| < 2 ^ (1024 : ℕ) := hr ▸ hlt
  have h53 : (2 : ℚ) ^ (e + 53) = 2 ^ (53 : ℕ) * 2 ^ e := by
    rw [zpow_add₀ (by norm_num), mul_comm]; norm_num
  obtain ⟨u, hu⟩ : ∃ u, u = ulpExp r := ⟨_, rfl⟩
  have hupos : (0 : ℚ) < 2 ^ u := by positivity
  by_cases hle : u ≤ e
  · obtain ⟨m, hm⟩ : ∃ m : ℕ, e - u = m := ⟨(e - u).toNat, by omega⟩
    apply rnd_of_scaled_int r (n * 2 ^ m) _ hrlt
    rw [← hu]
    have h2 : e = u + m := by omega
    have h3 : (2 : ℚ) ^ e = 2 ^ u * 2 ^ m := by
      rw [h2, zpow_add₀ (by norm_num), zpow_natCast]
    rw [hrn, h3]
    push_cast
    field_simp
    ring
  · apply rnd_of_scaled_int r (n / 2) _ hrlt
    rw [← hu]
    push_neg at hle
    obtain ⟨b1, _⟩ := ilog2_bounds r hr0
    have hu2 : u = ilog2 r - 52 := by
      rw [hu]
      unfold ulpExp
      rw [hu] at hle
      unfold ulpExp at hle
      rcases max_cases (ilog2 r - 52) (-1074) with ⟨h1, _⟩ | ⟨h1, _⟩
      · exact h1
      · rw [h1] at hle; omega
    have hlog : e + 53 ≤ ilog2 r := by omega
    have hnq : |(n : ℚ)| ≤ 2 ^ (53 : ℕ) := by
      have h1 : ((|n| : ℤ) : ℚ) ≤ (((2 : ℤ) ^ (53 : ℕ) : ℤ) : ℚ) := Int.cast_le.2 hnb
      rw [Int.cast_abs, Int.cast_pow, Int.cast_ofNat] at h1
      exact h1
    have hrle : |r| ≤ 2 ^ (e + 53) := by
      rw [hrabs, h53]
      exact mul_le_mul_of_nonneg_right hnq hepos.le
    have hrge : (2 : ℚ) ^ (e + 53) ≤ |r| :=
      (zpow_le_zpow_right₀ (by norm_num) hlog).trans b1
    have hlog2 : ilog2 r = e + 53 := by
      by_contra hne
      have hlt2 : e + 53 + 1 ≤ ilog2 r := by omega
      have : (2 : ℚ) ^ (e + 53 + 1) ≤ |r| := (zpow_le_zpow_right₀ (by norm_num) hlt2).trans b1
      have h2 : (2 : ℚ) ^ (e + 53 + 1) = 2 ^ (e + 53) * 2 := by
        rw [zpow_add₀ (by norm_num) (e + 53) 1, zpow_one]
      have h3 : (0 : ℚ) < 2 ^ (e + 53) := by positivity
      linarith
    have hnabs : |n| = 2 ^ (53 : ℕ) := by
      apply le_antisymm hnb
      have h1 : (2 : ℚ) ^ (53 : ℕ) * 2 ^ e ≤ |(n : ℚ)| * 2 ^ e := by
        rw [← hrabs, ← h53]; exact hrge
      have h2 := le_of_mul_le_mul_right h1 hepos
      have h3 : (((2 : ℤ) ^ (53 : ℕ) : ℤ) : ℚ) ≤ ((|n| : ℤ) : ℚ) := by
        rw [Int.cast_abs, Int.cast_pow, Int.cast_ofNat]; exact h2
      exact Int.cast_le.1 h3
    have hur : u = e + 1 := by omega
    have heven : n = 2 * (n / 2) := by
      rcases abs_cases n with ⟨h1, _⟩ | ⟨h1, _⟩ <;> omega
    have h4 : (2 : ℚ) ^ u = 2 ^ e * 2 := by
      rw [hur, zpow_add₀ (by norm_num), zpow_one]
    have h5 : (n : ℚ) = 2 * ((n / 2 : ℤ) : ℚ) := by exact_mod_cast heven
    rw [hrn, h4, h5]
    field_simp
    ring

theorem add_err (a b : ℚ) (k : ℕ) (hk1 : 1 ≤ k) (hk : k ≤ 1000) (h : |a + b| < 2 ^ k) :
    ∃ r, F64.add (F64.fin a) (F64.fin b) = F64.fin r ∧ |r - (a + b)| ≤ 2 ^ k / 2 ^ (54 : ℕ) ∧
      IsF64 r := by
  obtain ⟨r, h1, h2⟩ := rnd_err (a + b) k hk1 hk h
  exact ⟨r, h1, h2, rnd_idem _ _ h1⟩

theorem div_err (a b : ℚ) (hb : b ≠ 0) (k : ℕ) (hk1 : 1 ≤ k) (hk : k ≤ 1000)
    (h : |a / b| < 2 ^ k) :
    ∃ r, F64.div (F64.fin a) (F64.fin b) = F64.fin r ∧ |r - a / b| ≤ 2 ^ k / 2 ^ (54 : ℕ) ∧
      IsF64 r := by
  obtain ⟨r, h1, h2⟩ := rnd_err (a / b) k hk1 hk h
  refine ⟨r, ?_, h2, rnd_idem _ _ h1⟩
  simp only [F64.div, if_neg hb]
  exact h1

theorem pow34 : (2 : ℚ) ^ (34 : ℕ) / 2 ^ (54 : ℕ) = 1 / 2 ^ (20 : ℕ) := by norm_num

/-- The running offset under a spacing `σ'` that is within `1 / 2^21` of the
exact spacing `σ`: after `i` elements it is within `i / 2^18` more of the exact
offset than the first offset was. -/
theorem offsetAt_err (σ σ' : ℚ) (hσ : |σ' - σ| ≤ 1 / 2 ^ (21 : ℕ)) (hσb : |σ| ≤ 2 ^ (32 : ℕ))
    (ss : List Int) (hs : ∀ s ∈ ss, |s| ≤ 2 ^ (31 : ℕ)) (t x : ℚ) (i : ℕ) (hi : i ≤ ss.length)
    (hT : ∀ j ≤ i, |t + (j : ℚ) * σ + (((ss.take j).sum : ℤ) : ℚ)| ≤ 2 ^ (32 : ℕ))
    (hx : |x - t| + (i : ℚ) / 2 ^ (18 : ℕ) ≤ 1) (hrep : IsF64 x) :
    ∃ y, offsetAt (F64.fin σ') (F64.fin x) (ss.map (fun s => F64.ofInt s)) i = F64.fin y ∧
      |y - (t + (i : ℚ) * σ + (((ss.take i).sum : ℤ) : ℚ))| ≤ |x - t| + (i : ℚ) / 2 ^ (18 : ℕ) ∧
      IsF64 y := by
  induction ss generalizing t x i with
  | nil =>
    have : i = 0 := by simpa using hi
    subst this
    exact ⟨x, by simp [offsetAt], by simp, hrep⟩
  | cons s ss ih =>
    cases i with
    | zero => exact ⟨x, by simp [offsetAt], by simp, hrep⟩
    | succ i =>
      have hsb : |s| ≤ 2 ^ (31 : ℕ) := hs s (List.mem_cons_self _ _)
      have hsq : |(s : ℚ)| ≤ 2 ^ (31 : ℕ) := by
        have h1 : ((|s| : ℤ) : ℚ) ≤ (((2 : ℤ) ^ (31 : ℕ) : ℤ) : ℚ) := Int.cast_le.2 hsb
        rw [Int.cast_abs, Int.cast_pow, Int.cast_ofNat] at h1
        exact h1
      have hs52 : |s| < 2 ^ (52 : ℕ) := lt_of_le_of_lt hsb (by norm_num)
      have ht0 : |t| ≤ 2 ^ (32 : ℕ) := by
        have := hT 0 (Nat.zero_le _)
        simpa using this
      have hi0 : (0 : ℚ) ≤ ((i + 1 : ℕ) : ℚ) / 2 ^ (18 : ℕ) := by positivity
      have hxt : |x - t| ≤ 1 := by linarith
      have hxb : |x| ≤ 2 ^ (32 : ℕ) + 1 := by
        have := abs_add (x - t) t
        simp only [sub_add_cancel] at this
        linarith
      have hσ'b : |σ'| ≤ 2 ^ (32 : ℕ) + 1 := by
        have := abs_add (σ' - σ) σ
        simp only [sub_add_cancel] at this
        have h21 : (1 : ℚ) / 2 ^ (21 : ℕ) ≤ 1 := by norm_num
        linarith
      -- spacing plus size
      obtain ⟨a, ha, hae, _⟩ := add_err σ' (s : ℚ) 34 (by norm_num) (by norm_num) (by
        have := abs_add σ' (s : ℚ)
        have h3 : (2 : ℚ) ^ (32 : ℕ) + 1 + 2 ^ (31 : ℕ) < 2 ^ (34 : ℕ) := by norm_num
        linarith)
      rw [pow34] at hae
      have hab : |a| ≤ 2 ^ (32 : ℕ) + 1 + 2 ^ (31 : ℕ) + 1 := by
        have h1 := abs_add (a - (σ' + s)) (σ' + s)
        simp only [sub_add_cancel] at h1
        have h2 := abs_add σ' (s : ℚ)
        have h20 : (1 : ℚ) / 2 ^ (20 : ℕ) ≤ 1 := by norm_num
        linarith
      -- running offset plus that
      obtain ⟨x', hx', hx'e, hx'rep⟩ := add_err x a 34 (by norm_num) (by norm_num) (by
        have := abs_add x a
        have h3 : (2 : ℚ) ^ (32 : ℕ) + 1 + (2 ^ (32 : ℕ) + 1 + 2 ^ (31 : ℕ) + 1) < 2 ^ (34 : ℕ) := by
          norm_num
        linarith)
      rw [pow34] at hx'e
      have hstep : |x' - (t + σ + s)| ≤ |x - t| + 1 / 2 ^ (18 : ℕ) := by
        have e : x' - (t + σ + s) = (x' - (x + a)) + (a - (σ' + s)) + (σ' - σ) + (x - t) := by ring
        rw [e]
        have h1 := abs_add ((x' - (x + a)) + (a - (σ' + s)) + (σ' - σ)) (x - t)
        have h2 := abs_add ((x' - (x + a)) + (a - (σ' + s))) (σ' - σ)
        have h3 := abs_add (x' - (x + a)) (a - (σ' + s))
        have h4 : (1 : ℚ) / 2 ^ (20 : ℕ) + 1 / 2 ^ (20 : ℕ) + 1 / 2 ^ (21 : ℕ) ≤ 1 / 2 ^ (18 : ℕ) := by
          norm_num
        linarith
      have hcast : ((i + 1 : ℕ) : ℚ) / 2 ^ (18 : ℕ) = (i : ℚ) / 2 ^ (18 : ℕ) + 1 / 2 ^ (18 : ℕ) := by
        push_cast; ring
      have htarget : ∀ j : ℕ, t + σ + s + (j : ℚ) * σ + (((ss.take j).sum : ℤ) : ℚ) =
          t + ((j + 1 : ℕ) : ℚ) * σ + ((((s :: ss).take (j + 1)).sum : ℤ) : ℚ) := by
        intro j
        rw [List.take_succ_cons, List.sum_cons]
        push_cast
        ring
      obtain ⟨y, hy, hye, hyrep⟩ := ih (fun z hz => hs z (List.mem_cons_of_mem _ hz))
        (t + σ + s) x' i (by simpa using hi)
        (by
          intro j hj
          rw [htarget j]
          exact hT (j + 1) (by omega))
        (by rw [hcast] at hx; linarith) hx'rep
      refine ⟨y, ?_, ?_, hyrep⟩
      · simp only [List.map_cons, offsetAt, ofInt_exact s hs52, ha, hx']
        exact hy
      · rw [← htarget i, hcast]
        linarith

/-- The function `round` on a value within `2^33`: the floor of a number within
`1 / 2^20` of the value plus one half. -/
theorem round_err (x : ℚ) (hx : |x| ≤ 2 ^ (33 : ℕ)) :
    ∃ w, round (F64.fin x) = ⌊w⌋ ∧ |w - (x + 1 / 2)| ≤ 1 / 2 ^ (20 : ℕ) := by
  have hhalf : |(1 / 2 : ℚ)| = 1 / 2 := by norm_num
  obtain ⟨w, hw, hwe, _⟩ := add_err x (1 / 2) 34 (by norm_num) (by norm_num) (by
    have := abs_add x (1 / 2)
    have h3 : (2 : ℚ) ^ (33 : ℕ) + 1 / 2 < 2 ^ (34 : ℕ) := by norm_num
    linarith)
  rw [pow34] at hwe
  refine ⟨w, ?_, hwe⟩
  have hwb : |w| < 2 ^ (34 : ℕ) := by
    have h1 := abs_add (w - (x + 1 / 2)) (x + 1 / 2)
    simp only [sub_add_cancel] at h1
    have h2 := abs_add x (1 / 2)
    have h3 : (1 : ℚ) / 2 ^ (20 : ℕ) + (2 ^ (33 : ℕ) + 1 / 2) < 2 ^ (34 : ℕ) := by norm_num
    linarith
  simp only [round, hw, F64.floor, F64.toInt]
  have hfl : ⌊((⌊w⌋ : ℤ) : ℚ)⌋ = ⌊w⌋ := Int.floor_intCast _
  have hce : ⌈((⌊w⌋ : ℤ) : ℚ)⌉ = ⌊w⌋ := Int.ceil_intCast _
  simp only [hfl, hce, ite_self]
  rw [abs_lt] at hwb
  have hlo : -(2 : ℤ) ^ (63 : ℕ) ≤ ⌊w⌋ := by
    rw [Int.le_floor]
    push_cast
    have : (-(2 : ℚ) ^ (63 : ℕ)) ≤ -(2 ^ (34 : ℕ)) := by norm_num
    linarith [hwb.1]
  have hhi : ⌊w⌋ < (2 : ℤ) ^ (63 : ℕ) := by
    rw [Int.floor_lt]
    push_cast
    have : ((2 : ℚ) ^ (34 : ℕ)) ≤ (2 ^ (63 : ℕ)) := by norm_num
    linarith [hwb.2]
  rw [if_pos ⟨hlo, hhi⟩]

theorem floor_sub_floor_le (a b : ℚ) (h : |b - a| < 1) : |⌊b⌋ - ⌊a⌋| ≤ 1 := by
  rw [abs_lt] at h
  have h1 : ⌊b⌋ ≤ ⌊a⌋ + 1 := by
    have : ⌊b⌋ ≤ ⌊a + 1⌋ := Int.floor_le_floor (by linarith)
    rwa [Int.floor_add_one] at this
  have h2 : ⌊a⌋ ≤ ⌊b⌋ + 1 := by
    have : ⌊a⌋ ≤ ⌊b + 1⌋ := Int.floor_le_floor (by linarith)
    rwa [Int.floor_add_one] at this
  rw [abs_le]; constructor <;> omega

/-- The two main edges generated from a binary64 offset `x` and an integer
size `s`: they differ by `s` up to one unit, are not inverted when `s` is not
negative, and the far one is the floor of a number within `1 / 2^19` of
`x + s + 1/2`. -/
theorem edges_of_offset (x : ℚ) (hx : |x| ≤ 2 ^ (32 : ℕ) + 1) (hrep : IsF64 x) (s : ℤ)
    (hs : |s| ≤ 2 ^ (31 : ℕ)) :
    ∃ z, F64.add (F64.fin x) (F64.ofInt s) = F64.fin z ∧ |z - (x + s)| ≤ 1 / 2 ^ (20 : ℕ) ∧
      |round (F64.fin z) - round (F64.fin x) - s| ≤ 1 ∧
      (0 ≤ s → round (F64.fin x) ≤ round (F64.fin z)) ∧
      ∃ w, round (F64.fin z) = ⌊w⌋ ∧ |w - (x + s + 1 / 2)| ≤ 1 / 2 ^ (19 : ℕ) := by
  have hsq : |(s : ℚ)| ≤ 2 ^ (31 : ℕ) := by
    have h1 : ((|s| : ℤ) : ℚ) ≤ (((2 : ℤ) ^ (31 : ℕ) : ℤ) : ℚ) := Int.cast_le.2 hs
    rw [Int.cast_abs, Int.cast_pow, Int.cast_ofNat] at h1
    exact h1
  have hs52 : |s| < 2 ^ (52 : ℕ) := lt_of_le_of_lt hs (by norm_num)
  obtain ⟨z, hz, hze, _⟩ := add_err x (s : ℚ) 34 (by norm_num) (by norm_num) (by
    have := abs_add x (s : ℚ)
    have h3 : (2 : ℚ) ^ (32 : ℕ) + 1 + 2 ^ (31 : ℕ) < 2 ^ (34 : ℕ) := by norm_num
    linarith)
  rw [pow34] at hze
  have hzb : |z| ≤ 2 ^ (33 : ℕ) := by
    have h1 := abs_add (z - (x + s)) (x + s)
    simp only [sub_add_cancel] at h1
    have h2 := abs_add x (s : ℚ)
    have h3 : (1 : ℚ) / 2 ^ (20 : ℕ) + (2 ^ (32 : ℕ) + 1 + 2 ^ (31 : ℕ)) ≤ 2 ^ (33 : ℕ) := by
      norm_num
    linarith
  have hxb : |x| ≤ 2 ^ (33 : ℕ) := hx.trans (by norm_num)
  obtain ⟨w0, hw0, hw0e⟩ := round_err x hxb
  obtain ⟨w, hw, hwe⟩ := round_err z hzb
  have hwfar : |w - (x + s + 1 / 2)| ≤ 1 / 2 ^ (19 : ℕ) := by
    have e : w - (x + s + 1 / 2) = (w - (z + 1 / 2)) + (z - (x + s)) := by ring
    rw [e]
    have h1 := abs_add (w - (z + 1 / 2)) (z - (x + s))
    have h2 : (1 : ℚ) / 2 ^ (20 : ℕ) + 1 / 2 ^ (20 : ℕ) = 1 / 2 ^ (19 : ℕ) := by norm_num
    linarith
  have hdiff : |(w - (s : ℚ)) - w0| < 1 := by
    have e : (w - (s : ℚ)) - w0 = (w - (x + s + 1 / 2)) - (w0 - (x + 1 / 2)) := by ring
    rw [e]
    have h1 := abs_sub (w - (x + s + 1 / 2)) (w0 - (x + 1 / 2))
    have h2 : (1 : ℚ) / 2 ^ (19 : ℕ) + 1 / 2 ^ (20 : ℕ) < 1 := by norm_num
    linarith
  have hfl : ⌊w - (s : ℚ)⌋ = ⌊w⌋ - s := Int.floor_sub_int w s
  have hone : |round (F64.fin z) - round (F64.fin x) - s| ≤ 1 := by
    rw [hw, hw0]
    have := floor_sub_floor_le w0 (w - (s : ℚ)) hdiff
    rw [hfl] at this
    have e : ⌊w⌋ - ⌊w0⌋ - s = ⌊w⌋ - s - ⌊w0⌋ := by ring
    rw [e]; exact this
  refine ⟨z, by rw [ofInt_exact s hs52]; exact hz, hze, hone, ?_, w, hw, hwfar⟩
  intro hs0
  rcases eq_or_lt_of_le hs0 with h0 | hpos
  · -- size zero: the far edge is the near edge
    have hz0 : z = x := by
      have h1 : F64.add (F64.fin x) (F64.fin ((s : ℤ) : ℚ)) = F64.fin x := by
        rw [← h0]
        simp only [F64.add, Int.cast_zero, add_zero]
        exact hrep
      rw [hz] at h1
      exact F64.fin.inj h1
    rw [hz0]
  · rw [abs_le] at hone
    omega

/-! ## Main axis with spacing -/

theorem mem_abs_le_absSum (l : List Int) (s : Int) (h : s ∈ l) : |s| ≤ absSum l := by
  obtain ⟨i, hi, rfl⟩ := List.getElem_of_mem h
  exact abs_getElem_le_absSum l i _ (List.getElem?_eq_getElem hi)

theorem cast_abs_le (a b : ℤ) (h : |a| ≤ b) : |(a : ℚ)| ≤ (b : ℚ) := by
  have h1 : ((|a| : ℤ) : ℚ) ≤ (b : ℚ) := Int.cast_le.2 h
  rwa [Int.cast_abs] at h1

theorem mainOffsetAt_eq (f : Flex) (v : View) (i : Nat) :
    mainOffsetAt f v i =
      offsetAt (justifyStart f (remFreeOf f v) v.subViews.length).2
        (justifyStart f (remFreeOf f v) v.subViews.length).1
        ((mainExtents f v).map (fun s => F64.ofInt s)) i := by
  simp only [mainOffsetAt, mainExtents, List.map_map]
  rfl

theorem abs_frac_mul_le (j d : ℕ) (hjd : j ≤ d) (r : ℚ) : |(j : ℚ) * (r / (d : ℚ))| ≤ |r| := by
  rcases Nat.eq_zero_or_pos d with h0 | hpos
  · subst h0; simp
  · have hd : (0 : ℚ) < (d : ℚ) := by exact_mod_cast hpos
    rw [abs_mul, abs_div, abs_of_nonneg (by positivity : (0 : ℚ) ≤ (j : ℚ)), abs_of_pos hd]
    have hj : (j : ℚ) ≤ (d : ℚ) := by exact_mod_cast hjd
    rw [mul_div_assoc', div_le_iff₀ hd]
    nlinarith [abs_nonneg r]

/-- Common bounds of a line within `2^31`. -/
theorem line_bounds (f : Flex) (v : View)
    (hb : |mainOf f v.rect.Size| + absSum (mainExtents f v) ≤ 2 ^ (31 : ℕ)) :
    |(remainingFree f v : ℚ)| ≤ 2 ^ (31 : ℕ) ∧
    (∀ s ∈ mainExtents f v, |s| ≤ 2 ^ (31 : ℕ)) ∧
    (∀ j, |(remainingFree f v : ℚ)| + |(mainBefore f v j : ℚ)| ≤ 2 ^ (32 : ℕ)) ∧
    remFreeOf f v = F64.fin (remainingFree f v : ℚ) := by
  have hn := absSum_nonneg (mainExtents f v)
  have hR := abs_remainingFree_le f v
  have h31 : ((2 : ℤ) ^ (31 : ℕ) : ℤ) = (2 : ℤ) ^ (31 : ℕ) := rfl
  have c31 : (((2 : ℤ) ^ (31 : ℕ) : ℤ) : ℚ) = 2 ^ (31 : ℕ) := by norm_num
  refine ⟨?_, ?_, ?_, ?_⟩
  · rw [← c31]; exact cast_abs_le _ _ (hR.trans hb)
  · intro s hs
    have := mem_abs_le_absSum _ s hs
    linarith [abs_nonneg (mainOf f v.rect.Size)]
  · intro j
    have h1 : |mainBefore f v j| ≤ absSum (mainExtents f v) :=
      (abs_sum_le_absSum ((mainExtents f v).take j)).trans (absSum_take_le _ j)
    have h2 : |remainingFree f v| + |mainBefore f v j| ≤ 2 ^ (32 : ℕ) := by
      have : (2 : ℤ) ^ (31 : ℕ) + 2 ^ (31 : ℕ) = 2 ^ (32 : ℕ) := by norm_num
      linarith [abs_nonneg (mainOf f v.rect.Size)]
    have h3 : ((|remainingFree f v| + |mainBefore f v j| : ℤ) : ℚ) ≤
        (((2 : ℤ) ^ (32 : ℕ) : ℤ) : ℚ) := Int.cast_le.2 h2
    push_cast at h3
    have c32 : (4294967296 : ℚ) = 2 ^ (32 : ℕ) := by norm_num
    rw [← c32]
    exact h3
  · apply remFreeOf_exact
    exact hb.trans (by norm_num)

theorem abs_le_of_err (y t e b : ℚ) (h : |y - t| ≤ e) (ht : |t| ≤ b) : |y| ≤ b + e := by
  have := abs_add (y - t) t
  simp only [sub_add_cancel] at this
  linarith

theorem pow32 : (2 : ℚ) ^ (32 : ℕ) / 2 ^ (54 : ℕ) = 1 / 2 ^ (22 : ℕ) := by norm_num

/-- The offsets under `JustifySpaceBetween`, for at least two and at most
`2^16` sub views within `2^31`: sub view `i` is offset by a binary64 value
within `i / 2^18` of the exact offset. -/
theorem between_offset_err (f : Flex) (v : View) (hj : f.Justify = JustifySpaceBetween)
    (hn2 : 2 ≤ v.subViews.length) (hn : v.subViews.length ≤ 2 ^ (16 : ℕ))
    (hb : |mainOf f v.rect.Size| + absSum (mainExtents f v) ≤ 2 ^ (31 : ℕ))
    (i : Nat) (hi : i < v.subViews.length) :
    ∃ y, mainOffsetAt f v i = F64.fin y ∧ IsF64 y ∧
      |y - betweenOffset f v i| ≤ (i : ℚ) / 2 ^ (18 : ℕ) ∧ |y| ≤ 2 ^ (32 : ℕ) + 1 := by
  obtain ⟨hR, hs, hRB, hrem⟩ := line_bounds f v hb
  set n := v.subViews.length with hn_def
  set R := remainingFree f v with hR_def
  have hnq : ((n : ℤ) - 1 : ℤ) = ((n - 1 : ℕ) : ℤ) := by omega
  have hd52 : |(n : ℤ) - 1| < 2 ^ (52 : ℕ) := by
    rw [hnq, Nat.abs_cast]
    have : n - 1 < 2 ^ (16 : ℕ) := by omega
    have h2 : ((n - 1 : ℕ) : ℤ) < ((2 ^ (16 : ℕ) : ℕ) : ℤ) := by exact_mod_cast this
    have h3 : (((2 : ℕ) ^ (16 : ℕ) : ℕ) : ℤ) < 2 ^ (52 : ℕ) := by norm_num
    exact lt_trans h2 h3
  have hdne : (((n : ℤ) - 1 : ℤ) : ℚ) ≠ 0 := by
    rw [hnq]
    have : n - 1 ≠ 0 := by omega
    exact_mod_cast this
  have hdq : (((n : ℤ) - 1 : ℤ) : ℚ) = ((n - 1 : ℕ) : ℚ) := by rw [hnq]; simp
  have hσb : |(R : ℚ) / ((n - 1 : ℕ) : ℚ)| ≤ |(R : ℚ)| := by
    have := abs_frac_mul_le 1 (n - 1) (by omega) (R : ℚ)
    simpa using this
  obtain ⟨σ', hσ', hσ'e, _⟩ := div_err (R : ℚ) (((n : ℤ) - 1 : ℤ) : ℚ) hdne 32 (by norm_num)
    (by norm_num) (by
      rw [hdq]
      have : (2 : ℚ) ^ (31 : ℕ) < 2 ^ (32 : ℕ) := by norm_num
      linarith)
  rw [pow32, hdq] at hσ'e
  have hjs : justifyStart f (remFreeOf f v) n = (F64.fin 0, F64.fin σ') := by
    have h1 : ¬ JustifySpaceBetween = JustifyStart := by decide
    have h2 : ¬ JustifySpaceBetween = JustifyEnd := by decide
    have h3 : ¬ JustifySpaceBetween = JustifyCenter := by decide
    simp only [justifyStart, hj, h1, h2, h3, if_false, if_true, hrem, ofInt_exact _ hd52, hσ']
  have hlen : (mainExtents f v).length = n := by simp [mainExtents]
  obtain ⟨y, hy, hye, hyrep⟩ := offsetAt_err ((R : ℚ) / ((n - 1 : ℕ) : ℚ)) σ'
    (hσ'e.trans (by norm_num)) (hσb.trans (hR.trans (by norm_num))) (mainExtents f v) hs 0 0 i
    (by omega)
    (by
      intro j hj
      have h1 := abs_frac_mul_le j (n - 1) (by omega) (R : ℚ)
      have h2 := hRB j
      have h3 := abs_add ((j : ℚ) * ((R : ℚ) / ((n - 1 : ℕ) : ℚ))) (mainBefore f v j : ℚ)
      simp only [zero_add]
      unfold mainBefore at h2 h3
      linarith)
    (by
      simp only [sub_self, abs_zero, zero_add]
      rw [div_le_one (by positivity)]
      have : (i : ℚ) ≤ ((2 ^ (16 : ℕ) : ℕ) : ℚ) := by exact_mod_cast (by omega : i ≤ 2 ^ (16 : ℕ))
      have h2 : (((2 : ℕ) ^ (16 : ℕ) : ℕ) : ℚ) ≤ 2 ^ (18 : ℕ) := by norm_num
      linarith)
    exact_zero.rnd
  simp only [sub_self, abs_zero, zero_add] at hye
  have htarget : betweenOffset f v i =
      (i : ℚ) * ((R : ℚ) / ((n - 1 : ℕ) : ℚ)) + (((List.take i (mainExtents f v)).sum : ℤ) : ℚ) := by
    unfold betweenOffset mainBefore
    have : ((n - 1 : ℕ) : ℚ) = (n : ℚ) - 1 := by
      rw [Nat.cast_sub (by omega)]; simp
    rw [this]
  refine ⟨y, ?_, hyrep, ?_, ?_⟩
  · rw [mainOffsetAt_eq, hjs]; exact hy
  · rw [htarget]; exact hye
  · have hT : |(i : ℚ) * ((R : ℚ) / ((n - 1 : ℕ) : ℚ)) +
        (((List.take i (mainExtents f v)).sum : ℤ) : ℚ)| ≤ 2 ^ (32 : ℕ) := by
      have h1 := abs_frac_mul_le i (n - 1) (by omega) (R : ℚ)
      have h2 := hRB i
      have h3 := abs_add ((i : ℚ) * ((R : ℚ) / ((n - 1 : ℕ) : ℚ))) (mainBefore f v i : ℚ)
      unfold mainBefore at h2 h3
      linarith
    have h4 := abs_le_of_err _ _ _ _ hye hT
    have h5 : (i : ℚ) / 2 ^ (18 : ℕ) ≤ 1 := by
      rw [div_le_one (by positivity)]
      have : (i : ℚ) ≤ ((2 ^ (16 : ℕ) : ℕ) : ℚ) := by exact_mod_cast (by omega : i ≤ 2 ^ (16 : ℕ))
      have h2 : (((2 : ℕ) ^ (16 : ℕ) : ℕ) : ℚ) ≤ 2 ^ (18 : ℕ) := by norm_num
      linarith
    linarith

/-- The offsets under `JustifySpaceAround`, for at least one and at most `2^16`
sub views within `2^31`: sub view `i` is offset by a binary64 value within
`(i + 1) / 2^18` of the exact offset. -/
theorem around_offset_err (f : Flex) (v : View) (hj : f.Justify = JustifySpaceAround)
    (hn : v.subViews.length ≤ 2 ^ (16 : ℕ))
    (hb : |mainOf f v.rect.Size| + absSum (mainExtents f v) ≤ 2 ^ (31 : ℕ))
    (i : Nat) (hi : i < v.subViews.length) :
    ∃ y, mainOffsetAt f v i = F64.fin y ∧ IsF64 y ∧
      |y - aroundOffset f v i| ≤ ((i : ℚ) + 1) / 2 ^ (18 : ℕ) ∧ |y| ≤ 2 ^ (32 : ℕ) + 1 := by
  obtain ⟨hR, hs, hRB, hrem⟩ := line_bounds f v hb
  set n := v.subViews.length with hn_def
  set R := remainingFree f v with hR_def
  have hn0 : 0 < n := by omega
  have hnpos : (0 : ℚ) < (n : ℚ) := by exact_mod_cast hn0
  have hd52 : |(n : ℤ)| < 2 ^ (52 : ℕ) := by
    rw [Nat.abs_cast]
    have h2 : ((n : ℕ) : ℤ) ≤ ((2 ^ (16 : ℕ) : ℕ) : ℤ) := by exact_mod_cast hn
    have h3 : (((2 : ℕ) ^ (16 : ℕ) : ℕ) : ℤ) < 2 ^ (52 : ℕ) := by norm_num
    exact lt_of_le_of_lt h2 h3
  have hdne : (((n : ℤ) : ℤ) : ℚ) ≠ 0 := by
    have : n ≠ 0 := by omega
    exact_mod_cast this
  have hdq : (((n : ℤ) : ℤ) : ℚ) = (n : ℚ) := by simp
  have hσb : |(R : ℚ) / (n : ℚ)| ≤ |(R : ℚ)| := by
    have := abs_frac_mul_le 1 n (by omega) (R : ℚ)
    simpa using this
  obtain ⟨σ', hσ', hσ'e, _⟩ := div_err (R : ℚ) (((n : ℤ) : ℤ) : ℚ) hdne 32 (by norm_num)
    (by norm_num) (by
      rw [hdq]
      have : (2 : ℚ) ^ (31 : ℕ) < 2 ^ (32 : ℕ) := by norm_num
      linarith)
  rw [pow32, hdq] at hσ'e
  have hσ'b : |σ'| ≤ 2 ^ (31 : ℕ) + 1 := by
    have := abs_le_of_err _ _ _ _ hσ'e (hσb.trans hR)
    have h22 : (1 : ℚ) / 2 ^ (22 : ℕ) ≤ 1 := by norm_num
    linarith
  have h2abs : |(2 : ℚ)| = 2 := by norm_num
  obtain ⟨x0, hx0, hx0e, hx0rep⟩ := div_err σ' 2 (by norm_num) 32 (by norm_num) (by norm_num) (by
    rw [abs_div, h2abs]
    have : ((2 : ℚ) ^ (31 : ℕ) + 1) / 2 < 2 ^ (32 : ℕ) := by norm_num
    have h3 : |σ'| / 2 ≤ ((2 : ℚ) ^ (31 : ℕ) + 1) / 2 := by linarith
    linarith)
  rw [pow32] at hx0e
  have hx0t : |x0 - (R : ℚ) / (n : ℚ) / 2| ≤ 1 / 2 ^ (21 : ℕ) := by
    have e : x0 - (R : ℚ) / (n : ℚ) / 2 = (x0 - σ' / 2) + (σ' - (R : ℚ) / (n : ℚ)) / 2 := by ring
    rw [e]
    have h1 := abs_add (x0 - σ' / 2) ((σ' - (R : ℚ) / (n : ℚ)) / 2)
    have h2 : |(σ' - (R : ℚ) / (n : ℚ)) / 2| ≤ 1 / 2 ^ (22 : ℕ) := by
      rw [abs_div, h2abs]
      linarith [abs_nonneg (σ' - (R : ℚ) / (n : ℚ))]
    have h3 : (1 : ℚ) / 2 ^ (22 : ℕ) + 1 / 2 ^ (22 : ℕ) = 1 / 2 ^ (21 : ℕ) := by norm_num
    linarith
  have hjs : justifyStart f (remFreeOf f v) n = (F64.fin x0, F64.fin σ') := by
    have h1 : ¬ JustifySpaceAround = JustifyStart := by decide
    have h2 : ¬ JustifySpaceAround = JustifyEnd := by decide
    have h3 : ¬ JustifySpaceAround = JustifyCenter := by decide
    have h4 : ¬ JustifySpaceAround = JustifySpaceBetween := by decide
    simp only [justifyStart, hj, h1, h2, h3, h4, if_false, if_true, hrem, ofInt_exact _ hd52, hσ',
      hx0]
  have hlen : (mainExtents f v).length = n := by simp [mainExtents]
  have hi16 : (i : ℚ) / 2 ^ (18 : ℕ) ≤ 1 / 4 := by
    rw [div_le_iff₀ (by positivity)]
    norm_num
    omega
  have hfrac : ∀ j : ℕ, j < n → |(R : ℚ) / (n : ℚ) / 2 + (j : ℚ) * ((R : ℚ) / (n : ℚ))| ≤
      |(R : ℚ)| := by
    intro j hjn
    have e : (R : ℚ) / (n : ℚ) / 2 + (j : ℚ) * ((R : ℚ) / (n : ℚ)) =
        ((2 * j + 1 : ℕ) : ℚ) * ((R : ℚ) / ((2 * n : ℕ) : ℚ)) := by
      push_cast; field_simp; ring
    rw [e]
    exact abs_frac_mul_le (2 * j + 1) (2 * n) (by omega) (R : ℚ)
  have hTj : ∀ j : ℕ, j < n → |(R : ℚ) / (n : ℚ) / 2 + (j : ℚ) * ((R : ℚ) / (n : ℚ)) +
      (((List.take j (mainExtents f v)).sum : ℤ) : ℚ)| ≤ 2 ^ (32 : ℕ) := by
    intro j hjn
    have h1 := hfrac j hjn
    have h2 := hRB j
    have h3 := abs_add ((R : ℚ) / (n : ℚ) / 2 + (j : ℚ) * ((R : ℚ) / (n : ℚ)))
      (mainBefore f v j : ℚ)
    unfold mainBefore at h2 h3
    linarith
  obtain ⟨y, hy, hye, hyrep⟩ := offsetAt_err ((R : ℚ) / (n : ℚ)) σ'
    (hσ'e.trans (by norm_num)) (hσb.trans (hR.trans (by norm_num))) (mainExtents f v) hs
    ((R : ℚ) / (n : ℚ) / 2) x0 i (by omega)
    (fun j hj => hTj j (by omega))
    (by
      have h21 : (1 : ℚ) / 2 ^ (21 : ℕ) + 1 / 4 ≤ 1 := by norm_num
      linarith)
    hx0rep
  have hbound : |y - aroundOffset f v i| ≤ ((i : ℚ) + 1) / 2 ^ (18 : ℕ) := by
    have e : aroundOffset f v i = (R : ℚ) / (n : ℚ) / 2 + (i : ℚ) * ((R : ℚ) / (n : ℚ)) +
        (((List.take i (mainExtents f v)).sum : ℤ) : ℚ) := rfl
    rw [e]
    have h1 : (1 : ℚ) / 2 ^ (21 : ℕ) ≤ 1 / 2 ^ (18 : ℕ) := by norm_num
    have h2 : ((i : ℚ) + 1) / 2 ^ (18 : ℕ) = (i : ℚ) / 2 ^ (18 : ℕ) + 1 / 2 ^ (18 : ℕ) := by ring
    linarith
  refine ⟨y, ?_, hyrep, hbound, ?_⟩
  · rw [mainOffsetAt_eq, hjs]; exact hy
  · have h4 := abs_le_of_err _ _ _ _ hye (hTj i hi)
    have h21 : (1 : ℚ) / 2 ^ (21 : ℕ) + 1 / 4 ≤ 1 := by norm_num
    linarith

theorem offsetAt_succ (sp off : F64) (ss : List F64) (i : Nat) (s : F64) (h : ss[i]? = some s) :
    offsetAt sp off ss (i + 1) = F64.add (offsetAt sp off ss i) (F64.add sp s) := by
  induction ss generalizing off i with
  | nil => simp at h
  | cons a ss ih =>
    cases i with
    | zero =>
      simp at h; subst h
      cases ss <;> simp [offsetAt]
    | succ i =>
      simp at h
      simp only [offsetAt]
      exact ih _ i h

/-- Each main offset is the one before it plus the spacing and the main size
of the element before it (line 199). -/
theorem mainOffsetAt_succ (f : Flex) (v : View) (i : Nat) (c : Rectangle)
    (hc : v.subViews[i]? = some c) :
    mainOffsetAt f v (i + 1) = F64.add (mainOffsetAt f v i)
      (F64.add (justifyStart f (remFreeOf f v) v.subViews.length).2
        (F64.ofInt (mainOf f c.Size))) := by
  unfold mainOffsetAt
  apply offsetAt_succ
  simp [hc]

theorem mainOffsetAt_zero (f : Flex) (v : View) :
    mainOffsetAt f v 0 = (justifyStart f (remFreeOf f v) v.subViews.length).1 := by
  unfold mainOffsetAt
  cases v.subViews <;> simp [offsetAt]

/-- The main offset of every element `resolve` returns. -/
theorem resolve_mainOffset (f : Flex) (v : View) (hd : f.Direction = Row ∨ f.Direction = Column)
    (hw : f.Wrap = NoWrap) (els : List element) (h : resolve f v = .ok els) (k : Nat)
    (e : element) (he : els[k]? = some e) : e.mainOffset = mainOffsetAt f v k := by
  rw [resolve_ok f v hd hw] at h
  have hels := (Except.ok.inj h).symm
  subst hels
  simp only [justifyLine, List.getElem?_map, place_getElem?, List.map_map, List.length_map] at he
  cases hv : v.subViews[k]? with
  | none => simp [hv] at he
  | some c =>
    simp only [hv, Option.map_some', Option.some.injEq] at he
    rw [← he, (alignChild_fields _ _ _).1]
    rfl

theorem floor_eq_of_near_half (w : ℚ) (m : ℤ) (h : |w - ((m : ℚ) + 1 / 2)| < 1 / 2) : ⌊w⌋ = m := by
  rw [abs_lt] at h
  rw [Int.floor_eq_iff]
  constructor <;> linarith [h.1, h.2]

theorem index_div_le (i n : ℕ) (hi : i < n) (hn : n ≤ 2 ^ (16 : ℕ)) :
    (i : ℚ) / 2 ^ (18 : ℕ) ≤ 1 / 4 := by
  rw [div_le_iff₀ (by positivity)]
  norm_num
  omega

/-- C5 (amended): in a `Row` or `Column` container with `Wrap = NoWrap`,
`Justify = JustifySpaceBetween` and between 2 and `2^16` sub views whose main
extents and the main extent of the container add up, in absolute value, to at
most `2^31`: the first sub view is offset by `0`; each later one is offset by
the `float64` sum of the offset of the one before it and of the `float64` sum
of the spacing `remFree / float64(count - 1)` and the main size of that one;
the offset of sub view `i` is within `i / 2^18` of
`i * remainingFree / (count - 1)` plus the main extents in front of it; and
the far main edge of the rectangle of the last sub view is the main extent of
the container. -/
theorem space_between_offsets (f : Flex) (v : View)
    (hd : f.Direction = Row ∨ f.Direction = Column) (hw : f.Wrap = NoWrap)
    (hj : f.Justify = JustifySpaceBetween)
    (hn2 : 2 ≤ v.subViews.length) (hn : v.subViews.length ≤ 2 ^ (16 : ℕ))
    (hb : |mainOf f v.rect.Size| + absSum (mainExtents f v) ≤ 2 ^ (31 : ℕ))
    (i : Nat) (c : Rectangle) (hc : v.subViews[i]? = some c) :
    ∃ els e r y, resolve f v = .ok els ∧ els[i]? = some e ∧
      (OnLayout f v).rects[i]? = some r ∧
      e.mainOffset = F64.fin y ∧ |y - betweenOffset f v i| ≤ (i : ℚ) / 2 ^ (18 : ℕ) ∧
      (i = 0 → y = 0) ∧
      (∀ e', els[i + 1]? = some e' → e'.mainOffset = F64.add e.mainOffset
        (F64.add (F64.div (remFreeOf f v) (F64.ofInt ((v.subViews.length : Int) - 1)))
          e.mainSize)) ∧
      (i + 1 = v.subViews.length → mainOf f r.Max = mainOf f v.rect.Size) := by
  have hi : i < v.subViews.length := by
    rcases Nat.lt_or_ge i v.subViews.length with h | h
    · exact h
    · rw [List.getElem?_eq_none h] at hc; cases hc
  obtain ⟨els, e, h1, h2, h3, h4, _, _, _, h8⟩ := resolved_at f v hd hw i c hc
  obtain ⟨y, hy, hyrep, hye, hyb⟩ := between_offset_err f v hj hn2 hn hb i hi
  obtain ⟨_, hs, _, _⟩ := line_bounds f v hb
  have hsc : |mainOf f c.Size| ≤ 2 ^ (31 : ℕ) :=
    hs _ (by
      have : (mainExtents f v)[i]? = some (mainOf f c.Size) := by simp [mainExtents, hc]
      exact List.getElem?_mem this)
  have hsp : (justifyStart f (remFreeOf f v) v.subViews.length).2 =
      F64.div (remFreeOf f v) (F64.ofInt ((v.subViews.length : Int) - 1)) := by
    have a1 : ¬ JustifySpaceBetween = JustifyStart := by decide
    have a2 : ¬ JustifySpaceBetween = JustifyEnd := by decide
    have a3 : ¬ JustifySpaceBetween = JustifyCenter := by decide
    simp only [justifyStart, hj, a1, a2, a3, if_false, if_true]
  have hst : (justifyStart f (remFreeOf f v) v.subViews.length).1 = F64.fin 0 := by
    have a1 : ¬ JustifySpaceBetween = JustifyStart := by decide
    have a2 : ¬ JustifySpaceBetween = JustifyEnd := by decide
    have a3 : ¬ JustifySpaceBetween = JustifyCenter := by decide
    simp only [justifyStart, hj, a1, a2, a3, if_false, if_true]
  refine ⟨els, e, rectOf f e, y, h1, h2, h8, by rw [h3, hy], hye, ?_, ?_, ?_⟩
  · intro h0
    subst h0
    rw [mainOffsetAt_zero, hst] at hy
    exact (F64.fin.inj hy).symm
  · intro e' he'
    rw [resolve_mainOffset f v hd hw els h1 (i + 1) e' he', mainOffsetAt_succ f v i c hc, hsp, h3,
      h4]
  · intro hlast
    obtain ⟨z, hz, _, _, _, w, hw', hwe⟩ := edges_of_offset y hyb hyrep (mainOf f c.Size) hsc
    rw [(rectOf_edges f e).2.1, h3, hy, h4, hz, hw']
    apply floor_eq_of_near_half
    -- the exact offset of the last sub view plus its extent is the extent of the container
    have hsum : betweenOffset f v i + (mainOf f c.Size : ℚ) = (mainOf f v.rect.Size : ℚ) := by
      have hb1 := mainBefore_succ f v i c hc
      rw [hlast, mainBefore_length] at hb1
      have hR : (remainingFree f v : ℚ) =
          (mainOf f v.rect.Size : ℚ) - ((mainExtents f v).sum : ℚ) := by
        unfold remainingFree; push_cast; ring
      have hbq : ((mainExtents f v).sum : ℚ) = (mainBefore f v i : ℚ) + (mainOf f c.Size : ℚ) := by
        exact_mod_cast hb1
      have hiq : (i : ℚ) = (v.subViews.length : ℚ) - 1 := by
        rw [← hlast]; push_cast; ring
      have hne : (v.subViews.length : ℚ) - 1 ≠ 0 := by
        rw [← hiq]
        have : i ≠ 0 := by omega
        exact_mod_cast this
      unfold betweenOffset
      rw [hiq, mul_div_cancel₀ _ hne, hR, hbq]
      ring
    have e1 : w - ((mainOf f v.rect.Size : ℚ) + 1 / 2) =
        (w - (y + (mainOf f c.Size : ℚ) + 1 / 2)) + (y - betweenOffset f v i) := by
      rw [← hsum]; ring
    rw [e1]
    have h5 := abs_add (w - (y + (mainOf f c.Size : ℚ) + 1 / 2)) (y - betweenOffset f v i)
    have h6 := index_div_le i _ hi hn
    have h7 : (1 : ℚ) / 2 ^ (19 : ℕ) + 1 / 4 < 1 / 2 := by norm_num
    linarith

/-- C5, an instance: four sub views 1 wide in a container 8 wide; the fourth
one is the last. -/
theorem space_between_offsets_witness :
    ∃ els e r y, resolve betweenFlex betweenView = .ok els ∧ els[3]? = some e ∧
      (OnLayout betweenFlex betweenView).rects[3]? = some r ∧
      e.mainOffset = F64.fin y ∧
      |y - betweenOffset betweenFlex betweenView 3| ≤ ((3 : ℕ) : ℚ) / 2 ^ (18 : ℕ) ∧
      (3 = 0 → y = 0) ∧
      (∀ e', els[3 + 1]? = some e' → e'.mainOffset = F64.add e.mainOffset
        (F64.add (F64.div (remFreeOf betweenFlex betweenView)
          (F64.ofInt ((betweenView.subViews.length : Int) - 1))) e.mainSize)) ∧
      (3 + 1 = betweenView.subViews.length →
        mainOf betweenFlex r.Max = mainOf betweenFlex betweenView.rect.Size) :=
  space_between_offsets betweenFlex betweenView (by decide) (by decide) (by decide) (by decide)
    (by decide) (by decide) 3 (rectWH 1 20) (by decide)

/-- C5 as stated fails for four sub views 1 wide in a container 8 wide: the
spacing is the `float64` nearest to `4/3`, not `4/3`; the main extents plus
three spacings stay below 8; and the last sub view is offset by
`7881299347898367 / 2^50`, so its unrounded far edge stays below 8 as well. -/
theorem space_between_counterexample :
    F64.div (remFreeOf betweenFlex betweenView)
        (F64.ofInt ((betweenView.subViews.length : Int) - 1)) =
      F64.fin (6004799503160661 / 4503599627370496) ∧
    ((mainExtents betweenFlex betweenView).sum : ℚ) +
        3 * (6004799503160661 / 4503599627370496) < 8 ∧
    mainOffsets betweenFlex betweenView =
      some [F64.fin 0, F64.fin (2627099782632789 / 1125899906842624),
        F64.fin (2627099782632789 / 562949953421312),
        F64.fin (7881299347898367 / 1125899906842624)] ∧
    (7881299347898367 / 1125899906842624 : ℚ) + 1 < 8 := by
  refine ⟨?_, ?_, ?_, ?_⟩
  · decide!
  · decide!
  · decide!
  · norm_num

/-- C7 (amended): in a `Row` or `Column` container with `Wrap = NoWrap`,
`Justify = JustifySpaceAround` and between 1 and `2^16` sub views whose main
extents and the main extent of the container add up, in absolute value, to at
most `2^31`: the first sub view is offset by the `float64` half of the spacing
`remFree / float64(count)`; each later one is offset by the `float64` sum of
the offset of the one before it and of the `float64` sum of the spacing and the
main size of that one; the offset of sub view `i` is within `(i + 1) / 2^18` of
`remainingFree / count / 2 + i * remainingFree / count` plus the main extents
in front of it; and the gap between the unrounded far edge of the last sub view
and the main extent of the container is within `(count + 1) / 2^18` of the
exact leading gap `remainingFree / count / 2`. -/
theorem space_around_offsets (f : Flex) (v : View)
    (hd : f.Direction = Row ∨ f.Direction = Column) (hw : f.Wrap = NoWrap)
    (hj : f.Justify = JustifySpaceAround) (hn : v.subViews.length ≤ 2 ^ (16 : ℕ))
    (hb : |mainOf f v.rect.Size| + absSum (mainExtents f v) ≤ 2 ^ (31 : ℕ))
    (i : Nat) (c : Rectangle) (hc : v.subViews[i]? = some c) :
    ∃ els e r y, resolve f v = .ok els ∧ els[i]? = some e ∧
      (OnLayout f v).rects[i]? = some r ∧
      e.mainOffset = F64.fin y ∧ |y - aroundOffset f v i| ≤ ((i : ℚ) + 1) / 2 ^ (18 : ℕ) ∧
      (i = 0 → e.mainOffset = F64.div
        (F64.div (remFreeOf f v) (F64.ofInt (v.subViews.length : Int))) (F64.fin 2)) ∧
      (∀ e', els[i + 1]? = some e' → e'.mainOffset = F64.add e.mainOffset
        (F64.add (F64.div (remFreeOf f v) (F64.ofInt (v.subViews.length : Int))) e.mainSize)) ∧
      (i + 1 = v.subViews.length → ∃ z, F64.add e.mainOffset e.mainSize = F64.fin z ∧
        |((mainOf f v.rect.Size : ℚ) - z) -
            (remainingFree f v : ℚ) / (v.subViews.length : ℚ) / 2| ≤
          ((i : ℚ) + 2) / 2 ^ (18 : ℕ)) := by
  have hi : i < v.subViews.length := by
    rcases Nat.lt_or_ge i v.subViews.length with h | h
    · exact h
    · rw [List.getElem?_eq_none h] at hc; cases hc
  obtain ⟨els, e, h1, h2, h3, h4, _, _, _, h8⟩ := resolved_at f v hd hw i c hc
  obtain ⟨y, hy, hyrep, hye, hyb⟩ := around_offset_err f v hj hn hb i hi
  obtain ⟨_, hs, _, _⟩ := line_bounds f v hb
  have hsc : |mainOf f c.Size| ≤ 2 ^ (31 : ℕ) :=
    hs _ (by
      have : (mainExtents f v)[i]? = some (mainOf f c.Size) := by simp [mainExtents, hc]
      exact List.getElem?_mem this)
  have a1 : ¬ JustifySpaceAround = JustifyStart := by decide
  have a2 : ¬ JustifySpaceAround = JustifyEnd := by decide
  have a3 : ¬ JustifySpaceAround = JustifyCenter := by decide
  have a4 : ¬ JustifySpaceAround = JustifySpaceBetween := by decide
  have hsp : (justifyStart f (remFreeOf f v) v.subViews.length).2 =
      F64.div (remFreeOf f v) (F64.ofInt (v.subViews.length : Int)) := by
    simp only [justifyStart, hj, a1, a2, a3, a4, if_false, if_true]
  have hst : (justifyStart f (remFreeOf f v) v.subViews.length).1 =
      F64.div (F64.div (remFreeOf f v) (F64.ofInt (v.subViews.length : Int))) (F64.fin 2) := by
    simp only [justifyStart, hj, a1, a2, a3, a4, if_false, if_true]
  refine ⟨els, e, rectOf f e, y, h1, h2, h8, by rw [h3, hy], hye, ?_, ?_, ?_⟩
  · intro h0
    subst h0
    rw [h3, mainOffsetAt_zero, hst]
  · intro e' he'
    rw [resolve_mainOffset f v hd hw els h1 (i + 1) e' he', mainOffsetAt_succ f v i c hc, hsp, h3,
      h4]
  · intro hlast
    obtain ⟨z, hz, hze, _, _, _⟩ := edges_of_offset y hyb hyrep (mainOf f c.Size) hsc
    refine ⟨z, by rw [h3, hy, h4, hz], ?_⟩
    have hnpos : (0 : ℚ) < (v.subViews.length : ℚ) := by
      exact_mod_cast (by omega : 0 < v.subViews.length)
    -- the exact offset of the last sub view plus its extent leaves half a spacing
    have hsum : aroundOffset f v i + (mainOf f c.Size : ℚ) =
        (mainOf f v.rect.Size : ℚ) - (remainingFree f v : ℚ) / (v.subViews.length : ℚ) / 2 := by
      have hb1 := mainBefore_succ f v i c hc
      rw [hlast, mainBefore_length] at hb1
      have hM : (mainOf f v.rect.Size : ℚ) =
          (remainingFree f v : ℚ) + ((mainExtents f v).sum : ℚ) := by
        unfold remainingFree; push_cast; ring
      have hbq : ((mainExtents f v).sum : ℚ) = (mainBefore f v i : ℚ) + (mainOf f c.Size : ℚ) := by
        exact_mod_cast hb1
      have hiq : (i : ℚ) = (v.subViews.length : ℚ) - 1 := by
        rw [← hlast]; push_cast; ring
      unfold aroundOffset
      rw [hiq, hM, hbq]
      field_simp
      ring
    have e1 : ((mainOf f v.rect.Size : ℚ) - z) -
        (remainingFree f v : ℚ) / (v.subViews.length : ℚ) / 2 =
        -((z - (y + (mainOf f c.Size : ℚ))) + (y - aroundOffset f v i)) := by
      have : (mainOf f v.rect.Size : ℚ) - (remainingFree f v : ℚ) / (v.subViews.length : ℚ) / 2 =
          aroundOffset f v i + (mainOf f c.Size : ℚ) := hsum.symm
      linarith
    rw [e1, abs_neg]
    have h5 := abs_add (z - (y + (mainOf f c.Size : ℚ))) (y - aroundOffset f v i)
    have h6 : (1 : ℚ) / 2 ^ (20 : ℕ) ≤ 1 / 2 ^ (18 : ℕ) := by norm_num
    have h7 : ((i : ℚ) + 2) / 2 ^ (18 : ℕ) = ((i : ℚ) + 1) / 2 ^ (18 : ℕ) + 1 / 2 ^ (18 : ℕ) := by
      ring
    linarith

/-- C7, an instance: three sub views 1 wide in a container 4 wide; the third
one is the last. -/
theorem space_around_offsets_witness :
    ∃ els e r y, resolve aroundFlex aroundView = .ok els ∧ els[2]? = some e ∧
      (OnLayout aroundFlex aroundView).rects[2]? = some r ∧
      e.mainOffset = F64.fin y ∧
      |y - aroundOffset aroundFlex aroundView 2| ≤ (((2 : ℕ) : ℚ) + 1) / 2 ^ (18 : ℕ) ∧
      (2 = 0 → e.mainOffset = F64.div (F64.div (remFreeOf aroundFlex aroundView)
        (F64.ofInt (aroundView.subViews.length : Int))) (F64.fin 2)) ∧
      (∀ e', els[2 + 1]? = some e' → e'.mainOffset = F64.add e.mainOffset
        (F64.add (F64.div (remFreeOf aroundFlex aroundView)
          (F64.ofInt (aroundView.subViews.length : Int))) e.mainSize)) ∧
      (2 + 1 = aroundView.subViews.length → ∃ z, F64.add e.mainOffset e.mainSize = F64.fin z ∧
        |((mainOf aroundFlex aroundView.rect.Size : ℚ) - z) -
            (remainingFree aroundFlex aroundView : ℚ) / (aroundView.subViews.length : ℚ) / 2| ≤
          (((2 : ℕ) : ℚ) + 2) / 2 ^ (18 : ℕ)) :=
  space_around_offsets aroundFlex aroundView (by decide) (by decide) (by decide) (by decide)
    (by decide) 2 (rectWH 1 20) (by decide)

/-- C7 as stated fails for three sub views 1 wide in a container 4 wide: the
spacing is the `float64` nearest to `1/3`, not `1/3`, so the main extents plus
three spacings stay below 4; the first sub view is offset by
`6004799503160661 / 2^55`, and the last one by `3190049736054101 / 2^50`, which
leaves behind it a gap that is larger than the leading one. -/
theorem space_around_counterexample :
    F64.div (remFreeOf aroundFlex aroundView) (F64.ofInt (aroundView.subViews.length : Int)) =
      F64.fin (6004799503160661 / 18014398509481984) ∧
    ((mainExtents aroundFlex aroundView).sum : ℚ) +
        3 * (6004799503160661 / 18014398509481984) < 4 ∧
    mainOffsets aroundFlex aroundView =
      some [F64.fin (6004799503160661 / 36028797018963968), F64.fin (3 / 2),
        F64.fin (3190049736054101 / 1125899906842624)] ∧
    (6004799503160661 / 36028797018963968 : ℚ) <
      4 - (3190049736054101 / 1125899906842624 + 1) := by
  refine ⟨?_, ?_, ?_, ?_⟩
  · decide!
  · decide!
  · decide!
  · norm_num

/-! ## Extents of the rectangles -/

/-- Without `JustifySpaceBetween` and `JustifySpaceAround` there is no spacing,
and the first offset is `0`, `remainingFree` or its half. -/
theorem justifyStart_nospacing (f : Flex) (v : View)
    (hj : f.Justify ≠ JustifySpaceBetween ∧ f.Justify ≠ JustifySpaceAround)
    (hb : |mainOf f v.rect.Size| + absSum (mainExtents f v) ≤ 2 ^ (50 : ℕ)) :
    ∃ k : ℤ, justifyStart f (remFreeOf f v) v.subViews.length =
        (F64.fin (startOffset f (remainingFree f v)), F64.fin 0) ∧
      startOffset f (remainingFree f v) = (k : ℚ) / 2 ∧
      |startOffset f (remainingFree f v)| ≤ |(remainingFree f v : ℚ)| := by
  have hR := remFreeOf_exact f v hb
  have hRb : |(remainingFree f v : ℚ)| ≤ 2 ^ (50 : ℕ) := by
    have c50 : (((2 : ℤ) ^ (50 : ℕ) : ℤ) : ℚ) = 2 ^ (50 : ℕ) := by norm_num
    rw [← c50]
    exact cast_abs_le _ _ ((abs_remainingFree_le f v).trans hb)
  have h2abs : |(2 : ℚ)| = 2 := by norm_num
  have hE : Exact ((remainingFree f v : ℚ) / 2) := by
    refine ⟨⟨remainingFree f v, rfl⟩, ?_⟩
    rw [abs_div, h2abs]
    have : (2 : ℚ) ^ (50 : ℕ) < 2 ^ (52 : ℕ) := by norm_num
    linarith [abs_nonneg (remainingFree f v : ℚ)]
  have c1 : ¬ JustifyEnd = JustifyStart := by decide
  have c2 : ¬ JustifyCenter = JustifyStart := by decide
  have c3 : ¬ JustifyCenter = JustifyEnd := by decide
  have c4 : ¬ JustifyStart = JustifyEnd := by decide
  have c5 : ¬ JustifyStart = JustifyCenter := by decide
  by_cases h0 : f.Justify = JustifyStart
  · exact ⟨0, by simp only [justifyStart, startOffset, h0, c4, c5, if_true, if_false],
      by simp only [startOffset, h0, c4, c5, if_false]; simp,
      by simp only [startOffset, h0, c4, c5, if_false]; simp⟩
  by_cases h1 : f.Justify = JustifyEnd
  · refine ⟨2 * remainingFree f v, ?_, ?_, ?_⟩
    · simp only [justifyStart, startOffset, h1, c1, if_false, if_true, hR]
    · simp only [startOffset, h1, if_true]; push_cast; ring
    · simp only [startOffset, h1, if_true]; exact le_rfl
  by_cases h2 : f.Justify = JustifyCenter
  · refine ⟨remainingFree f v, ?_, ?_, ?_⟩
    · simp only [justifyStart, startOffset, h2, c2, c3, if_false, if_true, hR, div_two_exact hE]
    · simp only [startOffset, h2, c3, if_false, if_true]
    · simp only [startOffset, h2, c3, if_false, if_true]
      rw [abs_div, h2abs]
      linarith [abs_nonneg (remainingFree f v : ℚ)]
  · exact ⟨0, by simp only [justifyStart, startOffset, h0, h1, h2, hj.1, hj.2, if_false],
      by simp only [startOffset, h1, h2, if_false]; simp,
      by simp only [startOffset, h1, h2, if_false]; simp⟩

/-- Whatever the `Justify` value, for at most `2^16` sub views within `2^31`
every main offset is a binary64 value within `2^32 + 1`. -/
theorem main_offset_bounded (f : Flex) (v : View) (hn : v.subViews.length ≤ 2 ^ (16 : ℕ))
    (hb : |mainOf f v.rect.Size| + absSum (mainExtents f v) ≤ 2 ^ (31 : ℕ))
    (i : Nat) (hi : i < v.subViews.length) :
    ∃ y, mainOffsetAt f v i = F64.fin y ∧ IsF64 y ∧ |y| ≤ 2 ^ (32 : ℕ) + 1 := by
  by_cases hB : f.Justify = JustifySpaceBetween
  · by_cases hn2 : 2 ≤ v.subViews.length
    · obtain ⟨y, h1, h2, _, h4⟩ := between_offset_err f v hB hn2 hn hb i hi
      exact ⟨y, h1, h2, h4⟩
    · have hi0 : i = 0 := by omega
      subst hi0
      refine ⟨0, ?_, exact_zero.rnd, by norm_num⟩
      have a1 : ¬ JustifySpaceBetween = JustifyStart := by decide
      have a2 : ¬ JustifySpaceBetween = JustifyEnd := by decide
      have a3 : ¬ JustifySpaceBetween = JustifyCenter := by decide
      rw [mainOffsetAt_zero]
      simp only [justifyStart, hB, a1, a2, a3, if_false, if_true]
  by_cases hA : f.Justify = JustifySpaceAround
  · obtain ⟨y, h1, h2, _, h4⟩ := around_offset_err f v hA hn hb i hi
    exact ⟨y, h1, h2, h4⟩
  obtain ⟨hR, _, hRB, _⟩ := line_bounds f v hb
  obtain ⟨k, hjs, hk, ho⟩ := justifyStart_nospacing f v ⟨hB, hA⟩ (hb.trans (by norm_num))
  set o := startOffset f (remainingFree f v) with ho_def
  have hA2 : (absSum (mainExtents f v) : ℚ) ≤ 2 ^ (31 : ℕ) := by
    have h1 : absSum (mainExtents f v) ≤ 2 ^ (31 : ℕ) := by
      linarith [abs_nonneg (mainOf f v.rect.Size)]
    have c31 : (((2 : ℤ) ^ (31 : ℕ) : ℤ) : ℚ) = 2 ^ (31 : ℕ) := by norm_num
    rw [← c31]
    exact Int.cast_le.2 h1
  have hoff := offsetAt_exact o ⟨k, hk⟩ (mainExtents f v) (by
    have : (2 : ℚ) ^ (31 : ℕ) + 2 ^ (31 : ℕ) < 2 ^ (52 : ℕ) := by norm_num
    linarith) i
  have hbnd : |o + (mainBefore f v i : ℚ)| ≤ 2 ^ (32 : ℕ) := by
    have h1 := abs_add o (mainBefore f v i : ℚ)
    have h2 := hRB i
    linarith
  refine ⟨o + (mainBefore f v i : ℚ), ?_, ?_, by linarith⟩
  · rw [mainOffsetAt_eq, hjs]; exact hoff
  · have hE : Exact (o + (mainBefore f v i : ℚ)) := by
      refine ⟨⟨k + 2 * mainBefore f v i, by rw [hk]; push_cast; ring⟩, ?_⟩
      have : (2 : ℚ) ^ (32 : ℕ) < 2 ^ (52 : ℕ) := by norm_num
      linarith
    exact hE.rnd

theorem mainOf_size (f : Flex) (r : Rectangle) :
    mainOf f r.Size = mainOf f r.Max - mainOf f r.Min := by
  unfold mainOf Rectangle.Size
  split_ifs <;> rfl

theorem crossOf_size (f : Flex) (r : Rectangle) :
    crossOf f r.Size = crossOf f r.Max - crossOf f r.Min := by
  unfold crossOf Rectangle.Size
  split_ifs <;> rfl

/-- C3 (amended): in a `Row` or `Column` container with `Wrap = NoWrap` and at
most `2^16` sub views, where main and cross extents stay within `2^31`, the
rectangle handed to a sub view has the cross extent the sub view had before the
pass, whatever the `Justify` and `AlignItems` values; it has its main extent
too unless `Justify` is `JustifySpaceBetween` or `JustifySpaceAround`, in which
case the main extent may change, by at most one; and a sub view whose extents
are not negative is never handed a rectangle with a minimum above the
maximum. -/
theorem extents_after_pass (f : Flex) (v : View)
    (hd : f.Direction = Row ∨ f.Direction = Column) (hw : f.Wrap = NoWrap)
    (hn : v.subViews.length ≤ 2 ^ (16 : ℕ))
    (hb : |mainOf f v.rect.Size| + absSum (mainExtents f v) ≤ 2 ^ (31 : ℕ))
    (i : Nat) (c : Rectangle) (hc : v.subViews[i]? = some c)
    (hbc : |crossOf f v.rect.Size| + |crossOf f c.Size| ≤ 2 ^ (31 : ℕ)) :
    ∃ r, (OnLayout f v).rects[i]? = some r ∧
      crossOf f r.Size = crossOf f c.Size ∧
      (f.Justify ≠ JustifySpaceBetween → f.Justify ≠ JustifySpaceAround →
        mainOf f r.Size = mainOf f c.Size) ∧
      |mainOf f r.Size - mainOf f c.Size| ≤ 1 ∧
      (0 ≤ mainOf f c.Size → mainOf f r.Min ≤ mainOf f r.Max) ∧
      (0 ≤ crossOf f c.Size → crossOf f r.Min ≤ crossOf f r.Max) := by
  have hi : i < v.subViews.length := by
    rcases Nat.lt_or_ge i v.subViews.length with h | h
    · exact h
    · rw [List.getElem?_eq_none h] at hc; cases hc
  obtain ⟨els, e, h1, h2, h3, h4, h5, h6, _, h8⟩ := resolved_at f v hd hw i c hc
  obtain ⟨y, hy, hyrep, hyb⟩ := main_offset_bounded f v hn hb i hi
  obtain ⟨_, hs, _, _⟩ := line_bounds f v hb
  have hsc : |mainOf f c.Size| ≤ 2 ^ (31 : ℕ) :=
    hs _ (by
      have : (mainExtents f v)[i]? = some (mainOf f c.Size) := by simp [mainExtents, hc]
      exact List.getElem?_mem this)
  obtain ⟨z, hz, _, hone, hinv, _⟩ := edges_of_offset y hyb hyrep (mainOf f c.Size) hsc
  obtain ⟨_, c2, c3⟩ := cross_exact f v hd c (hbc.trans (by norm_num)) e h6 h5
  obtain ⟨m1, m2, _, _⟩ := rectOf_edges f e
  have hnear : mainOf f (rectOf f e).Min = round (F64.fin y) := by rw [m1, h3, hy]
  have hfar : mainOf f (rectOf f e).Max = round (F64.fin z) := by rw [m2, h3, hy, h4, hz]
  refine ⟨rectOf f e, h8, ?_, ?_, ?_, ?_, ?_⟩
  · rw [crossOf_size, c3, c2]; ring
  · intro hB hA
    obtain ⟨k, hjs, hk, ho⟩ := justifyStart_nospacing f v ⟨hB, hA⟩ (hb.trans (by norm_num))
    set o := startOffset f (remainingFree f v) with ho_def
    obtain ⟨hR, _, hRB, _⟩ := line_bounds f v hb
    have hA2 : (absSum (mainExtents f v) : ℚ) ≤ 2 ^ (31 : ℕ) := by
      have a1 : absSum (mainExtents f v) ≤ 2 ^ (31 : ℕ) := by
        linarith [abs_nonneg (mainOf f v.rect.Size)]
      have c31 : (((2 : ℤ) ^ (31 : ℕ) : ℤ) : ℚ) = 2 ^ (31 : ℕ) := by norm_num
      rw [← c31]
      exact Int.cast_le.2 a1
    obtain ⟨els2, e2, _, _, _, g4, _, g6, g7⟩ := nospacing_main f v hd hw o ⟨k, hk⟩ hjs (by
      have : (2 : ℚ) ^ (31 : ℕ) + 2 ^ (31 : ℕ) ≤ 2 ^ (51 : ℕ) := by norm_num
      linarith) i c hc
    have hsame : rectOf f e = rectOf f e2 := by
      rw [h8] at g4
      exact Option.some.inj g4
    rw [hsame, mainOf_size, g7, g6]
    ring
  · rw [mainOf_size, hnear, hfar]
    exact hone
  · intro h0
    rw [hnear, hfar]
    exact hinv h0
  · intro h0
    rw [c3, c2]
    linarith

/-- C3, an instance: the second of three sub views in a container 15 wide
under `JustifySpaceAround`. -/
theorem extents_after_pass_witness :
    ∃ r, (OnLayout growFlex growView).rects[1]? = some r ∧
      crossOf growFlex r.Size = crossOf growFlex (rectWH 2 20).Size ∧
      (growFlex.Justify ≠ JustifySpaceBetween → growFlex.Justify ≠ JustifySpaceAround →
        mainOf growFlex r.Size = mainOf growFlex (rectWH 2 20).Size) ∧
      |mainOf growFlex r.Size - mainOf growFlex (rectWH 2 20).Size| ≤ 1 ∧
      (0 ≤ mainOf growFlex (rectWH 2 20).Size → mainOf growFlex r.Min ≤ mainOf growFlex r.Max) ∧
      (0 ≤ crossOf growFlex (rectWH 2 20).Size →
        crossOf growFlex r.Min ≤ crossOf growFlex r.Max) :=
  extents_after_pass growFlex growView (by decide) (by decide) (by decide) (by decide) 1
    (rectWH 2 20) (by decide) (by decide)

/-- C3 as stated fails under `JustifySpaceAround`: of three sub views 1, 2 and
1 wide in a container 15 wide, the second one is handed a rectangle 3 wide (from
6 to 9), because its offset is the `float64` just below `6.5` and the offset
plus 2 rounds to `8.5`. -/
theorem extents_grow_counterexample :
    (OnLayout growFlex growView).rects =
      [⟨⟨2, 15⟩, ⟨3, 35⟩⟩, ⟨⟨6, 15⟩, ⟨9, 35⟩⟩, ⟨⟨12, 15⟩, ⟨13, 35⟩⟩] ∧
    growView.subViews.map (fun c => c.Size.X) = [1, 2, 1] ∧
    mainOffsets growFlex growView =
      some [F64.fin (8256599316845909 / 4503599627370496),
        F64.fin (7318349394477055 / 1125899906842624),
        F64.fin (1712306108323157 / 140737488355328)] := by
  refine ⟨?_, ?_, ?_⟩
  · decide!
  · decide
  · decide!

/-! ## Running the pass twice -/

theorem generate_calls (f : Flex) (hd : f.Direction = Row ∨ f.Direction = Column) (i : Nat)
    (cs : List element) : generate f i cs = ⟨callsOf i (cs.map (rectOf f)), none⟩ := by
  induction cs generalizing i with
  | nil => rfl
  | cons c cs ih =>
    rcases hd with h | h
    · simp only [generate, h, if_true, ih (i + 1), List.map_cons, callsOf, rectOf]
    · have hne : ¬ Column = Row := by decide
      simp only [generate, h, hne, if_false, if_true, ih (i + 1), List.map_cons, callsOf, rectOf]

/-- A pass that does not panic is its rectangles, handed out in order. -/
theorem OnLayout_eq_callsOf (f : Flex) (v : View) (hd : f.Direction = Row ∨ f.Direction = Column)
    (hw : f.Wrap = NoWrap) : OnLayout f v = ⟨callsOf 0 (OnLayout f v).rects, none⟩ := by
  obtain ⟨_, hr⟩ := OnLayout_rects f v hd hw
  rw [hr]
  unfold OnLayout
  rw [resolve_ok f v hd hw]
  exact generate_calls f hd 0 _

theorem point_ext_axes (f : Flex) (p q : Point) (h1 : mainOf f p = mainOf f q)
    (h2 : crossOf f p = crossOf f q) : p = q := by
  unfold mainOf at h1
  unfold crossOf at h2
  cases p; cases q
  split_ifs at h1 h2 <;> simp_all

/-- Without spacing and within `2^50`, the four edges of the rectangle handed
to sub view `i`, as functions of the extents alone. -/
theorem rect_closed_form (f : Flex) (v : View) (hd : f.Direction = Row ∨ f.Direction = Column)
    (hw : f.Wrap = NoWrap)
    (hj : f.Justify ≠ JustifySpaceBetween ∧ f.Justify ≠ JustifySpaceAround)
    (hb : |mainOf f v.rect.Size| + absSum (mainExtents f v) ≤ 2 ^ (50 : ℕ))
    (i : Nat) (c : Rectangle) (hc : v.subViews[i]? = some c)
    (hbc : |crossOf f v.rect.Size| + |crossOf f c.Size| ≤ 2 ^ (50 : ℕ)) :
    ∃ r, (OnLayout f v).rects[i]? = some r ∧
      mainOf f r.Min =
        ⌊startOffset f (remainingFree f v) + (mainBefore f v i : ℚ) + 1 / 2⌋ ∧
      mainOf f r.Max =
        ⌊startOffset f (remainingFree f v) + (mainBefore f v i : ℚ) + 1 / 2⌋ + mainOf f c.Size ∧
      crossOf f r.Min = ⌊alignOffset f (crossOf f v.rect.Size) (crossOf f c.Size) + 1 / 2⌋ ∧
      crossOf f r.Max =
        ⌊alignOffset f (crossOf f v.rect.Size) (crossOf f c.Size) + 1 / 2⌋ + crossOf f c.Size := by
  obtain ⟨k, hjs, hk, ho⟩ := justifyStart_nospacing f v hj hb
  have hRb : |(remainingFree f v : ℚ)| ≤ 2 ^ (50 : ℕ) := by
    have c50 : (((2 : ℤ) ^ (50 : ℕ) : ℤ) : ℚ) = 2 ^ (50 : ℕ) := by norm_num
    rw [← c50]
    exact cast_abs_le _ _ ((abs_remainingFree_le f v).trans hb)
  have hA2 : (absSum (mainExtents f v) : ℚ) ≤ 2 ^ (50 : ℕ) := by
    have a1 : absSum (mainExtents f v) ≤ 2 ^ (50 : ℕ) := by
      linarith [abs_nonneg (mainOf f v.rect.Size)]
    have c50 : (((2 : ℤ) ^ (50 : ℕ) : ℤ) : ℚ) = 2 ^ (50 : ℕ) := by norm_num
    rw [← c50]
    exact Int.cast_le.2 a1
  obtain ⟨els, e, h1, h2, _, g4, _, g6, g7⟩ := nospacing_main f v hd hw _ ⟨k, hk⟩ hjs (by
    have : (2 : ℚ) ^ (50 : ℕ) + 2 ^ (50 : ℕ) ≤ 2 ^ (51 : ℕ) := by norm_num
    linarith) i c hc
  obtain ⟨els', e', h1', h2', _, _, h5, h6, _, _⟩ := resolved_at f v hd hw i c hc
  have he : e' = e := by
    rw [h1] at h1'
    have := Except.ok.inj h1'
    subst this
    rw [h2] at h2'
    exact (Option.some.inj h2').symm
  subst he
  obtain ⟨_, c2, c3⟩ := cross_exact f v hd c hbc e' h6 h5
  exact ⟨rectOf f e', g4, g6, g7, c2, c3⟩

theorem rectangle_ext_axes (f : Flex) (r s : Rectangle)
    (h1 : mainOf f r.Min = mainOf f s.Min) (h2 : mainOf f r.Max = mainOf f s.Max)
    (h3 : crossOf f r.Min = crossOf f s.Min) (h4 : crossOf f r.Max = crossOf f s.Max) : r = s := by
  have hmin := point_ext_axes f r.Min s.Min h1 h3
  have hmax := point_ext_axes f r.Max s.Max h2 h4
  cases r; cases s
  simp_all

/-- C4 (amended): in a `Row` or `Column` container with `Wrap = NoWrap` whose
`Justify` value is neither `JustifySpaceBetween` nor `JustifySpaceAround`, with
main and cross extents within `2^50`, a second pass on the sub views as the
first pass left them (same container rectangle, same options) makes the same
calls as the first one: every sub view is handed the same rectangle again. -/
theorem idempotent_without_spacing (f : Flex) (v : View)
    (hd : f.Direction = Row ∨ f.Direction = Column) (hw : f.Wrap = NoWrap)
    (hj : f.Justify ≠ JustifySpaceBetween ∧ f.Justify ≠ JustifySpaceAround)
    (hb : |mainOf f v.rect.Size| + absSum (mainExtents f v) ≤ 2 ^ (50 : ℕ))
    (hbc : ∀ c ∈ v.subViews, |crossOf f v.rect.Size| + |crossOf f c.Size| ≤ 2 ^ (50 : ℕ)) :
    OnLayout f ⟨v.rect, (OnLayout f v).rects⟩ = OnLayout f v := by
  set v' : View := ⟨v.rect, (OnLayout f v).rects⟩ with hv'
  have hlen : (OnLayout f v).rects.length = v.subViews.length := rects_length f v hd hw
  have hsub : v'.subViews = (OnLayout f v).rects := rfl
  -- every sub view keeps its size
  have hsz : ∀ (i : Nat) (c : Rectangle), v.subViews[i]? = some c →
      ∃ r : Rectangle, v'.subViews[i]? = some r ∧ r.Size = c.Size := by
    intro i c hc
    obtain ⟨r, hr, m1, m2, c1, c2⟩ := rect_closed_form f v hd hw hj hb i c hc
      (hbc c (List.getElem?_mem hc))
    refine ⟨r, hr, point_ext_axes f _ _ ?_ ?_⟩
    · rw [mainOf_size, m2, m1]; ring
    · rw [crossOf_size, c2, c1]; ring
  have hsizes : v'.subViews.map Rectangle.Size = v.subViews.map Rectangle.Size := by
    apply List.ext_getElem?
    intro i
    simp only [List.getElem?_map]
    cases hc : v.subViews[i]? with
    | none =>
      have : v.subViews.length ≤ i := List.getElem?_eq_none_iff.1 hc
      rw [List.getElem?_eq_none (by omega)]
    | some c =>
      obtain ⟨r, hr, hs⟩ := hsz i c hc
      rw [hr]; simp [hs]
  have hme : mainExtents f v' = mainExtents f v := by
    have e1 : ∀ w : View, mainExtents f w = (w.subViews.map Rectangle.Size).map (mainOf f) := by
      intro w; simp [mainExtents, List.map_map]
    rw [e1, e1, hsizes]
  have hrf : remainingFree f v' = remainingFree f v := by
    unfold remainingFree; rw [hme]
  have hmb : ∀ i, mainBefore f v' i = mainBefore f v i := by
    intro i; unfold mainBefore; rw [hme]
  have hrects : (OnLayout f v').rects = (OnLayout f v).rects := by
    apply List.ext_getElem?
    intro i
    cases hc : v.subViews[i]? with
    | none =>
      have h1 : v.subViews.length ≤ i := List.getElem?_eq_none_iff.1 hc
      have h2 : (OnLayout f v').rects.length = (OnLayout f v).rects.length :=
        rects_length f v' hd hw
      rw [List.getElem?_eq_none (by omega), List.getElem?_eq_none (by omega)]
    | some c =>
      obtain ⟨r, hr, hs⟩ := hsz i c hc
      obtain ⟨R, hR, m1, m2, c1, c2⟩ := rect_closed_form f v hd hw hj hb i c hc
        (hbc c (List.getElem?_mem hc))
      obtain ⟨R', hR', m1', m2', c1', c2'⟩ := rect_closed_form f v' hd hw hj
        (by rw [hme]; exact hb) i r hr (by rw [hs]; exact hbc c (List.getElem?_mem hc))
      rw [hR, hR']
      congr 1
      apply rectangle_ext_axes f
      · rw [m1', m1, hrf, hmb]
      · rw [m2', m2, hrf, hmb, hs]
      · rw [c1', c1, hs]
      · rw [c2', c2, hs]
  rw [OnLayout_eq_callsOf f v' hd hw, OnLayout_eq_callsOf f v hd hw, hrects]

/-- C4, an instance: the two sub views of `NewFlex 100 50` under
`JustifyCenter`. -/
theorem idempotent_without_spacing_witness :
    OnLayout (NewFlex 100 50) ⟨centerView.rect, (OnLayout (NewFlex 100 50) centerView).rects⟩ =
      OnLayout (NewFlex 100 50) centerView :=
  idempotent_without_spacing (NewFlex 100 50) centerView (by decide) (by decide) (by decide)
    (by decide) (by decide)

/-- C4 as stated fails under `JustifySpaceAround`: of six sub views 4, 4, 5, 1,
1 and 2 wide in a container 19 wide, the first pass makes the fifth one 2 wide,
and the second pass, run on the rectangles of the first, moves the second and
the third sub view by one. -/
theorem idempotence_drift_counterexample :
    (OnLayout driftFlex driftView).rects =
      [⟨⟨0, 15⟩, ⟨4, 35⟩⟩, ⟨⟨5, 15⟩, ⟨9, 35⟩⟩, ⟨⟨9, 15⟩, ⟨14, 35⟩⟩, ⟨⟨14, 15⟩, ⟨15, 35⟩⟩,
        ⟨⟨15, 15⟩, ⟨17, 35⟩⟩, ⟨⟨17, 15⟩, ⟨19, 35⟩⟩] ∧
    (OnLayout driftFlex ⟨driftView.rect, (OnLayout driftFlex driftView).rects⟩).rects =
      [⟨⟨0, 15⟩, ⟨4, 35⟩⟩, ⟨⟨4, 15⟩, ⟨8, 35⟩⟩, ⟨⟨8, 15⟩, ⟨13, 35⟩⟩, ⟨⟨14, 15⟩, ⟨15, 35⟩⟩,
        ⟨⟨15, 15⟩, ⟨17, 35⟩⟩, ⟨⟨17, 15⟩, ⟨19, 35⟩⟩] := by
  constructor
  · decide!
  · decide!

/-! ## Direction, empty containers, the order of the calls, unused options -/

/-- C11: whenever `Direction` is neither `Row` nor `Column`, whatever the sub
views are (none included), `OnLayout` panics with the message "flex: bad
direction" followed by the value, and it has made no call on any sub view by
then: no rectangle is set. -/
theorem bad_direction_fails (f : Flex) (v : View)
    (hd : ¬ (f.Direction = Row ∨ f.Direction = Column)) :
    OnLayout f v = ⟨[], some ("flex: bad direction " ++ toString f.Direction)⟩ ∧
    (OnLayout f v).calls = [] ∧ (OnLayout f v).rects = [] := by
  unfold OnLayout
  rw [resolve_bad_direction f v hd]
  exact ⟨rfl, rfl, rfl⟩

/-- C11, an instance: `NewFlex 100 50` with the `Direction` value 2 and no sub
view. -/
theorem bad_direction_fails_witness :
    OnLayout { NewFlex 100 50 with Direction := 2 } ⟨rectWH 100 50, []⟩ =
      ⟨[], some ("flex: bad direction " ++ toString (2 : Direction))⟩ ∧
    (OnLayout { NewFlex 100 50 with Direction := 2 } ⟨rectWH 100 50, []⟩).calls = [] ∧
    (OnLayout { NewFlex 100 50 with Direction := 2 } ⟨rectWH 100 50, []⟩).rects = [] :=
  bad_direction_fails { NewFlex 100 50 with Direction := 2 } ⟨rectWH 100 50, []⟩ (by decide)

/-- C15: in a `Row` or `Column` container with `Wrap = NoWrap` and no sub view,
whatever the `Justify` and `AlignItems` values, `OnLayout` completes without a
panic and makes no call: no `SetRect`, no `Layout`. -/
theorem no_children (f : Flex) (v : View) (hd : f.Direction = Row ∨ f.Direction = Column)
    (hw : f.Wrap = NoWrap) (hv : v.subViews = []) :
    OnLayout f v = ⟨[], none⟩ := by
  unfold OnLayout
  rw [resolve_ok f v hd hw, hv]
  rfl

/-- C15, an instance: `NewFlex 100 50` under `JustifySpaceAround` with no sub
view. -/
theorem no_children_witness :
    OnLayout { NewFlex 100 50 with Justify := JustifySpaceAround } ⟨rectWH 100 50, []⟩ =
      ⟨[], none⟩ :=
  no_children { NewFlex 100 50 with Justify := JustifySpaceAround } ⟨rectWH 100 50, []⟩
    (by decide) (by decide) rfl

theorem callsOf_length (k : Nat) (rs : List Rectangle) : (callsOf k rs).length = 2 * rs.length := by
  induction rs generalizing k with
  | nil => rfl
  | cons r rs ih => simp only [callsOf, List.length_cons, ih]; omega

theorem callsOf_getElem? (k : Nat) (rs : List Rectangle) (i : Nat) (r : Rectangle)
    (h : rs[i]? = some r) :
    (callsOf k rs)[2 * i]? = some (Call.SetRect (k + i) r.Min.X r.Min.Y r.Max.X r.Max.Y) ∧
    (callsOf k rs)[2 * i + 1]? = some (Call.Layout (k + i)) := by
  induction rs generalizing k i with
  | nil => simp at h
  | cons a rs ih =>
    cases i with
    | zero =>
      simp at h; subst h
      simp [callsOf]
    | succ i =>
      simp at h
      obtain ⟨h1, h2⟩ := ih (k + 1) i h
      have e1 : 2 * (i + 1) = (2 * i) + 1 + 1 := by ring
      have e2 : k + 1 + i = k + (i + 1) := by ring
      rw [e1]
      simp only [callsOf, List.getElem?_cons_succ]
      rw [← e2]
      exact ⟨h1, h2⟩

/-- A pass without a panic has a direction it knows and no wrapping. -/
theorem success_options (f : Flex) (v : View) (h : (OnLayout f v).failure = none) :
    (f.Direction = Row ∨ f.Direction = Column) ∧ f.Wrap = NoWrap := by
  by_cases hd : f.Direction = Row ∨ f.Direction = Column
  · refine ⟨hd, ?_⟩
    by_contra hw
    unfold OnLayout at h
    rw [resolve_wrap f v hd hw] at h
    simp at h
  · unfold OnLayout at h
    rw [resolve_bad_direction f v hd] at h
    simp at h

/-- C17: in every pass that does not panic the calls are, for the sub views in
their order, one `SetRect` on the sub view followed at once by one `Layout` on
the same sub view, and nothing else: the call at position `2 * i` sets the
rectangle of sub view `i` and the call at position `2 * i + 1` lays it out. -/
theorem set_rect_then_layout (f : Flex) (v : View) (h : (OnLayout f v).failure = none) :
    (OnLayout f v).calls = callsOf 0 (OnLayout f v).rects ∧
    (OnLayout f v).rects.length = v.subViews.length ∧
    (OnLayout f v).calls.length = 2 * v.subViews.length ∧
    ∀ i, i < v.subViews.length → ∃ r, (OnLayout f v).rects[i]? = some r ∧
      (OnLayout f v).calls[2 * i]? = some (Call.SetRect i r.Min.X r.Min.Y r.Max.X r.Max.Y) ∧
      (OnLayout f v).calls[2 * i + 1]? = some (Call.Layout i) := by
  obtain ⟨hd, hw⟩ := success_options f v h
  have hc : (OnLayout f v).calls = callsOf 0 (OnLayout f v).rects := by
    have := OnLayout_eq_callsOf f v hd hw
    exact congrArg Pass.calls this
  have hl := rects_length f v hd hw
  refine ⟨hc, hl, by rw [hc, callsOf_length, hl], ?_⟩
  intro i hi
  have hi' : i < (OnLayout f v).rects.length := by rw [hl]; exact hi
  refine ⟨(OnLayout f v).rects[i], List.getElem?_eq_getElem hi', ?_⟩
  have := callsOf_getElem? 0 (OnLayout f v).rects i _ (List.getElem?_eq_getElem hi')
  rw [hc]
  simpa using this

/-- C17, an instance: the two sub views of `NewFlex 100 50`. -/
theorem set_rect_then_layout_witness :
    (OnLayout (NewFlex 100 50) centerView).calls =
      callsOf 0 (OnLayout (NewFlex 100 50) centerView).rects ∧
    (OnLayout (NewFlex 100 50) centerView).rects.length = centerView.subViews.length ∧
    (OnLayout (NewFlex 100 50) centerView).calls.length = 2 * centerView.subViews.length ∧
    ∀ i, i < centerView.subViews.length →
      ∃ r, (OnLayout (NewFlex 100 50) centerView).rects[i]? = some r ∧
      (OnLayout (NewFlex 100 50) centerView).calls[2 * i]? =
        some (Call.SetRect i r.Min.X r.Min.Y r.Max.X r.Max.Y) ∧
      (OnLayout (NewFlex 100 50) centerView).calls[2 * i + 1]? = some (Call.Layout i) :=
  set_rect_then_layout (NewFlex 100 50) centerView (by decide!)

theorem justifyLine_congr (f g : Flex) (hj : f.Justify = g.Justify) :
    justifyLine f = justifyLine g := by
  funext M cs
  simp only [justifyLine, justifyStart, hj]

/-- C18: two containers that agree on `Direction`, `Wrap`, `Justify` and
`AlignItems` run the same pass on the same view, call for call and panic for
panic, whatever their `AlignContent` values are: the field is never read. -/
theorem align_content_unused (f g : Flex) (v : View) (hd : f.Direction = g.Direction)
    (hw : f.Wrap = g.Wrap) (hj : f.Justify = g.Justify) (ha : f.AlignItems = g.AlignItems) :
    OnLayout f v = OnLayout g v := by
  apply OnLayout_congr f g v hd hw
  · have h2 : sizedElement f = sizedElement g := by
      funext c; simp only [sizedElement, mainOf_congr f g hd, crossOf_congr f g hd]
    rw [justifyLine_congr f g hj, mainOf_congr f g hd, h2]
  · intro l c
    simp only [alignChild, ha]

/-- C18, an instance: `NewFlex 100 50` with `AlignContentStretch` in place of
`AlignContentCenter`. -/
theorem align_content_unused_witness :
    OnLayout { NewFlex 100 50 with AlignContent := AlignContentStretch } centerView =
      OnLayout (NewFlex 100 50) centerView :=
  align_content_unused { NewFlex 100 50 with AlignContent := AlignContentStretch }
    (NewFlex 100 50) centerView rfl rfl rfl rfl

/-! ## The cross range of a sub view -/

/-- C12 (amended): in a single-line layout (`Row` or `Column`, `Wrap = NoWrap`)
a sub view keeps its own cross extent `c`: with `l` the cross extent of the
container and `|l| + |c| ≤ 2^50`, its cross range (`Y` in a `Row`, `X` in a
`Column`) starts at the rounded alignment offset and ends `c` further, and it
is the full range `[0, l]` of the container exactly when `c = l`. -/
theorem cross_range (f : Flex) (v : View) (hd : f.Direction = Row ∨ f.Direction = Column)
    (hw : f.Wrap = NoWrap) (i : Nat) (c : Rectangle) (hc : v.subViews[i]? = some c)
    (hb : |crossOf f v.rect.Size| + |crossOf f c.Size| ≤ 2 ^ (50 : ℕ)) :
    ∃ r : Rectangle, (OnLayout f v).rects[i]? = some r ∧
      crossOf f r.Min = ⌊alignOffset f (crossOf f v.rect.Size) (crossOf f c.Size) + 1 / 2⌋ ∧
      crossOf f r.Max = crossOf f r.Min + crossOf f c.Size ∧
      ((crossOf f r.Min = 0 ∧ crossOf f r.Max = crossOf f v.rect.Size) ↔
        crossOf f c.Size = crossOf f v.rect.Size) ∧
      (f.Direction = Row → crossOf f c.Size = crossOf f v.rect.Size →
        r.Min.Y = 0 ∧ r.Max.Y = v.rect.Size.Y) ∧
      (f.Direction = Column → crossOf f c.Size = crossOf f v.rect.Size →
        r.Min.X = 0 ∧ r.Max.X = v.rect.Size.X) := by
  obtain ⟨els, e, _, _, _, _, h5, h6, _, h8⟩ := resolved_at f v hd hw i c hc
  obtain ⟨_, hmin, hmax⟩ := cross_exact f v hd c hb e h6 h5
  have hfull : crossOf f c.Size = crossOf f v.rect.Size →
      crossOf f (rectOf f e).Min = 0 ∧ crossOf f (rectOf f e).Max = crossOf f v.rect.Size := by
    intro h
    have h0 : alignOffset f (crossOf f v.rect.Size) (crossOf f c.Size) = 0 := by
      rw [h]; simp only [alignOffset, sub_self, zero_div, ite_self]
    rw [h0] at hmin hmax
    have hfl : ⌊(0 : ℚ) + 1 / 2⌋ = 0 := by
      rw [Int.floor_eq_iff]; norm_num
    rw [hfl] at hmin hmax
    exact ⟨hmin, by rw [hmax, h]; ring⟩
  refine ⟨rectOf f e, h8, hmin, by rw [hmax, hmin], ⟨?_, hfull⟩, ?_, ?_⟩
  · rintro ⟨h0, h1⟩
    rw [hmax, ← hmin, h0] at h1
    linarith
  · intro hr h
    have := hfull h
    simpa only [crossOf, hr, if_true] using this
  · intro hr h
    have hne : ¬ f.Direction = Row := by rw [hr]; decide
    have := hfull h
    simpa only [crossOf, hne, if_false] using this

/-- C12, an instance: a sub view 50 high in the `Row` container `NewFlex 100
50`. -/
theorem cross_range_witness :
    ∃ r : Rectangle, (OnLayout (NewFlex 100 50) ⟨rectWH 100 50, [rectWH 40 50]⟩).rects[0]? = some r ∧
      crossOf (NewFlex 100 50) r.Min =
        ⌊alignOffset (NewFlex 100 50) (crossOf (NewFlex 100 50) (rectWH 100 50).Size)
          (crossOf (NewFlex 100 50) (rectWH 40 50).Size) + 1 / 2⌋ ∧
      crossOf (NewFlex 100 50) r.Max =
        crossOf (NewFlex 100 50) r.Min + crossOf (NewFlex 100 50) (rectWH 40 50).Size ∧
      ((crossOf (NewFlex 100 50) r.Min = 0 ∧
          crossOf (NewFlex 100 50) r.Max = crossOf (NewFlex 100 50) (rectWH 100 50).Size) ↔
        crossOf (NewFlex 100 50) (rectWH 40 50).Size =
          crossOf (NewFlex 100 50) (rectWH 100 50).Size) ∧
      ((NewFlex 100 50).Direction = Row →
        crossOf (NewFlex 100 50) (rectWH 40 50).Size =
          crossOf (NewFlex 100 50) (rectWH 100 50).Size →
        r.Min.Y = 0 ∧ r.Max.Y = (rectWH 100 50).Size.Y) ∧
      ((NewFlex 100 50).Direction = Column →
        crossOf (NewFlex 100 50) (rectWH 40 50).Size =
          crossOf (NewFlex 100 50) (rectWH 100 50).Size →
        r.Min.X = 0 ∧ r.Max.X = (rectWH 100 50).Size.X) :=
  cross_range (NewFlex 100 50) ⟨rectWH 100 50, [rectWH 40 50]⟩ (by decide) (by decide) 0
    (rectWH 40 50) (by decide) (by decide)

/-- C12 as stated fails on a sub view 20 high in the `Row` container `NewFlex
100 50`: its `Y` range is `[15, 35]`, not `[0, 50]`; and on the same sub view,
20 wide by 40 high, in the `Column` container 50 wide its `X` range is
`[15, 35]`. -/
theorem cross_range_counterexample :
    (OnLayout (NewFlex 100 50) crossView).rects = [⟨⟨30, 15⟩, ⟨70, 35⟩⟩] ∧
    (OnLayout { NewFlex 50 100 with Direction := Column }
      ⟨rectWH 50 100, [rectWH 20 40]⟩).rects = [⟨⟨15, 30⟩, ⟨35, 70⟩⟩] := by
  constructor <;> decide!

/-! ## The divisor of the spacing -/

/-- C14 fails on the code: with one sub view 40 wide in a container 100 wide
under `JustifySpaceBetween` the divisor `float64(len(line.child) - 1)` is `0`
and the spacing is `+Inf`, as is the running offset after the sub view; with
the sub view as wide as the container the spacing is `NaN`; and with no sub
view under `JustifySpaceAround` the divisor `float64(len(line.child))` is `0`
and both the spacing and the first offset are `+Inf`. -/
theorem spacing_divides_by_zero :
    F64.ofInt ((crossView.subViews.length : Int) - 1) = F64.fin 0 ∧
    justifyStart { NewFlex 100 50 with Justify := JustifySpaceBetween }
      (remFreeOf { NewFlex 100 50 with Justify := JustifySpaceBetween } crossView)
      crossView.subViews.length = (F64.fin 0, F64.pinf) ∧
    mainOffsetAt { NewFlex 100 50 with Justify := JustifySpaceBetween } crossView 1 = F64.pinf ∧
    justifyStart { NewFlex 100 50 with Justify := JustifySpaceBetween }
      (remFreeOf { NewFlex 100 50 with Justify := JustifySpaceBetween }
        ⟨rectWH 100 50, [rectWH 100 20]⟩) 1 = (F64.fin 0, F64.nan) ∧
    F64.ofInt (((([] : List Rectangle).length : Nat) : Int)) = F64.fin 0 ∧
    justifyStart { NewFlex 100 50 with Justify := JustifySpaceAround }
      (remFreeOf { NewFlex 100 50 with Justify := JustifySpaceAround } ⟨rectWH 100 50, []⟩)
      0 = (F64.pinf, F64.pinf) := by
  refine ⟨?_, ?_, ?_, ?_, ?_, ?_⟩ <;> decide!

/-! ## Rounding keeps the order -/

theorem roundEven_bounds (x : ℚ) : ⌊x⌋ ≤ roundEven x ∧ roundEven x ≤ ⌊x⌋ + 1 := by
  unfold roundEven
  split_ifs <;> constructor <;> omega

theorem roundEven_mono {x y : ℚ} (h : x ≤ y) : roundEven x ≤ roundEven y := by
  have hf : ⌊x⌋ ≤ ⌊y⌋ := Int.floor_le_floor h
  rcases hf.lt_or_eq with hlt | heq
  · have h1 := (roundEven_bounds x).2
    have h2 := (roundEven_bounds y).1
    omega
  · have hfr : x - ⌊x⌋ ≤ y - ⌊y⌋ := by rw [heq]; linarith
    unfold roundEven
    rw [heq] at hfr ⊢
    split_ifs <;> first | omega | (exfalso; linarith)

/-- A point `n * 2^(ulpExp q)` of the grid on which `q` is rounded stays on
its side of `q`. -/
theorem rndValue_le_grid (q : ℚ) (n : ℤ) (h : q ≤ (n : ℚ) * 2 ^ ulpExp q) :
    rndValue q ≤ (n : ℚ) * 2 ^ ulpExp q := by
  have hpos : (0 : ℚ) < 2 ^ ulpExp q := by positivity
  unfold rndValue
  apply mul_le_mul_of_nonneg_right _ hpos.le
  have h1 : q / 2 ^ ulpExp q ≤ (n : ℚ) := by rw [div_le_iff₀ hpos]; exact h
  have := roundEven_mono h1
  rw [roundEven_intCast] at this
  exact_mod_cast this

theorem grid_le_rndValue (q : ℚ) (n : ℤ) (h : (n : ℚ) * 2 ^ ulpExp q ≤ q) :
    (n : ℚ) * 2 ^ ulpExp q ≤ rndValue q := by
  have hpos : (0 : ℚ) < 2 ^ ulpExp q := by positivity
  unfold rndValue
  apply mul_le_mul_of_nonneg_right _ hpos.le
  have h1 : (n : ℚ) ≤ q / 2 ^ ulpExp q := by rw [le_div_iff₀ hpos]; exact h
  have := roundEven_mono h1
  rw [roundEven_intCast] at this
  exact_mod_cast this

theorem rndValue_nonneg {q : ℚ} (h : 0 ≤ q) : 0 ≤ rndValue q := by
  have := grid_le_rndValue q 0 (by simpa using h)
  simpa using this

theorem rndValue_nonpos {q : ℚ} (h : q ≤ 0) : rndValue q ≤ 0 := by
  have := rndValue_le_grid q 0 (by simpa using h)
  simpa using this

theorem ilog2_mono {x y : ℚ} (hx : x ≠ 0) (h : |x| ≤ |y|) : ilog2 x ≤ ilog2 y := by
  rw [ilog2_eq_log, ilog2_eq_log]
  exact Int.log_mono_right (abs_pos.2 hx) h

theorem ulpExp_mono {x y : ℚ} (hx : x ≠ 0) (h : |x| ≤ |y|) : ulpExp x ≤ ulpExp y := by
  unfold ulpExp
  have := ilog2_mono hx h
  exact max_le_max (by omega) le_rfl

/-- A power of two `2^k` at or above the exponent of the grid is a point of
the grid. -/
theorem pow_on_grid (e k : ℤ) (h : e ≤ k) : ∃ n : ℤ, (2 : ℚ) ^ k = (n : ℚ) * 2 ^ e := by
  obtain ⟨m, hm⟩ : ∃ m : ℕ, k = e + m := ⟨(k - e).toNat, by omega⟩
  refine ⟨2 ^ m, ?_⟩
  rw [hm, zpow_add₀ (by norm_num), zpow_natCast]
  push_cast
  ring

/-- When the exponent of `x` is below that of `y`, the power of two that
opens the binade of `y` separates the two in magnitude. -/
theorem binade_separates {x y : ℚ} (hx : x ≠ 0) (hy0 : y ≠ 0) (h : ulpExp x < ulpExp y) :
    |x| < 2 ^ (ulpExp y + 52) ∧ (2 : ℚ) ^ (ulpExp y + 52) ≤ |y| := by
  have hge := ulpExp_ge x
  have hey : ulpExp y = ilog2 y - 52 := by unfold ulpExp at h ⊢; omega
  have hex : ilog2 x ≤ ulpExp x + 52 := by unfold ulpExp; omega
  constructor
  · have h4 := (ilog2_bounds x hx).2
    have : (2 : ℚ) ^ (ilog2 x + 1) ≤ 2 ^ (ulpExp y + 52) :=
      zpow_le_zpow_right₀ (by norm_num) (by omega)
    exact lt_of_lt_of_le h4 this
  · have h4 := (ilog2_bounds y hy0).1
    have : ulpExp y + 52 = ilog2 y := by omega
    rw [this]; exact h4

theorem rndValue_mono {x y : ℚ} (h : x ≤ y) : rndValue x ≤ rndValue y := by
  by_cases hx0 : x ≤ 0
  · by_cases hy0 : 0 ≤ y
    · exact (rndValue_nonpos hx0).trans (rndValue_nonneg hy0)
    · -- both negative
      push_neg at hy0
      have hxn : x ≠ 0 := by linarith
      have hyn : y ≠ 0 := by linarith
      have hab : |y| ≤ |x| := by rw [abs_of_neg hy0, abs_of_nonpos hx0]; linarith
      have hm := ulpExp_mono hyn hab
      rcases hm.lt_or_eq with hlt | heq
      · obtain ⟨h1, h2⟩ := binade_separates hyn hxn hlt
        rw [abs_of_neg hy0] at h1
        rw [abs_of_nonpos hx0] at h2
        obtain ⟨n, hn⟩ := pow_on_grid (ulpExp x) (ulpExp x + 52) (by omega)
        obtain ⟨m, hm'⟩ := pow_on_grid (ulpExp y) (ulpExp x + 52) (by omega)
        have hX := rndValue_le_grid x (-n) (by push_cast; rw [neg_mul, ← hn]; linarith)
        have hY := grid_le_rndValue y (-m) (by push_cast; rw [neg_mul, ← hm']; linarith)
        push_cast at hX hY
        rw [neg_mul, ← hn] at hX
        rw [neg_mul, ← hm'] at hY
        linarith
      · unfold rndValue
        rw [heq]
        have hpos : (0 : ℚ) < 2 ^ ulpExp x := by positivity
        apply mul_le_mul_of_nonneg_right _ hpos.le
        have : roundEven (x / 2 ^ ulpExp x) ≤ roundEven (y / 2 ^ ulpExp x) :=
          roundEven_mono (div_le_div_of_nonneg_right h hpos.le)
        exact_mod_cast this
  · push_neg at hx0
    have hy0 : 0 < y := lt_of_lt_of_le hx0 h
    have hxn : x ≠ 0 := by linarith
    have hab : |x| ≤ |y| := by rw [abs_of_pos hx0, abs_of_pos hy0]; exact h
    have hm := ulpExp_mono hxn hab
    rcases hm.lt_or_eq with hlt | heq
    · obtain ⟨h1, h2⟩ := binade_separates hxn (ne_of_gt hy0) hlt
      rw [abs_of_pos hx0] at h1
      rw [abs_of_pos hy0] at h2
      obtain ⟨n, hn⟩ := pow_on_grid (ulpExp x) (ulpExp y + 52) (by omega)
      obtain ⟨m, hm'⟩ := pow_on_grid (ulpExp y) (ulpExp y + 52) (by omega)
      have hX := rndValue_le_grid x n (by rw [← hn]; linarith)
      have hY := grid_le_rndValue y m (by rw [← hm']; linarith)
      rw [← hn] at hX
      rw [← hm'] at hY
      linarith
    · unfold rndValue
      rw [← heq]
      have hpos : (0 : ℚ) < 2 ^ ulpExp x := by positivity
      apply mul_le_mul_of_nonneg_right _ hpos.le
      have : roundEven (x / 2 ^ ulpExp x) ≤ roundEven (y / 2 ^ ulpExp x) :=
        roundEven_mono (div_le_div_of_nonneg_right h hpos.le)
      exact_mod_cast this

theorem rndValue_of_rnd {q r : ℚ} (h : F64.rnd q = F64.fin r) : rndValue q = r := by
  unfold F64.rnd at h
  by_cases h1 : (2 : ℚ) ^ (1024 : ℕ) ≤ |rndValue q|
  · rw [if_pos h1] at h; split_ifs at h
  · rw [if_neg h1] at h; exact F64.fin.inj h

theorem rnd_mono {x y a b : ℚ} (hx : F64.rnd x = F64.fin a) (hy : F64.rnd y = F64.fin b)
    (h : x ≤ y) : a ≤ b := by
  rw [← rndValue_of_rnd hx, ← rndValue_of_rnd hy]
  exact rndValue_mono h

theorem add_mono {a b c d r s : ℚ} (hr : F64.add (F64.fin a) (F64.fin b) = F64.fin r)
    (hs : F64.add (F64.fin c) (F64.fin d) = F64.fin s) (h : a + b ≤ c + d) : r ≤ s :=
  rnd_mono hr hs h

/-- Below `2^62` the function `round` is the floor of the rounded sum
`f + .5`. -/
theorem round_eq_floor (x : ℚ) (hx : |x| ≤ 2 ^ (62 : ℕ)) :
    round (F64.fin x) = ⌊rndValue (x + 1 / 2)⌋ := by
  have hq : |x + 1 / 2| < 2 ^ (63 : ℕ) := by
    have h2 := abs_add x (1 / 2)
    have hhalf : |(1 / 2 : ℚ)| = 1 / 2 := by norm_num
    have h3 : (2 : ℚ) ^ (62 : ℕ) + 1 / 2 < 2 ^ (63 : ℕ) := by norm_num
    linarith
  obtain ⟨w, hw, hwe⟩ := rnd_err (x + 1 / 2) 63 (by norm_num) (by norm_num) hq
  have hadd : F64.add (F64.fin x) (F64.fin (1 / 2)) = F64.fin w := hw
  rw [rndValue_of_rnd hw]
  have hwb : |w| < 2 ^ (63 : ℕ) := by
    have h1 := abs_add (w - (x + 1 / 2)) (x + 1 / 2)
    simp only [sub_add_cancel] at h1
    have h2 := abs_add x (1 / 2)
    have hhalf : |(1 / 2 : ℚ)| = 1 / 2 := by norm_num
    have h3 : (2 : ℚ) ^ (63 : ℕ) / 2 ^ (54 : ℕ) + (2 ^ (62 : ℕ) + 1 / 2) < 2 ^ (63 : ℕ) := by
      norm_num
    linarith
  simp only [round, hadd, F64.floor, F64.toInt]
  have hfl : ⌊((⌊w⌋ : ℤ) : ℚ)⌋ = ⌊w⌋ := Int.floor_intCast _
  have hce : ⌈((⌊w⌋ : ℤ) : ℚ)⌉ = ⌊w⌋ := Int.ceil_intCast _
  simp only [hfl, hce, ite_self]
  rw [abs_lt] at hwb
  have hlo : -(2 : ℤ) ^ (63 : ℕ) ≤ ⌊w⌋ := by
    rw [Int.le_floor]
    push_cast
    linarith [hwb.1]
  have hhi : ⌊w⌋ < (2 : ℤ) ^ (63 : ℕ) := by
    rw [Int.floor_lt]
    push_cast
    linarith [hwb.2]
  rw [if_pos ⟨hlo, hhi⟩]

theorem round_mono {x y : ℚ} (hx : |x| ≤ 2 ^ (62 : ℕ)) (hy : |y| ≤ 2 ^ (62 : ℕ)) (h : x ≤ y) :
    round (F64.fin x) ≤ round (F64.fin y) := by
  rw [round_eq_floor x hx, round_eq_floor y hy]
  exact Int.floor_le_floor (rndValue_mono (by linarith))

theorem rndValue_int (n : ℤ) (hb : |(n : ℚ)| < 2 ^ (52 : ℕ)) : rndValue (n : ℚ) = n :=
  rndValue_of_rnd (rnd_int n hb)

/-- Below `2^51` the function `round` is never under `⌊x + 1/2⌋` and never
over `⌈x + 1/2⌉`. -/
theorem round_between (x : ℚ) (hx : |x| ≤ 2 ^ (51 : ℕ)) :
    ⌊x + 1 / 2⌋ ≤ round (F64.fin x) ∧ round (F64.fin x) ≤ ⌈x + 1 / 2⌉ := by
  have h62 : |x| ≤ 2 ^ (62 : ℕ) := hx.trans (by norm_num)
  rw [round_eq_floor x h62]
  rw [abs_le] at hx
  have hfb : |((⌊x + 1 / 2⌋ : ℤ) : ℚ)| < 2 ^ (52 : ℕ) := by
    rw [abs_lt]
    have h1 := Int.floor_le (x + 1 / 2)
    have h2 := Int.lt_floor_add_one (x + 1 / 2)
    have h3 : (2 : ℚ) ^ (51 : ℕ) + 2 < 2 ^ (52 : ℕ) := by norm_num
    constructor <;> linarith
  have hcb : |((⌈x + 1 / 2⌉ : ℤ) : ℚ)| < 2 ^ (52 : ℕ) := by
    rw [abs_lt]
    have h1 := Int.le_ceil (x + 1 / 2)
    have h2 := Int.ceil_lt_add_one (x + 1 / 2)
    have h3 : (2 : ℚ) ^ (51 : ℕ) + 2 < 2 ^ (52 : ℕ) := by norm_num
    constructor <;> linarith
  constructor
  · rw [Int.le_floor, ← rndValue_int _ hfb]
    exact rndValue_mono (Int.floor_le _)
  · have h1 : rndValue (x + 1 / 2) ≤ ((⌈x + 1 / 2⌉ : ℤ) : ℚ) := by
      rw [← rndValue_int _ hcb]
      exact rndValue_mono (Int.le_ceil _)
    have := Int.floor_le_floor h1
    rwa [Int.floor_intCast] at this

/-- When `x + 1/2` is a binary64 value, `round` is `⌊x + 1/2⌋`. -/
theorem round_of_isF64 (x : ℚ) (hx : |x| ≤ 2 ^ (62 : ℕ)) (h : IsF64 (x + 1 / 2)) :
    round (F64.fin x) = ⌊x + 1 / 2⌋ := by
  rw [round_eq_floor x hx, rndValue_of_rnd h]

/-! ## The rounding rule -/

/-- C13 (amended): in a pass that does not panic each of the four edges handed
to a sub view is `round` of its own binary64 value (near edge: the offset, far
edge: the binary64 sum of offset and size), edge by edge.  `round` of a value
`x` with `|x| ≤ 2^62` is the floor of the binary64 sum `x + .5`; for
`|x| ≤ 2^51` it lies between `⌊x + 1/2⌋` and `⌈x + 1/2⌉`; when `x + 1/2` is
itself a binary64 value it is `⌊x + 1/2⌋`, the one integer `k` with
`k - 1/2 ≤ x < k + 1/2`; and `round (n + 1/2) = n + 1` for every integer `n`
with `|n + 1| < 2^52`. -/
theorem edges_rounded (f : Flex) (v : View) (hd : f.Direction = Row ∨ f.Direction = Column)
    (hw : f.Wrap = NoWrap) (i : Nat) (c : Rectangle) (hc : v.subViews[i]? = some c) :
    (∃ els e r, resolve f v = .ok els ∧ els[i]? = some e ∧ (OnLayout f v).rects[i]? = some r ∧
      mainOf f r.Min = round e.mainOffset ∧
      mainOf f r.Max = round (F64.add e.mainOffset e.mainSize) ∧
      crossOf f r.Min = round e.crossOffset ∧
      crossOf f r.Max = round (F64.add e.crossOffset e.crossSize)) ∧
    (∀ x : ℚ, |x| ≤ 2 ^ (62 : ℕ) → round (F64.fin x) = ⌊rndValue (x + 1 / 2)⌋) ∧
    (∀ x : ℚ, |x| ≤ 2 ^ (51 : ℕ) →
      ⌊x + 1 / 2⌋ ≤ round (F64.fin x) ∧ round (F64.fin x) ≤ ⌈x + 1 / 2⌉) ∧
    (∀ x : ℚ, |x| ≤ 2 ^ (62 : ℕ) → IsF64 (x + 1 / 2) →
      round (F64.fin x) = ⌊x + 1 / 2⌋ ∧
      ∀ k : ℤ, ((k : ℚ) - 1 / 2 ≤ x ∧ x < (k : ℚ) + 1 / 2) ↔ k = round (F64.fin x)) ∧
    (∀ n : ℤ, |n + 1| < 2 ^ (52 : ℕ) → round (F64.fin ((n : ℚ) + 1 / 2)) = n + 1) := by
  refine ⟨?_, round_eq_floor, round_between, ?_, ?_⟩
  · obtain ⟨els, e, h1, h2, _, _, _, _, _, h8⟩ := resolved_at f v hd hw i c hc
    obtain ⟨e1, e2, e3, e4⟩ := rectOf_edges f e
    exact ⟨els, e, rectOf f e, h1, h2, h8, e1, e2, e3, e4⟩
  · intro x hx hrep
    have hr := round_of_isF64 x hx hrep
    refine ⟨hr, fun k => ?_⟩
    rw [hr, eq_comm, Int.floor_eq_iff]
    constructor
    · rintro ⟨h1, h2⟩; constructor <;> linarith
    · rintro ⟨h1, h2⟩; constructor <;> linarith
  · intro n hn
    have hE : Exact (((n : ℚ) + 1 / 2) + 1 / 2) := by
      have : ((n : ℚ) + 1 / 2) + 1 / 2 = ((n + 1 : ℤ) : ℚ) := by push_cast; ring
      rw [this]
      exact exact_int _ hn
    rw [round_exact hE]
    have : ((n : ℚ) + 1 / 2) + 1 / 2 = ((n + 1 : ℤ) : ℚ) := by push_cast; ring
    rw [this, Int.floor_intCast]

/-- C13, an instance: one sub view 51 wide centred in a container 100 wide has
the main offset 24.5 and the near edge 25. -/
theorem edges_rounded_witness :
    ((∃ els e r, resolve (NewFlex 100 50) oddView = .ok els ∧ els[0]? = some e ∧
        (OnLayout (NewFlex 100 50) oddView).rects[0]? = some r ∧
        mainOf (NewFlex 100 50) r.Min = round e.mainOffset ∧
        mainOf (NewFlex 100 50) r.Max = round (F64.add e.mainOffset e.mainSize) ∧
        crossOf (NewFlex 100 50) r.Min = round e.crossOffset ∧
        crossOf (NewFlex 100 50) r.Max = round (F64.add e.crossOffset e.crossSize)) ∧
      (∀ x : ℚ, |x| ≤ 2 ^ (62 : ℕ) → round (F64.fin x) = ⌊rndValue (x + 1 / 2)⌋) ∧
      (∀ x : ℚ, |x| ≤ 2 ^ (51 : ℕ) →
        ⌊x + 1 / 2⌋ ≤ round (F64.fin x) ∧ round (F64.fin x) ≤ ⌈x + 1 / 2⌉) ∧
      (∀ x : ℚ, |x| ≤ 2 ^ (62 : ℕ) → IsF64 (x + 1 / 2) →
        round (F64.fin x) = ⌊x + 1 / 2⌋ ∧
        ∀ k : ℤ, ((k : ℚ) - 1 / 2 ≤ x ∧ x < (k : ℚ) + 1 / 2) ↔ k = round (F64.fin x)) ∧
      (∀ n : ℤ, |n + 1| < 2 ^ (52 : ℕ) → round (F64.fin ((n : ℚ) + 1 / 2)) = n + 1)) ∧
    mainOffsets (NewFlex 100 50) oddView = some [F64.fin (49 / 2)] ∧
    round (F64.fin (49 / 2)) = 25 ∧
    (OnLayout (NewFlex 100 50) oddView).rects = [⟨⟨25, 15⟩, ⟨76, 35⟩⟩] :=
  ⟨edges_rounded (NewFlex 100 50) oddView (by decide) (by decide) 0 (rectWH 51 20) (by decide),
    by decide!, by decide!, by decide!⟩

/-- C13 as stated fails in a container 8 wide holding sub views 0, 0, 0, 4, 0,
2 and 1 wide under `JustifySpaceAround`: the fourth sub view has the main
offset `1/2 - 1/2^54`, whose floor after adding `1/2` is `0`, and is handed
the near edge `1`.  It also fails on `round` alone: `round (2^52 + 1)` is
`2^52 + 2`. -/
theorem edges_rounded_counterexample :
    mainOffsets halfFlex halfView =
      some [F64.fin (2573485501354569 / 2 ^ (55 : ℕ)), F64.fin (7720456504063707 / 2 ^ (55 : ℕ)),
        F64.fin (3216856876693211 / 2 ^ (53 : ℕ)), F64.fin (1 / 2 - 1 / 2 ^ (54 : ℕ)),
        F64.fin (5227392424626469 / 2 ^ (50 : ℕ)), F64.fin (2694117634230565 / 2 ^ (49 : ℕ)),
        F64.fin (3900438962990519 / 2 ^ (49 : ℕ))] ∧
    ⌊((1 : ℚ) / 2 - 1 / 2 ^ (54 : ℕ)) + 1 / 2⌋ = 0 ∧
    (OnLayout halfFlex halfView).rects[3]? = some ⟨⟨1, 15⟩, ⟨5, 35⟩⟩ ∧
    round (F64.fin (1 / 2 - 1 / 2 ^ (54 : ℕ))) = 1 ∧
    round (F64.fin (2 ^ (52 : ℕ) + 1)) = 2 ^ (52 : ℕ) + 2 := by
  refine ⟨by decide!, ?_, by decide!, by decide!, by decide!⟩
  rw [Int.floor_eq_iff]
  norm_num

/-! ## Rows and columns -/

theorem transpose_size (r : Rectangle) : r.transpose.Size = r.Size.transpose := rfl

theorem rectangle_transpose_transpose (r : Rectangle) : r.transpose.transpose = r := rfl

theorem totalMain_transpose (acc : F64) (cs : List element) :
    totalMain acc (cs.map element.transpose) = totalMain acc cs := by
  induction cs generalizing acc with
  | nil => rfl
  | cons c cs ih => simp only [List.map_cons, totalMain, ih]; rfl

theorem place_transpose (sp off : F64) (cs : List element) :
    place sp off (cs.map element.transpose) = (place sp off cs).map element.transpose := by
  induction cs generalizing off with
  | nil => rfl
  | cons c cs ih => simp only [List.map_cons, place, ih]; rfl

theorem justifyLine_transpose (f g : Flex) (hj : f.Justify = g.Justify) (M : F64)
    (cs : List element) :
    justifyLine g M (cs.map element.transpose) = (justifyLine f M cs).map element.transpose := by
  simp only [justifyLine, totalMain_transpose, List.length_map, place_transpose, justifyStart, hj]

theorem alignChild_transpose (f g : Flex) (ha : f.AlignItems = g.AlignItems) (l m : flexLine)
    (h1 : l.crossSize = m.crossSize) (h2 : l.crossOffset = m.crossOffset) (c : element) :
    alignChild g m c.transpose = (alignChild f l c).transpose := by
  simp only [alignChild, element.transpose, ha, h1, h2]
  split_ifs <;> rfl

theorem sizedElement_transpose (f g : Flex) (hf : f.Direction = Column) (hg : g.Direction = Row)
    (c : Rectangle) : sizedElement g c.transpose = (sizedElement f c).transpose := by
  have hne : ¬ f.Direction = Row := by rw [hf]; decide
  simp only [sizedElement, element.transpose, mainOf, crossOf, hg, hne, if_true, if_false,
    transpose_size, Point.transpose]

theorem rectOf_transpose (f g : Flex) (hf : f.Direction = Column) (hg : g.Direction = Row)
    (e : element) : rectOf g e.transpose = (rectOf f e).transpose := by
  have hne : ¬ f.Direction = Row := by rw [hf]; decide
  simp only [rectOf, element.transpose, hg, hne, if_true, if_false, Rectangle.transpose,
    Point.transpose]

/-- The rectangles of a `Row` pass on the transposed view are the transposed
rectangles of the `Column` pass. -/
theorem rects_transpose (f g : Flex) (v : View) (hf : f.Direction = Column)
    (hg : g.Direction = Row) (hwf : f.Wrap = NoWrap) (hwg : g.Wrap = NoWrap)
    (hj : f.Justify = g.Justify) (ha : f.AlignItems = g.AlignItems) :
    (OnLayout g v.transpose).rects = (OnLayout f v).rects.map Rectangle.transpose := by
  have hne : ¬ f.Direction = Row := by rw [hf]; decide
  have hc : ¬ Column = Row := by decide
  rw [(OnLayout_rects f v (Or.inr hf) hwf).2, (OnLayout_rects g v.transpose (Or.inl hg) hwg).2]
  have hs : v.transpose.subViews.map (sizedElement g) =
      (v.subViews.map (sizedElement f)).map element.transpose := by
    simp only [View.transpose, List.map_map]
    apply List.map_congr_left
    intro c _
    exact sizedElement_transpose f g hf hg c
  have hM : mainOf g v.transpose.rect.Size = mainOf f v.rect.Size := by
    simp only [mainOf, hg, hne, if_true, if_false, View.transpose, transpose_size, Point.transpose]
  have hl : (singleLine f v).crossSize = (singleLine g v.transpose).crossSize := by
    simp only [singleLine, lineCrossSize, hg, hf, hc, if_true, if_false, View.transpose,
      transpose_size, Point.transpose]
  rw [hs, hM, justifyLine_transpose f g hj, List.map_map, List.map_map, List.map_map, List.map_map]
  apply List.map_congr_left
  intro e _
  simp only [Function.comp]
  rw [alignChild_transpose f g ha (singleLine f v) (singleLine g v.transpose) hl rfl,
    rectOf_transpose f g hf hg]

/-- C19: a `Column` container and a `Row` container with the same `Wrap`,
`Justify` and `AlignItems` values, whatever these are, run transposed passes
on a view and on the view with `X` and `Y` swapped: the rectangle `(x0, y0,
x1, y1)` handed to sub view `i` of the `Column` is the rectangle `(y0, x0, y1,
x1)` handed to sub view `i` of the `Row` with the coordinates swapped back, and
one pass panics exactly when the other does. -/
theorem column_is_transposed_row (f g : Flex) (v : View) (hf : f.Direction = Column)
    (hg : g.Direction = Row) (hw : f.Wrap = g.Wrap) (hj : f.Justify = g.Justify)
    (ha : f.AlignItems = g.AlignItems) :
    (OnLayout f v).rects = (OnLayout g v.transpose).rects.map Rectangle.transpose ∧
    (OnLayout f v).failure = (OnLayout g v.transpose).failure ∧
    ∀ (i : Nat) (r : Rectangle), (OnLayout f v).rects[i]? = some r →
      (OnLayout g v.transpose).rects[i]? = some ⟨⟨r.Min.Y, r.Min.X⟩, ⟨r.Max.Y, r.Max.X⟩⟩ := by
  by_cases hwf : f.Wrap = NoWrap
  · have hwg : g.Wrap = NoWrap := by rw [← hw]; exact hwf
    have hr := rects_transpose f g v hf hg hwf hwg hj ha
    refine ⟨?_, ?_, ?_⟩
    · rw [hr, List.map_map]
      have : Rectangle.transpose ∘ Rectangle.transpose = id := by
        funext r; exact rectangle_transpose_transpose r
      rw [this, List.map_id]
    · rw [(OnLayout_rects f v (Or.inr hf) hwf).1,
        (OnLayout_rects g v.transpose (Or.inl hg) hwg).1]
    · intro i r hi
      rw [hr, List.getElem?_map, hi]
      rfl
  · have hwg : g.Wrap ≠ NoWrap := by rw [← hw]; exact hwf
    have h1 : OnLayout f v = ⟨[], some "not implemented"⟩ := by
      unfold OnLayout; rw [resolve_wrap f v (Or.inr hf) hwf]
    have h2 : OnLayout g v.transpose = ⟨[], some "not implemented"⟩ := by
      unfold OnLayout; rw [resolve_wrap g v.transpose (Or.inl hg) hwg]
    rw [h1, h2]
    refine ⟨rfl, rfl, ?_⟩
    intro i r hi
    simp [Pass.rects] at hi

/-- C19, an instance: sub views 20 by 30 and 10 by 40 in a container 50 wide
and 100 high, as a `Column` under `JustifySpaceAround` and `AlignItemEnd`. -/
theorem column_is_transposed_row_witness :
    ((OnLayout columnFlex mixedView).rects =
        (OnLayout rowFlex mixedView.transpose).rects.map Rectangle.transpose ∧
      (OnLayout columnFlex mixedView).failure = (OnLayout rowFlex mixedView.transpose).failure ∧
      ∀ (i : Nat) (r : Rectangle), (OnLayout columnFlex mixedView).rects[i]? = some r →
        (OnLayout rowFlex mixedView.transpose).rects[i]? =
          some ⟨⟨r.Min.Y, r.Min.X⟩, ⟨r.Max.Y, r.Max.X⟩⟩) ∧
    (OnLayout columnFlex mixedView).rects = [⟨⟨30, 8⟩, ⟨50, 38⟩⟩, ⟨⟨40, 53⟩, ⟨50, 93⟩⟩] ∧
    (OnLayout rowFlex mixedView.transpose).rects = [⟨⟨8, 30⟩, ⟨38, 50⟩⟩, ⟨⟨53, 40⟩, ⟨93, 50⟩⟩] :=
  ⟨column_is_transposed_row columnFlex rowFlex mixedView rfl rfl rfl rfl rfl,
    by decide!, by decide!⟩

/-! ## Lines whose sub views fit -/

theorem take_sum_bounds (l : List Int) (h : ∀ s ∈ l, 0 ≤ s) (j : Nat) :
    0 ≤ (l.take j).sum ∧ (l.take j).sum ≤ l.sum := by
  induction l generalizing j with
  | nil => simp
  | cons a l ih =>
    have ha : 0 ≤ a := h a (List.mem_cons_self _ _)
    have hl : ∀ s ∈ l, 0 ≤ s := fun s hs => h s (List.mem_cons_of_mem _ hs)
    cases j with
    | zero =>
      have := (ih hl l.length).1
      rw [List.take_length] at this
      simp only [List.take_zero, List.sum_nil, List.sum_cons, le_refl, true_and]
      linarith
    | succ j =>
      obtain ⟨h1, h2⟩ := ih hl j
      simp only [List.take_succ_cons, List.sum_cons]
      constructor <;> linarith

/-- The part of a line in front of a sub view and the sub view itself, when no
main extent is negative. -/
theorem before_bounds (f : Flex) (v : View) (hpos : ∀ s ∈ mainExtents f v, 0 ≤ s)
    (i : Nat) (c : Rectangle) (hc : v.subViews[i]? = some c) :
    0 ≤ mainBefore f v i ∧ 0 ≤ mainOf f c.Size ∧
    mainBefore f v i + mainOf f c.Size ≤ (mainExtents f v).sum := by
  have hci : (mainExtents f v)[i]? = some (mainOf f c.Size) := by simp [mainExtents, hc]
  refine ⟨(take_sum_bounds _ hpos i).1, hpos _ (List.getElem?_mem hci), ?_⟩
  rw [← mainBefore_succ f v i c hc]
  exact (take_sum_bounds _ hpos (i + 1)).2

theorem div_fin_nonneg {a b r : ℚ} (hb : b ≠ 0) (h : F64.div (F64.fin a) (F64.fin b) = F64.fin r)
    (h0 : 0 ≤ a / b) : 0 ≤ r := by
  simp only [F64.div, if_neg hb] at h
  exact rnd_mono exact_zero.rnd h h0

/-- With at most `2^16` sub views and extents within `2^31`, the main offset
of a sub view of a line that fits is a binary64 value within `1/4` of a
number `t` that leaves the sub view inside the container. -/
theorem main_offset_target (f : Flex) (v : View) (hn : v.subViews.length ≤ 2 ^ (16 : ℕ))
    (hb : |mainOf f v.rect.Size| + absSum (mainExtents f v) ≤ 2 ^ (31 : ℕ))
    (hpos : ∀ s ∈ mainExtents f v, 0 ≤ s)
    (hfit : (mainExtents f v).sum ≤ mainOf f v.rect.Size)
    (i : Nat) (c : Rectangle) (hc : v.subViews[i]? = some c) :
    ∃ y t : ℚ, mainOffsetAt f v i = F64.fin y ∧ IsF64 y ∧ |y| ≤ 2 ^ (32 : ℕ) + 1 ∧
      |y - t| ≤ 1 / 4 ∧ 0 ≤ t ∧ t + (mainOf f c.Size : ℚ) ≤ (mainOf f v.rect.Size : ℚ) := by
  have hi : i < v.subViews.length := by
    rcases Nat.lt_or_ge i v.subViews.length with h | h
    · exact h
    · rw [List.getElem?_eq_none h] at hc; cases hc
  obtain ⟨hB0, hs0, hBS⟩ := before_bounds f v hpos i c hc
  have hR0 : 0 ≤ remainingFree f v := by unfold remainingFree; linarith
  have hM : (mainOf f v.rect.Size : ℚ) =
      (remainingFree f v : ℚ) + ((mainExtents f v).sum : ℤ) := by
    unfold remainingFree; push_cast; ring
  have hB0q : (0 : ℚ) ≤ (mainBefore f v i : ℚ) := by exact_mod_cast hB0
  have hR0q : (0 : ℚ) ≤ (remainingFree f v : ℚ) := by exact_mod_cast hR0
  have hBSq : (mainBefore f v i : ℚ) + (mainOf f c.Size : ℚ) ≤ (((mainExtents f v).sum : ℤ) : ℚ) := by
    exact_mod_cast hBS
  set n := v.subViews.length with hn_def
  set R := (remainingFree f v : ℚ) with hR_def
  have hiq : (i : ℚ) + 1 ≤ (n : ℚ) := by exact_mod_cast hi
  have hi0 : (0 : ℚ) ≤ (i : ℚ) := by positivity
  by_cases hB : f.Justify = JustifySpaceBetween
  · by_cases hn2 : 2 ≤ n
    · obtain ⟨y, h1, h2, h3, h4⟩ := between_offset_err f v hB hn2 hn hb i hi
      refine ⟨y, betweenOffset f v i, h1, h2, h4, h3.trans (index_div_le i n hi hn), ?_, ?_⟩
      · unfold betweenOffset
        have hd : (0 : ℚ) < (n : ℚ) - 1 := by
          have : (2 : ℚ) ≤ (n : ℚ) := by exact_mod_cast hn2
          linarith
        have : 0 ≤ (i : ℚ) * (R / ((n : ℚ) - 1)) := mul_nonneg hi0 (div_nonneg hR0q hd.le)
        linarith
      · unfold betweenOffset
        have hd : (0 : ℚ) < (n : ℚ) - 1 := by
          have : (2 : ℚ) ≤ (n : ℚ) := by exact_mod_cast hn2
          linarith
        have h5 : (i : ℚ) * (R / ((n : ℚ) - 1)) ≤ R := by
          rw [mul_div_assoc', div_le_iff₀ hd]
          nlinarith
        rw [hM]
        linarith
    · have hi0' : i = 0 := by omega
      subst hi0'
      refine ⟨0, 0, ?_, exact_zero.rnd, by norm_num, by norm_num, le_rfl, ?_⟩
      · have a1 : ¬ JustifySpaceBetween = JustifyStart := by decide
        have a2 : ¬ JustifySpaceBetween = JustifyEnd := by decide
        have a3 : ¬ JustifySpaceBetween = JustifyCenter := by decide
        rw [mainOffsetAt_zero]
        simp only [justifyStart, hB, a1, a2, a3, if_false, if_true]
      · rw [hM]; linarith
  by_cases hA : f.Justify = JustifySpaceAround
  · obtain ⟨y, h1, h2, h3, h4⟩ := around_offset_err f v hA hn hb i hi
    have hnpos : (0 : ℚ) < (n : ℚ) := by linarith
    refine ⟨y, aroundOffset f v i, h1, h2, h4, h3.trans ?_, ?_, ?_⟩
    · rw [div_le_iff₀ (by positivity)]
      have : (n : ℚ) ≤ ((2 ^ (16 : ℕ) : ℕ) : ℚ) := by exact_mod_cast hn
      have h2 : (((2 : ℕ) ^ (16 : ℕ) : ℕ) : ℚ) = 2 ^ (16 : ℕ) := by norm_num
      rw [h2] at this
      have h3 : (1 : ℚ) / 4 * 2 ^ (18 : ℕ) = 2 ^ (16 : ℕ) := by norm_num
      linarith
    · unfold aroundOffset
      have h5 : 0 ≤ R / (n : ℚ) := div_nonneg hR0q hnpos.le
      have h6 : 0 ≤ (i : ℚ) * (R / (n : ℚ)) := mul_nonneg hi0 h5
      linarith
    · unfold aroundOffset
      have h5 : R / (n : ℚ) / 2 + (i : ℚ) * (R / (n : ℚ)) ≤ R := by
        have : R / (n : ℚ) / 2 + (i : ℚ) * (R / (n : ℚ)) = R * ((2 * (i : ℚ) + 1) / (2 * (n : ℚ))) := by
          field_simp; ring
        rw [this]
        have h6 : (2 * (i : ℚ) + 1) / (2 * (n : ℚ)) ≤ 1 := by
          rw [div_le_one (by positivity)]; linarith
        nlinarith
      rw [hM]
      linarith
  obtain ⟨hR, _, hRB, _⟩ := line_bounds f v hb
  obtain ⟨k, hjs, hk, ho⟩ := justifyStart_nospacing f v ⟨hB, hA⟩ (hb.trans (by norm_num))
  have ho0 : 0 ≤ startOffset f (remainingFree f v) ∧ startOffset f (remainingFree f v) ≤ R := by
    unfold startOffset
    split_ifs
    · exact ⟨hR0q, le_rfl⟩
    · constructor <;> linarith
    · exact ⟨le_rfl, hR0q⟩
  set o := startOffset f (remainingFree f v) with ho_def
  have hA2 : (absSum (mainExtents f v) : ℚ) ≤ 2 ^ (31 : ℕ) := by
    have h1 : absSum (mainExtents f v) ≤ 2 ^ (31 : ℕ) := by
      linarith [abs_nonneg (mainOf f v.rect.Size)]
    have c31 : (((2 : ℤ) ^ (31 : ℕ) : ℤ) : ℚ) = 2 ^ (31 : ℕ) := by norm_num
    rw [← c31]
    exact Int.cast_le.2 h1
  have hoff := offsetAt_exact o ⟨k, hk⟩ (mainExtents f v) (by
    have : (2 : ℚ) ^ (31 : ℕ) + 2 ^ (31 : ℕ) < 2 ^ (52 : ℕ) := by norm_num
    linarith) i
  have hbnd : |o + (mainBefore f v i : ℚ)| ≤ 2 ^ (32 : ℕ) := by
    have h1 := abs_add o (mainBefore f v i : ℚ)
    have h2 := hRB i
    linarith
  refine ⟨o + (mainBefore f v i : ℚ), o + (mainBefore f v i : ℚ), ?_, ?_, by linarith, ?_, ?_, ?_⟩
  · rw [mainOffsetAt_eq, hjs]; exact hoff
  · have hE : Exact (o + (mainBefore f v i : ℚ)) := by
      refine ⟨⟨k + 2 * mainBefore f v i, by rw [hk]; push_cast; ring⟩, ?_⟩
      have : (2 : ℚ) ^ (32 : ℕ) < 2 ^ (52 : ℕ) := by norm_num
      linarith
    exact hE.rnd
  · simp
  · linarith [ho0.1]
  · rw [hM]; linarith [ho0.2]

theorem absSum_of_nonneg (l : List Int) (h : ∀ s ∈ l, 0 ≤ s) : absSum l = l.sum := by
  induction l with
  | nil => rfl
  | cons a l ih =>
    have ha : 0 ≤ a := h a (List.mem_cons_self _ _)
    rw [absSum_cons, ih (fun s hs => h s (List.mem_cons_of_mem _ hs)), abs_of_nonneg ha,
      List.sum_cons]

/-- A line that fits in a container of main extent at most `2^30` is within
the bound `2^31` of the error analysis. -/
theorem fit_bound (f : Flex) (v : View) (hM : mainOf f v.rect.Size ≤ 2 ^ (30 : ℕ))
    (hpos : ∀ s ∈ mainExtents f v, 0 ≤ s)
    (hfit : (mainExtents f v).sum ≤ mainOf f v.rect.Size) :
    |mainOf f v.rect.Size| + absSum (mainExtents f v) ≤ 2 ^ (31 : ℕ) := by
  have h0 : 0 ≤ (mainExtents f v).sum := by
    have := (take_sum_bounds _ hpos 0).2
    simpa using this
  rw [absSum_of_nonneg _ hpos, abs_of_nonneg (by linarith)]
  have : (2 : ℤ) ^ (31 : ℕ) = 2 ^ (30 : ℕ) + 2 ^ (30 : ℕ) := by norm_num
  linarith

/-- C16 (amended): in a `Row` or `Column` container with `Wrap = NoWrap`, at
most `2^16` sub views and a main extent of at most `2^30`, whatever the
`Justify` value, when no sub view has a negative main extent and the main
extents add up to at most the main extent of the container, the rectangle
handed to a sub view has its near main edge at or after `0`, its far main edge
at or before the main extent of the container, and the near one not after the
far one. -/
theorem main_range_contained (f : Flex) (v : View)
    (hd : f.Direction = Row ∨ f.Direction = Column) (hw : f.Wrap = NoWrap)
    (hn : v.subViews.length ≤ 2 ^ (16 : ℕ)) (hM : mainOf f v.rect.Size ≤ 2 ^ (30 : ℕ))
    (hpos : ∀ s ∈ mainExtents f v, 0 ≤ s)
    (hfit : (mainExtents f v).sum ≤ mainOf f v.rect.Size)
    (i : Nat) (c : Rectangle) (hc : v.subViews[i]? = some c) :
    ∃ r, (OnLayout f v).rects[i]? = some r ∧ 0 ≤ mainOf f r.Min ∧
      mainOf f r.Min ≤ mainOf f r.Max ∧ mainOf f r.Max ≤ mainOf f v.rect.Size := by
  have hb := fit_bound f v hM hpos hfit
  obtain ⟨els, e, h1, h2, h3, h4, _, _, _, h8⟩ := resolved_at f v hd hw i c hc
  obtain ⟨y, t, hy, hyrep, hyb, hyt, ht0, htM⟩ := main_offset_target f v hn hb hpos hfit i c hc
  obtain ⟨_, hs, _, _⟩ := line_bounds f v hb
  obtain ⟨_, hs0, _⟩ := before_bounds f v hpos i c hc
  have hsc : |mainOf f c.Size| ≤ 2 ^ (31 : ℕ) :=
    hs _ (by
      have : (mainExtents f v)[i]? = some (mainOf f c.Size) := by simp [mainExtents, hc]
      exact List.getElem?_mem this)
  obtain ⟨z, hz, _, _, hinv, w2, hw2, hw2e⟩ := edges_of_offset y hyb hyrep (mainOf f c.Size) hsc
  obtain ⟨w1, hw1, hw1e⟩ := round_err y (hyb.trans (by norm_num))
  obtain ⟨m1, m2, _, _⟩ := rectOf_edges f e
  have hnear : mainOf f (rectOf f e).Min = round (F64.fin y) := by rw [m1, h3, hy]
  have hfar : mainOf f (rectOf f e).Max = round (F64.fin z) := by rw [m2, h3, hy, h4, hz]
  rw [abs_le] at hyt hw1e hw2e
  refine ⟨rectOf f e, h8, ?_, ?_, ?_⟩
  · rw [hnear, hw1, Int.le_floor]
    have : (1 : ℚ) / 2 ^ (20 : ℕ) ≤ 1 / 4 := by norm_num
    push_cast
    linarith [hyt.1, hw1e.1]
  · rw [hnear, hfar]
    exact hinv hs0
  · rw [hfar, hw2]
    have h5 : ⌊w2⌋ < mainOf f v.rect.Size + 1 := by
      rw [Int.floor_lt]
      have : (1 : ℚ) / 2 ^ (19 : ℕ) < 1 / 4 := by norm_num
      push_cast
      linarith [hyt.2, hw2e.2]
    omega

/-- C16, an instance: the second of three sub views in a container 15 wide
under `JustifySpaceAround`. -/
theorem main_range_contained_witness :
    ∃ r, (OnLayout growFlex growView).rects[1]? = some r ∧ 0 ≤ mainOf growFlex r.Min ∧
      mainOf growFlex r.Min ≤ mainOf growFlex r.Max ∧
      mainOf growFlex r.Max ≤ mainOf growFlex growView.rect.Size :=
  main_range_contained growFlex growView (by decide) (by decide) (by decide) (by decide)
    (by decide) (by decide) 1 (rectWH 2 20) (by decide)

/-- C16 as stated fails on a container `2^52 + 1` wide holding one sub view as
wide under `JustifyStart`: the sub view is handed the far main edge
`2^52 + 2`, past the end of the container. -/
theorem main_range_counterexample :
    (∀ s ∈ mainExtents { NewFlex 4503599627370497 50 with Justify := JustifyStart } edgeView,
      0 ≤ s) ∧
    (mainExtents { NewFlex 4503599627370497 50 with Justify := JustifyStart } edgeView).sum ≤
      mainOf { NewFlex 4503599627370497 50 with Justify := JustifyStart } edgeView.rect.Size ∧
    (OnLayout { NewFlex 4503599627370497 50 with Justify := JustifyStart } edgeView).rects =
      [⟨⟨0, 15⟩, ⟨4503599627370498, 35⟩⟩] ∧
    mainOf { NewFlex 4503599627370497 50 with Justify := JustifyStart } edgeView.rect.Size =
      4503599627370497 := by
  refine ⟨by decide, by decide, by decide!, by decide⟩

/-! ## The order of the sub views along the main axis -/

theorem add_zero_rnd (q : ℚ) : F64.add (F64.fin 0) (F64.rnd q) = F64.rnd q := by
  generalize h : F64.rnd q = x
  cases x with
  | fin r =>
    have := rnd_idem q r h
    simp only [F64.add, zero_add]
    exact this
  | pinf => rfl
  | ninf => rfl
  | nan =>
    unfold F64.rnd at h
    split_ifs at h

theorem spacing_zero (f : Flex) (rem : F64) (n : Nat) (hB : f.Justify ≠ JustifySpaceBetween)
    (hA : f.Justify ≠ JustifySpaceAround) : (justifyStart f rem n).2 = F64.fin 0 := by
  unfold justifyStart
  split_ifs <;> rfl

/-- The spacing of a line of at least two sub views that fits is a binary64
value that is not negative. -/
theorem spacing_nonneg (f : Flex) (v : View) (hn2 : 2 ≤ v.subViews.length)
    (hn : v.subViews.length ≤ 2 ^ (16 : ℕ))
    (hb : |mainOf f v.rect.Size| + absSum (mainExtents f v) ≤ 2 ^ (31 : ℕ))
    (hR0 : 0 ≤ remainingFree f v) :
    ∃ σ : ℚ, (justifyStart f (remFreeOf f v) v.subViews.length).2 = F64.fin σ ∧ 0 ≤ σ ∧
      σ ≤ 2 ^ (31 : ℕ) + 1 := by
  obtain ⟨hR, hs, hRB, hrem⟩ := line_bounds f v hb
  set n := v.subViews.length with hn_def
  set R := remainingFree f v with hR_def
  have hR0q : (0 : ℚ) ≤ (R : ℚ) := by exact_mod_cast hR0
  have h22 : (1 : ℚ) / 2 ^ (22 : ℕ) ≤ 1 := by norm_num
  by_cases hB : f.Justify = JustifySpaceBetween
  · have hnq : ((n : ℤ) - 1 : ℤ) = ((n - 1 : ℕ) : ℤ) := by omega
    have hd52 : |(n : ℤ) - 1| < 2 ^ (52 : ℕ) := by
      rw [hnq, Nat.abs_cast]
      have : n - 1 < 2 ^ (16 : ℕ) := by omega
      have h2 : ((n - 1 : ℕ) : ℤ) < ((2 ^ (16 : ℕ) : ℕ) : ℤ) := by exact_mod_cast this
      have h3 : (((2 : ℕ) ^ (16 : ℕ) : ℕ) : ℤ) < 2 ^ (52 : ℕ) := by norm_num
      exact lt_trans h2 h3
    have hdne : (((n : ℤ) - 1 : ℤ) : ℚ) ≠ 0 := by
      rw [hnq]
      have : n - 1 ≠ 0 := by omega
      exact_mod_cast this
    have hdq : (((n : ℤ) - 1 : ℤ) : ℚ) = ((n - 1 : ℕ) : ℚ) := by rw [hnq]; simp
    have hσb : |(R : ℚ) / ((n - 1 : ℕ) : ℚ)| ≤ |(R : ℚ)| := by
      have := abs_frac_mul_le 1 (n - 1) (by omega) (R : ℚ)
      simpa using this
    obtain ⟨σ', hσ', hσ'e, _⟩ := div_err (R : ℚ) (((n : ℤ) - 1 : ℤ) : ℚ) hdne 32 (by norm_num)
      (by norm_num) (by
        rw [hdq]
        have : (2 : ℚ) ^ (31 : ℕ) < 2 ^ (32 : ℕ) := by norm_num
        linarith)
    rw [pow32, hdq] at hσ'e
    have hpos : 0 ≤ σ' := by
      apply div_fin_nonneg hdne hσ'
      rw [hdq]
      exact div_nonneg hR0q (by positivity)
    have hjs : justifyStart f (remFreeOf f v) n = (F64.fin 0, F64.fin σ') := by
      have h1 : ¬ JustifySpaceBetween = JustifyStart := by decide
      have h2 : ¬ JustifySpaceBetween = JustifyEnd := by decide
      have h3 : ¬ JustifySpaceBetween = JustifyCenter := by decide
      simp only [justifyStart, hB, h1, h2, h3, if_false, if_true, hrem, ofInt_exact _ hd52, hσ']
    refine ⟨σ', by rw [hjs], hpos, ?_⟩
    have := abs_le_of_err _ _ _ _ hσ'e (hσb.trans hR)
    have h4 := le_abs_self σ'
    linarith
  by_cases hA : f.Justify = JustifySpaceAround
  · have hn0 : 0 < n := by omega
    have hd52 : |(n : ℤ)| < 2 ^ (52 : ℕ) := by
      rw [Nat.abs_cast]
      have h2 : ((n : ℕ) : ℤ) ≤ ((2 ^ (16 : ℕ) : ℕ) : ℤ) := by exact_mod_cast hn
      have h3 : (((2 : ℕ) ^ (16 : ℕ) : ℕ) : ℤ) < 2 ^ (52 : ℕ) := by norm_num
      exact lt_of_le_of_lt h2 h3
    have hdne : (((n : ℤ) : ℤ) : ℚ) ≠ 0 := by
      have : n ≠ 0 := by omega
      exact_mod_cast this
    have hdq : (((n : ℤ) : ℤ) : ℚ) = (n : ℚ) := by simp
    have hσb : |(R : ℚ) / (n : ℚ)| ≤ |(R : ℚ)| := by
      have := abs_frac_mul_le 1 n (by omega) (R : ℚ)
      simpa using this
    obtain ⟨σ', hσ', hσ'e, _⟩ := div_err (R : ℚ) (((n : ℤ) : ℤ) : ℚ) hdne 32 (by norm_num)
      (by norm_num) (by
        rw [hdq]
        have : (2 : ℚ) ^ (31 : ℕ) < 2 ^ (32 : ℕ) := by norm_num
        linarith)
    rw [pow32, hdq] at hσ'e
    have hpos : 0 ≤ σ' := by
      apply div_fin_nonneg hdne hσ'
      rw [hdq]
      exact div_nonneg hR0q (by positivity)
    have hjs : (justifyStart f (remFreeOf f v) n).2 = F64.fin σ' := by
      have h1 : ¬ JustifySpaceAround = JustifyStart := by decide
      have h2 : ¬ JustifySpaceAround = JustifyEnd := by decide
      have h3 : ¬ JustifySpaceAround = JustifyCenter := by decide
      have h4 : ¬ JustifySpaceAround = JustifySpaceBetween := by decide
      simp only [justifyStart, hA, h1, h2, h3, h4, if_false, if_true, hrem, ofInt_exact _ hd52,
        hσ']
    refine ⟨σ', hjs, hpos, ?_⟩
    have := abs_le_of_err _ _ _ _ hσ'e (hσb.trans hR)
    have h4 := le_abs_self σ'
    linarith
  exact ⟨0, spacing_zero f _ _ hB hA, le_rfl, by norm_num⟩

/-- C20 (amended): in a pass that does not panic the far main edge of a sub
view is the near main edge of the next one whenever `Justify` is neither
`JustifySpaceBetween` nor `JustifySpaceAround`; and whatever the `Justify`
value, with at most `2^16` sub views in a container of main extent at most
`2^30`, when no main extent is negative and the main extents add up to at most
the main extent of the container, the far main edge of a sub view is never
past the near main edge of the next one. -/
theorem consecutive_order (f : Flex) (v : View)
    (hd : f.Direction = Row ∨ f.Direction = Column) (hw : f.Wrap = NoWrap)
    (i : Nat) (c d : Rectangle) (hc : v.subViews[i]? = some c)
    (hc2 : v.subViews[i + 1]? = some d) :
    ∃ r s : Rectangle, (OnLayout f v).rects[i]? = some r ∧
      (OnLayout f v).rects[i + 1]? = some s ∧
      (f.Justify ≠ JustifySpaceBetween → f.Justify ≠ JustifySpaceAround →
        mainOf f r.Max = mainOf f s.Min) ∧
      (v.subViews.length ≤ 2 ^ (16 : ℕ) → mainOf f v.rect.Size ≤ 2 ^ (30 : ℕ) →
        (∀ x ∈ mainExtents f v, 0 ≤ x) → (mainExtents f v).sum ≤ mainOf f v.rect.Size →
        mainOf f r.Max ≤ mainOf f s.Min) := by
  have hi2 : i + 1 < v.subViews.length := by
    rcases Nat.lt_or_ge (i + 1) v.subViews.length with h | h
    · exact h
    · rw [List.getElem?_eq_none h] at hc2; cases hc2
  obtain ⟨els, e, _, _, h3, h4, _, _, _, h8⟩ := resolved_at f v hd hw i c hc
  obtain ⟨els2, e2, _, _, g3, _, _, _, _, g8⟩ := resolved_at f v hd hw (i + 1) d hc2
  obtain ⟨_, m2, _, _⟩ := rectOf_edges f e
  obtain ⟨n1, _, _, _⟩ := rectOf_edges f e2
  have hsucc := mainOffsetAt_succ f v i c hc
  refine ⟨rectOf f e, rectOf f e2, h8, g8, ?_, ?_⟩
  · intro hB hA
    rw [m2, n1, g3, hsucc, h3, h4, spacing_zero f _ _ hB hA]
    unfold F64.ofInt
    rw [add_zero_rnd]
  · intro hn hM hpos hfit
    have hb := fit_bound f v hM hpos hfit
    have hR0 : 0 ≤ remainingFree f v := by unfold remainingFree; linarith
    obtain ⟨y, hy, hyrep, hyb⟩ := main_offset_bounded f v hn hb i (by omega)
    obtain ⟨y2, hy2, _, hy2b⟩ := main_offset_bounded f v hn hb (i + 1) hi2
    obtain ⟨σ, hσ, hσ0, hσb⟩ := spacing_nonneg f v (by omega) hn hb hR0
    obtain ⟨_, hs, _, _⟩ := line_bounds f v hb
    have hsc : |mainOf f c.Size| ≤ 2 ^ (31 : ℕ) :=
      hs _ (by
        have : (mainExtents f v)[i]? = some (mainOf f c.Size) := by simp [mainExtents, hc]
        exact List.getElem?_mem this)
    have hscq : |(mainOf f c.Size : ℚ)| ≤ 2 ^ (31 : ℕ) := by
      have := cast_abs_le _ _ hsc
      simpa using this
    have hsE : F64.ofInt (mainOf f c.Size) = F64.fin (mainOf f c.Size : ℚ) :=
      ofInt_exact _ (lt_of_le_of_lt hsc (by norm_num))
    obtain ⟨z, hz, hze, _, _, _⟩ := edges_of_offset y hyb hyrep (mainOf f c.Size) hsc
    obtain ⟨t, ht, _, _⟩ := add_err σ (mainOf f c.Size : ℚ) 33 (by norm_num) (by norm_num) (by
      have h1 := abs_add σ (mainOf f c.Size : ℚ)
      have h2 : |σ| = σ := abs_of_nonneg hσ0
      have h3 : (2 : ℚ) ^ (31 : ℕ) + 1 + 2 ^ (31 : ℕ) < 2 ^ (33 : ℕ) := by norm_num
      linarith)
    have hts : (mainOf f c.Size : ℚ) ≤ t := by
      have hrs : F64.rnd (mainOf f c.Size : ℚ) = F64.fin (mainOf f c.Size : ℚ) := hsE
      exact rnd_mono hrs ht (by linarith)
    rw [hy, hσ, hsE, ht, hy2] at hsucc
    rw [hsE] at hz
    have hzy : z ≤ y2 := add_mono hz hsucc.symm (by linarith)
    rw [m2, n1, g3, hy2, h3, hy, h4, hsE, hz]
    apply round_mono _ _ hzy
    · rw [abs_le] at hze hyb hscq ⊢
      have h1 : (1 : ℚ) / 2 ^ (20 : ℕ) ≤ 1 := by norm_num
      have h2 : (2 : ℚ) ^ (32 : ℕ) + 1 + 2 ^ (31 : ℕ) + 1 ≤ 2 ^ (62 : ℕ) := by norm_num
      constructor <;> linarith [hze.1, hze.2, hyb.1, hyb.2, hscq.1, hscq.2]
    · exact hy2b.trans (by norm_num)

/-- C20, an instance: the first two of three sub views in a container 15 wide
under `JustifySpaceAround`. -/
theorem consecutive_order_witness :
    (∃ r s : Rectangle, (OnLayout growFlex growView).rects[0]? = some r ∧
      (OnLayout growFlex growView).rects[0 + 1]? = some s ∧
      (growFlex.Justify ≠ JustifySpaceBetween → growFlex.Justify ≠ JustifySpaceAround →
        mainOf growFlex r.Max = mainOf growFlex s.Min) ∧
      (growView.subViews.length ≤ 2 ^ (16 : ℕ) →
        mainOf growFlex growView.rect.Size ≤ 2 ^ (30 : ℕ) →
        (∀ x ∈ mainExtents growFlex growView, 0 ≤ x) →
        (mainExtents growFlex growView).sum ≤ mainOf growFlex growView.rect.Size →
        mainOf growFlex r.Max ≤ mainOf growFlex s.Min)) ∧
    (growView.subViews.length ≤ 2 ^ (16 : ℕ) ∧
      mainOf growFlex growView.rect.Size ≤ 2 ^ (30 : ℕ) ∧
      (∀ x ∈ mainExtents growFlex growView, 0 ≤ x) ∧
      (mainExtents growFlex growView).sum ≤ mainOf growFlex growView.rect.Size) ∧
    (OnLayout growFlex growView).rects =
      [⟨⟨2, 15⟩, ⟨3, 35⟩⟩, ⟨⟨6, 15⟩, ⟨9, 35⟩⟩, ⟨⟨12, 15⟩, ⟨13, 35⟩⟩] :=
  ⟨consecutive_order growFlex growView (by decide) (by decide) 0 (rectWH 1 20) (rectWH 2 20)
      (by decide) (by decide),
    ⟨by decide, by decide, by decide, by decide⟩, by decide!⟩

/-- C20 as stated fails on a container 9042383626829829 wide under
`JustifySpaceBetween` that its two sub views, 9007199254740995 and
35184372088834 wide, fill: the first is handed the far main edge
9007199254740996 and the second the near main edge 9007199254740994. -/
theorem consecutive_order_counterexample :
    (∀ x ∈ mainExtents { NewFlex 9042383626829829 50 with Justify := JustifySpaceBetween }
      overlapView, 0 ≤ x) ∧
    (mainExtents { NewFlex 9042383626829829 50 with Justify := JustifySpaceBetween }
        overlapView).sum ≤
      mainOf { NewFlex 9042383626829829 50 with Justify := JustifySpaceBetween }
        overlapView.rect.Size ∧
    (OnLayout { NewFlex 9042383626829829 50 with Justify := JustifySpaceBetween }
        overlapView).rects =
      [⟨⟨0, 15⟩, ⟨9007199254740996, 35⟩⟩, ⟨⟨9007199254740994, 15⟩, ⟨9042383626829828, 35⟩⟩] := by
  refine ⟨by decide, by decide, by decide!⟩

end flex
